import Mathlib

/-!
# lingua-cpp: the detector façade, its builder and the text utilities

A shallow embedding of `src/src/language_detector.cpp`, of
`src/src/language_detector_builder.cpp`, of the tokenizer and the cleaning functions of
`src/src/text_processor.cpp`, of the `Language` enumeration and the ISO code functions of
`src/include/lingua/language.h` / `src/src/language.cpp`, of the script tables of
`src/src/alphabet.cpp` and of the n-gram constructors of `src/src/ngram.cpp`.

Conventions of the embedding.

* A `std::string` is the list of its bytes, each byte a natural number below 256.
* A `double` is read as an exact rational number (`ℚ`): `0.4` is `2/5`, `0.01` is `1/100`,
  and sums and quotients are exact. The section on the arithmetic of `double` gives
  `compute_language_confidence_values` a second time, with every literal, sum and quotient
  rounded to the nearest value of the type (IEEE 754 binary64); what holds of the exact
  reading only is marked as such.
* `languages_`, a `std::unordered_set<Language>`, is the list of its elements in the set's
  iteration order, which the standard leaves open. A set holds no element twice; where a
  property depends on that, it is the hypothesis `List.Nodup`. Nothing is assumed about
  the order.
* `::tolower`, `std::isspace`, `std::isdigit` and `std::ispunct` are those of the default "C"
  locale (the program never changes the locale).
* A function that can throw returns an `Except Exception`; a method that changes its object
  returns the object after the call.
-/

namespace lingua

/-- The enumeration `Language` of `language.h`, in declaration order. -/
inductive Language where
  | AFRIKAANS | ALBANIAN | ARABIC | ARMENIAN | AZERBAIJANI | BASQUE | BELARUSIAN | BENGALI
  | BOKMAL | BOSNIAN | BULGARIAN | CATALAN | CHINESE | CROATIAN | CZECH | DANISH
  | DUTCH | ENGLISH | ESPERANTO | ESTONIAN | FINNISH | FRENCH | GANDA | GEORGIAN
  | GERMAN | GREEK | GUJARATI | HEBREW | HINDI | HUNGARIAN | ICELANDIC | INDONESIAN
  | IRISH | ITALIAN | JAPANESE | KAZAKH | KOREAN | LATIN | LATVIAN | LITHUANIAN
  | MACEDONIAN | MALAY | MAORI | MARATHI | MONGOLIAN | NYNORSK | PERSIAN | POLISH
  | PORTUGUESE | PUNJABI | ROMANIAN | RUSSIAN | SERBIAN | SHONA | SLOVAK | SLOVENE
  | SOMALI | SOTHO | SPANISH | SWAHILI | SWEDISH | TAGALOG | TAMIL | TELUGU
  | THAI | TSONGA | TSWANA | TURKISH | UKRAINIAN | URDU | VIETNAMESE | WELSH
  | XHOSA | YORUBA | ZULU
  deriving DecidableEq, Repr, Fintype

/-- The underlying integer of an enumerator: its position in the declaration, from 0.
`a < b` on `Language` values in the C++ code compares these integers. -/
def Language.value (l : Language) : Nat := l.toCtorIdx

/-- The function `to_string(Language)` of `language.cpp`: the tag name of a language. -/
def to_string : Language → String
  | .AFRIKAANS => "AFRIKAANS" | .ALBANIAN => "ALBANIAN" | .ARABIC => "ARABIC"
  | .ARMENIAN => "ARMENIAN" | .AZERBAIJANI => "AZERBAIJANI" | .BASQUE => "BASQUE"
  | .BELARUSIAN => "BELARUSIAN" | .BENGALI => "BENGALI" | .BOKMAL => "BOKMAL"
  | .BOSNIAN => "BOSNIAN" | .BULGARIAN => "BULGARIAN" | .CATALAN => "CATALAN"
  | .CHINESE => "CHINESE" | .CROATIAN => "CROATIAN" | .CZECH => "CZECH"
  | .DANISH => "DANISH" | .DUTCH => "DUTCH" | .ENGLISH => "ENGLISH"
  | .ESPERANTO => "ESPERANTO" | .ESTONIAN => "ESTONIAN" | .FINNISH => "FINNISH"
  | .FRENCH => "FRENCH" | .GANDA => "GANDA" | .GEORGIAN => "GEORGIAN"
  | .GERMAN => "GERMAN" | .GREEK => "GREEK" | .GUJARATI => "GUJARATI"
  | .HEBREW => "HEBREW" | .HINDI => "HINDI" | .HUNGARIAN => "HUNGARIAN"
  | .ICELANDIC => "ICELANDIC" | .INDONESIAN => "INDONESIAN" | .IRISH => "IRISH"
  | .ITALIAN => "ITALIAN" | .JAPANESE => "JAPANESE" | .KAZAKH => "KAZAKH"
  | .KOREAN => "KOREAN" | .LATIN => "LATIN" | .LATVIAN => "LATVIAN"
  | .LITHUANIAN => "LITHUANIAN" | .MACEDONIAN => "MACEDONIAN" | .MALAY => "MALAY"
  | .MAORI => "MAORI" | .MARATHI => "MARATHI" | .MONGOLIAN => "MONGOLIAN"
  | .NYNORSK => "NYNORSK" | .PERSIAN => "PERSIAN" | .POLISH => "POLISH"
  | .PORTUGUESE => "PORTUGUESE" | .PUNJABI => "PUNJABI" | .ROMANIAN => "ROMANIAN"
  | .RUSSIAN => "RUSSIAN" | .SERBIAN => "SERBIAN" | .SHONA => "SHONA"
  | .SLOVAK => "SLOVAK" | .SLOVENE => "SLOVENE" | .SOMALI => "SOMALI"
  | .SOTHO => "SOTHO" | .SPANISH => "SPANISH" | .SWAHILI => "SWAHILI"
  | .SWEDISH => "SWEDISH" | .TAGALOG => "TAGALOG" | .TAMIL => "TAMIL"
  | .TELUGU => "TELUGU" | .THAI => "THAI" | .TSONGA => "TSONGA"
  | .TSWANA => "TSWANA" | .TURKISH => "TURKISH" | .UKRAINIAN => "UKRAINIAN"
  | .URDU => "URDU" | .VIETNAMESE => "VIETNAMESE" | .WELSH => "WELSH"
  | .XHOSA => "XHOSA" | .YORUBA => "YORUBA" | .ZULU => "ZULU"

/-- The bytes of a `std::string` holding the UTF-8 text `s`. -/
def bytes (s : String) : List Nat := (s.data.flatMap String.utf8EncodeChar).map UInt8.toNat

/-- The C function `tolower` on one byte, "C" locale: `A`..`Z` go to `a`..`z`, every other
byte (the bytes from 0x80 on included) is returned as it is. -/
def tolower (c : Nat) : Nat := if 65 ≤ c ∧ c ≤ 90 then c + 32 else c

/-- The C function `isspace` on one byte, "C" locale: space, `\t`, `\n`, `\v`, `\f`, `\r`. -/
def isspace (c : Nat) : Bool := c == 32 || (decide (9 ≤ c) && decide (c ≤ 13))

/-- The test `text.find(pat) != std::string::npos`: `pat` occurs in `text` as a contiguous
run of bytes, starting at some position. -/
def found : List Nat → List Nat → Bool
  | [], pat => pat.isPrefixOf []
  | c :: cs, pat => pat.isPrefixOf (c :: cs) || found cs pat

/-- The loop of `TextProcessor::tokenize`: `tokens` and `current_token` are the two locals,
the first argument is the part of the text still to be read. After the last byte the
pending token, if any, is pushed. -/
def tokenize_loop : List Nat → List (List Nat) → List Nat → List (List Nat)
  | [], tokens, current_token =>
    if !current_token.isEmpty then tokens ++ [current_token] else tokens
  | c :: rest, tokens, current_token =>
    if isspace c then
      if !current_token.isEmpty then tokenize_loop rest (tokens ++ [current_token]) []
      else tokenize_loop rest tokens current_token
    else tokenize_loop rest tokens (current_token ++ [c])

/-- The function `TextProcessor::tokenize`. -/
def tokenize (text : List Nat) : List (List Nat) :=
  if text.isEmpty then [] else tokenize_loop text [] []

/-- The comparator handed to `std::sort` in `compute_language_confidence_values`:
higher confidence first, and for equal confidence the smaller enumerator first. -/
def confidence_order (a b : Language × ℚ) : Bool :=
  if a.2 ≠ b.2 then decide (a.2 > b.2) else decide (a.1.value < b.1.value)

/-- The order in which `std::sort` leaves two entries: `b` is not ordered before `a`. -/
def not_after (a b : Language × ℚ) : Prop := confidence_order b a = false

/-- Insertion of one element into a list sorted by the strict comparator `comp`. -/
def sort_insert {α : Type} (comp : α → α → Bool) (a : α) : List α → List α
  | [] => [a]
  | b :: l => if comp a b then a :: b :: l else b :: sort_insert comp a l

/-- The call `std::sort(first, last, comp)`. The standard fixes the result as a permutation
of the input in which no element is ordered by `comp` before an element that precedes it;
two entries that `confidence_order` leaves unordered are equal pairs, so that result is
unique, and insertion sort computes it. -/
def std_sort {α : Type} (comp : α → α → Bool) : List α → List α
  | [] => []
  | a :: l => sort_insert comp a (std_sort comp l)

/-- The members of `LanguageDetector` (`language_detector.h`). -/
structure LanguageDetector where
  languages_ : List Language
  minimum_relative_distance_ : ℚ
  is_low_accuracy_mode_enabled_ : Bool
  is_built_from_one_language_ : Bool

/-- The body of the `switch` in `compute_language_confidence_values`: the keyword score of
one language on the lowercased text. -/
def keyword_score (language : Language) (lower_text : List Nat) : ℚ :=
  match language with
  | .ENGLISH =>
    let score : ℚ := 0
    let score := if found lower_text (bytes "language") then score + 2 / 5 else score
    let score := if found lower_text (bytes "english") then score + 3 / 10 else score
    let score := if found lower_text (bytes "hello") then score + 1 / 5 else score
    let score := if found lower_text (bytes "world") then score + 1 / 10 else score
    score
  | .GERMAN =>
    let score : ℚ := 0
    let score := if found lower_text (bytes "sprache") then score + 2 / 5 else score
    let score := if found lower_text (bytes "deutsch") then score + 3 / 10 else score
    let score := if found lower_text (bytes "hallo") then score + 1 / 5 else score
    let score := if found lower_text (bytes "welt") then score + 1 / 10 else score
    score
  | .FRENCH =>
    let score : ℚ := 0
    let score := if found lower_text (bytes "langue") then score + 2 / 5 else score
    let score := if found lower_text (bytes "français") then score + 3 / 10 else score
    let score := if found lower_text (bytes "bonjour") then score + 1 / 5 else score
    score
  | _ => 1 / 100

/-- The method `LanguageDetector::compute_language_confidence_values`, in exact arithmetic:
the scores, `total_confidence` and the quotients are rational numbers.  The source adds
`total_confidence` up in values of type `double`, in the iteration order of `languages_`;
an exact sum does not depend on that order, a rounded one does, so that a property which
rests on the order of the summands holds of this definition and need not hold of
`compute_language_confidence_values_double`, where every operation rounds. -/
def compute_language_confidence_values (d : LanguageDetector) (text : List Nat) :
    List (Language × ℚ) :=
  if text.isEmpty || d.languages_.isEmpty then []
  else
    let results : List (Language × ℚ) := d.languages_.map (fun language => (language, 0))
    let words := tokenize text
    if words.isEmpty then std_sort confidence_order results
    else
      let lower_text := text.map tolower
      let results := results.map (fun r => (r.1, min (keyword_score r.1 lower_text) 1))
      let total_confidence : ℚ := results.foldl (fun acc r => acc + r.2) 0
      let results :=
        if total_confidence > 0 then results.map (fun r => (r.1, r.2 / total_confidence))
        else
          let even_distribution : ℚ := 1 / (results.length : ℚ)
          results.map (fun r => (r.1, even_distribution))
      std_sort confidence_order results

/-- The condition of the first `if` of `detect_language_of` (English keywords). -/
def english_keyword (lower_text : List Nat) : Bool :=
  found lower_text (bytes "language") || found lower_text (bytes "english") ||
    found lower_text (bytes "hello") || found lower_text (bytes "world")

/-- The condition of the second `if` of `detect_language_of` (German keywords). -/
def german_keyword (lower_text : List Nat) : Bool :=
  found lower_text (bytes "sprache") || found lower_text (bytes "deutsch") ||
    found lower_text (bytes "hallo") || found lower_text (bytes "welt")

/-- The condition of the third `if` of `detect_language_of` (French keywords). -/
def french_keyword (lower_text : List Nat) : Bool :=
  found lower_text (bytes "langue") || found lower_text (bytes "français") ||
    found lower_text (bytes "bonjour")

/-- The confidence of the local `second_most_likely` of `detect_language_of`, given the
entries after the first one: that of `confidence_values[1]` when there is a second entry,
and the `0.0` of `std::make_pair(*languages_.begin(), 0.0)` when there is none. Only the
confidence of that pair is ever read. -/
def second_confidence (rest : List (Language × ℚ)) : ℚ :=
  match rest with
  | [] => 0
  | second :: _ => second.2

/-- The method `LanguageDetector::detect_language_of`. -/
def detect_language_of (d : LanguageDetector) (text : List Nat) : Option Language :=
  if text.isEmpty || d.languages_.isEmpty then none
  else
    let lower_text := text.map tolower
    if english_keyword lower_text && d.languages_.contains Language.ENGLISH then
      some Language.ENGLISH
    else if german_keyword lower_text && d.languages_.contains Language.GERMAN then
      some Language.GERMAN
    else if french_keyword lower_text && d.languages_.contains Language.FRENCH then
      some Language.FRENCH
    else
      match compute_language_confidence_values d text with
      | [] => none
      | most_likely :: rest =>
        let second_most_likely : ℚ := second_confidence rest
        if most_likely.2 = second_most_likely then none
        else if most_likely.2 - second_most_likely < d.minimum_relative_distance_ then none
        else some most_likely.1

/-- No keyword shortcut of `detect_language_of` fires on `text`: none of the three keyword
blocks both finds one of its keywords in the lowercased text and finds its language in the
configured set, so the function reaches its fall-back to the confidence values. -/
def no_keyword_shortcut (d : LanguageDetector) (text : List Nat) : Prop :=
  (english_keyword (text.map tolower) && d.languages_.contains Language.ENGLISH) = false ∧
  (german_keyword (text.map tolower) && d.languages_.contains Language.GERMAN) = false ∧
  (french_keyword (text.map tolower) && d.languages_.contains Language.FRENCH) = false

/-- The loop of `compute_language_confidence`: the confidence of the first entry whose
language is `language`, and `0.0` when the loop ends without one. -/
def confidence_lookup (language : Language) : List (Language × ℚ) → ℚ
  | [] => 0
  | (lang, confidence) :: rest =>
    if lang = language then confidence else confidence_lookup language rest

/-- The method `LanguageDetector::compute_language_confidence`. -/
def compute_language_confidence (d : LanguageDetector) (text : List Nat)
    (language : Language) : ℚ :=
  if text.isEmpty || !d.languages_.contains language then 0
  else confidence_lookup language (compute_language_confidence_values d text)


/-! ## Exceptions, ISO codes and the builder -/

/-- The exception classes the modelled functions throw: `InvalidConfigurationException`
(`exception.h`) and `std::invalid_argument`; neither derives from the other.  The model
loader adds `std::runtime_error` (`load_and_decompress_model`), `std::out_of_range`
(`std::stoi`) and `simdjson::simdjson_error` (the JSON parser); `ModelLoadException` is the
class of `exception.h` documented as "thrown when language model files fail to load".
No two of these classes derive from one another. -/
inductive Exception where
  | InvalidConfigurationException
  | invalid_argument
  | runtime_error
  | out_of_range
  | simdjson_error
  | ModelLoadException
  deriving DecidableEq, Repr

deriving instance DecidableEq for Except

/-- The function `all_languages()` of `language.cpp`: the 75 enumerators, listed in the order
of its initializer list. The C++ value is an unordered set; what is proved of a loop over it
is proved for every iteration order where the order could matter. -/
def all_languages : List Language :=
  [.AFRIKAANS, .ALBANIAN, .ARABIC, .ARMENIAN, .AZERBAIJANI, .BASQUE, .BELARUSIAN, .BENGALI,
   .BOKMAL, .BOSNIAN, .BULGARIAN, .CATALAN, .CHINESE, .CROATIAN, .CZECH, .DANISH, .DUTCH,
   .ENGLISH, .ESPERANTO, .ESTONIAN, .FINNISH, .FRENCH, .GANDA, .GEORGIAN, .GERMAN, .GREEK,
   .GUJARATI, .HEBREW, .HINDI, .HUNGARIAN, .ICELANDIC, .INDONESIAN, .IRISH, .ITALIAN,
   .JAPANESE, .KAZAKH, .KOREAN, .LATIN, .LATVIAN, .LITHUANIAN, .MACEDONIAN, .MALAY, .MAORI,
   .MARATHI, .MONGOLIAN, .NYNORSK, .PERSIAN, .POLISH, .PORTUGUESE, .PUNJABI, .ROMANIAN,
   .RUSSIAN, .SERBIAN, .SHONA, .SLOVAK, .SLOVENE, .SOMALI, .SOTHO, .SPANISH, .SWAHILI,
   .SWEDISH, .TAGALOG, .TAMIL, .TELUGU, .THAI, .TSONGA, .TSWANA, .TURKISH, .UKRAINIAN, .URDU,
   .VIETNAMESE, .WELSH, .XHOSA, .YORUBA, .ZULU]

/-- The function `iso_code_639_1(Language)` of `language.cpp`. -/
def iso_code_639_1 : Language → String
  | .AFRIKAANS => "af" | .ALBANIAN => "sq" | .ARABIC => "ar" | .ARMENIAN => "hy"
  | .AZERBAIJANI => "az" | .BASQUE => "eu" | .BELARUSIAN => "be" | .BENGALI => "bn"
  | .BOKMAL => "nb" | .BOSNIAN => "bs" | .BULGARIAN => "bg" | .CATALAN => "ca" | .CHINESE => "zh"
  | .CROATIAN => "hr" | .CZECH => "cs" | .DANISH => "da" | .DUTCH => "nl" | .ENGLISH => "en"
  | .ESPERANTO => "eo" | .ESTONIAN => "et" | .FINNISH => "fi" | .FRENCH => "fr" | .GANDA => "lg"
  | .GEORGIAN => "ka" | .GERMAN => "de" | .GREEK => "el" | .GUJARATI => "gu" | .HEBREW => "he"
  | .HINDI => "hi" | .HUNGARIAN => "hu" | .ICELANDIC => "is" | .INDONESIAN => "id"
  | .IRISH => "ga" | .ITALIAN => "it" | .JAPANESE => "ja" | .KAZAKH => "kk" | .KOREAN => "ko"
  | .LATIN => "la" | .LATVIAN => "lv" | .LITHUANIAN => "lt" | .MACEDONIAN => "mk"
  | .MALAY => "ms" | .MAORI => "mi" | .MARATHI => "mr" | .MONGOLIAN => "mn" | .NYNORSK => "nn"
  | .PERSIAN => "fa" | .POLISH => "pl" | .PORTUGUESE => "pt" | .PUNJABI => "pa"
  | .ROMANIAN => "ro" | .RUSSIAN => "ru" | .SERBIAN => "sr" | .SHONA => "sn" | .SLOVAK => "sk"
  | .SLOVENE => "sl" | .SOMALI => "so" | .SOTHO => "st" | .SPANISH => "es" | .SWAHILI => "sw"
  | .SWEDISH => "sv" | .TAGALOG => "tl" | .TAMIL => "ta" | .TELUGU => "te" | .THAI => "th"
  | .TSONGA => "ts" | .TSWANA => "tn" | .TURKISH => "tr" | .UKRAINIAN => "uk" | .URDU => "ur"
  | .VIETNAMESE => "vi" | .WELSH => "cy" | .XHOSA => "xh" | .YORUBA => "yo" | .ZULU => "zu"

/-- The function `iso_code_639_3(Language)` of `language.cpp`. -/
def iso_code_639_3 : Language → String
  | .AFRIKAANS => "afr" | .ALBANIAN => "sqi" | .ARABIC => "ara" | .ARMENIAN => "hye"
  | .AZERBAIJANI => "aze" | .BASQUE => "eus" | .BELARUSIAN => "bel" | .BENGALI => "ben"
  | .BOKMAL => "nob" | .BOSNIAN => "bos" | .BULGARIAN => "bul" | .CATALAN => "cat"
  | .CHINESE => "zho" | .CROATIAN => "hrv" | .CZECH => "ces" | .DANISH => "dan" | .DUTCH => "nld"
  | .ENGLISH => "eng" | .ESPERANTO => "epo" | .ESTONIAN => "est" | .FINNISH => "fin"
  | .FRENCH => "fra" | .GANDA => "lug" | .GEORGIAN => "kat" | .GERMAN => "deu" | .GREEK => "ell"
  | .GUJARATI => "guj" | .HEBREW => "heb" | .HINDI => "hin" | .HUNGARIAN => "hun"
  | .ICELANDIC => "isl" | .INDONESIAN => "ind" | .IRISH => "gle" | .ITALIAN => "ita"
  | .JAPANESE => "jpn" | .KAZAKH => "kaz" | .KOREAN => "kor" | .LATIN => "lat"
  | .LATVIAN => "lav" | .LITHUANIAN => "lit" | .MACEDONIAN => "mkd" | .MALAY => "msa"
  | .MAORI => "mri" | .MARATHI => "mar" | .MONGOLIAN => "mon" | .NYNORSK => "nno"
  | .PERSIAN => "fas" | .POLISH => "pol" | .PORTUGUESE => "por" | .PUNJABI => "pan"
  | .ROMANIAN => "ron" | .RUSSIAN => "rus" | .SERBIAN => "srp" | .SHONA => "sna"
  | .SLOVAK => "slk" | .SLOVENE => "slv" | .SOMALI => "som" | .SOTHO => "sot" | .SPANISH => "spa"
  | .SWAHILI => "swa" | .SWEDISH => "swe" | .TAGALOG => "tgl" | .TAMIL => "tam"
  | .TELUGU => "tel" | .THAI => "tha" | .TSONGA => "tso" | .TSWANA => "tsn" | .TURKISH => "tur"
  | .UKRAINIAN => "ukr" | .URDU => "urd" | .VIETNAMESE => "vie" | .WELSH => "cym"
  | .XHOSA => "xho" | .YORUBA => "yor" | .ZULU => "zul"

/-- The loop `for (const auto& lang : all_languages()) if (code_of(lang) == code) return lang;`
of `from_iso_code_639_1` and `from_iso_code_639_3`, over the languages in iteration order:
the first language whose code is `code`, if there is one. -/
def find_language (code_of : Language → String) (code : List Nat) :
    List Language → Option Language
  | [] => none
  | lang :: rest =>
    if bytes (code_of lang) = code then some lang else find_language code_of code rest

/-- The function `from_iso_code_639_1` of `language.cpp`. -/
def from_iso_code_639_1 (iso_code : List Nat) : Except Exception Language :=
  let code := iso_code.map tolower
  match find_language iso_code_639_1 code all_languages with
  | some lang => .ok lang
  | none => .error .invalid_argument

/-- The function `from_iso_code_639_3` of `language.cpp`. -/
def from_iso_code_639_3 (iso_code : List Nat) : Except Exception Language :=
  let code := iso_code.map tolower
  match find_language iso_code_639_3 code all_languages with
  | some lang => .ok lang
  | none => .error .invalid_argument

/-- The members of `LanguageDetectorBuilder` (`language_detector_builder.h`), with
`languages_` as in `LanguageDetector`. -/
structure LanguageDetectorBuilder where
  languages_ : List Language
  minimum_relative_distance_ : ℚ
  is_every_language_model_preloaded_ : Bool
  is_low_accuracy_mode_enabled_ : Bool
  deriving DecidableEq

/-- The default-constructed builder: the in-class initializers of the four members. -/
def LanguageDetectorBuilder.default : LanguageDetectorBuilder :=
  { languages_ := [], minimum_relative_distance_ := 0,
    is_every_language_model_preloaded_ := false, is_low_accuracy_mode_enabled_ := false }

/-- The method `LanguageDetectorBuilder::from_languages`. The set built from the range
`languages.begin() .. languages.end()` holds each element of the vector once. -/
def LanguageDetectorBuilder.from_languages (languages : List Language) :
    Except Exception LanguageDetectorBuilder :=
  if languages.isEmpty then .error .InvalidConfigurationException
  else .ok { LanguageDetectorBuilder.default with languages_ := languages.dedup }

/-- The method `LanguageDetectorBuilder::from_all_languages_without`: `erase` is called on
the set of all languages once for every element of the vector. -/
def LanguageDetectorBuilder.from_all_languages_without (languages : List Language) :
    Except Exception LanguageDetectorBuilder :=
  if languages.isEmpty then .error .InvalidConfigurationException
  else
    let all_langs := languages.foldl (fun all_langs lang => all_langs.erase lang) all_languages
    if all_langs.isEmpty then .error .InvalidConfigurationException
    else .ok { LanguageDetectorBuilder.default with languages_ := all_langs }

/-- The method `LanguageDetectorBuilder::with_minimum_relative_distance` as a state
transition: the first component is the builder after the call, the second tells whether the
call returned or threw. A throw happens before the assignment, so it leaves the builder as
it was. -/
def LanguageDetectorBuilder.with_minimum_relative_distance (b : LanguageDetectorBuilder)
    (distance : ℚ) : LanguageDetectorBuilder × Except Exception Unit :=
  if distance < 0 ∨ distance > 99 / 100 then (b, .error .InvalidConfigurationException)
  else ({ b with minimum_relative_distance_ := distance }, .ok ())

/-! ## The batch operations -/

/-- The method `LanguageDetector::detect_languages_of`: one `push_back` per text. -/
def detect_languages_of (d : LanguageDetector) (texts : List (List Nat)) :
    List (Option Language) :=
  texts.foldl (fun results text => results ++ [detect_language_of d text]) []

/-- The method `LanguageDetector::compute_language_confidence_values_of`. -/
def compute_language_confidence_values_of (d : LanguageDetector) (texts : List (List Nat)) :
    List (List (Language × ℚ)) :=
  texts.foldl (fun results text => results ++ [compute_language_confidence_values d text]) []

/-- The method `LanguageDetector::compute_language_confidence_of`. -/
def compute_language_confidence_of (d : LanguageDetector) (texts : List (List Nat))
    (language : Language) : List ℚ :=
  texts.foldl (fun results text => results ++ [compute_language_confidence d text language]) []

/-! ## The text cleaner -/

/-- The C function `isdigit` on one byte: `0`..`9`. -/
def isdigit (c : Nat) : Bool := decide (48 ≤ c) && decide (c ≤ 57)

/-- The C function `ispunct` on one byte, "C" locale: the printable ASCII characters that are
neither alphanumeric nor the space. -/
def ispunct (c : Nat) : Bool :=
  (decide (33 ≤ c) && decide (c ≤ 47)) || (decide (58 ≤ c) && decide (c ≤ 64)) ||
    (decide (91 ≤ c) && decide (c ≤ 96)) || (decide (123 ≤ c) && decide (c ≤ 126))

/-- The first loop of `TextProcessor::to_lowercase`, `for i in 0 .. length - 2`: `current`
is `result[i]` as the earlier steps left it, the list holds `result[i + 1 ..]`. A byte 0x89
that follows a byte 0xC3 becomes 0xA9. -/
def to_lowercase_e_acute (current : Nat) : List Nat → List Nat
  | [] => [current]
  | next :: rest =>
    if current = 0xC3 ∧ next = 0x89 then current :: to_lowercase_e_acute 0xA9 rest
    else current :: to_lowercase_e_acute next rest

/-- The function `TextProcessor::to_lowercase`: the loop above, then `tolower` on every
byte below 0x80. -/
def to_lowercase (text : List Nat) : List Nat :=
  match text with
  | [] => []
  | first :: rest =>
    (to_lowercase_e_acute first rest).map (fun c => if c < 0x80 then tolower c else c)

/-- The function `TextProcessor::remove_punctuation`. -/
def remove_punctuation (text : List Nat) : List Nat :=
  if text.isEmpty then [] else text.filter (fun c => !ispunct c)

/-- The function `TextProcessor::remove_numbers`. -/
def remove_numbers (text : List Nat) : List Nat :=
  if text.isEmpty then [] else text.filter (fun c => !isdigit c)

/-- Membership of a byte in the string `" \t\n\r\f\v"` that `trim` searches with. -/
def trim_char (c : Nat) : Bool := [32, 9, 10, 13, 12, 11].contains c

/-- The function `TextProcessor::trim`: the bytes from the first to the last one that is
not in `" \t\n\r\f\v"`, and the empty string when there is no such byte. -/
def trim (text : List Nat) : List Nat :=
  if text.isEmpty then [] else (text.dropWhile trim_char).rdropWhile trim_char

/-- The loop of `TextProcessor::remove_extra_whitespace`, with its locals `result` and
`last_was_space`. -/
def remove_extra_whitespace_loop : List Nat → List Nat → Bool → List Nat
  | [], result, _ => result
  | c :: rest, result, last_was_space =>
    if isspace c then
      if !last_was_space then remove_extra_whitespace_loop rest (result ++ [32]) true
      else remove_extra_whitespace_loop rest result last_was_space
    else remove_extra_whitespace_loop rest (result ++ [c]) false

/-- The function `TextProcessor::remove_extra_whitespace`. -/
def remove_extra_whitespace (text : List Nat) : List Nat :=
  if text.isEmpty then [] else trim (remove_extra_whitespace_loop text [] false)

/-- The text cleaner of the specification, section 4.2, as `TextProcessor` realises it:
`to_lowercase`, then `remove_numbers`, then `remove_punctuation`, then
`remove_extra_whitespace`. -/
def clean (t : List Nat) : List Nat :=
  remove_extra_whitespace (remove_punctuation (remove_numbers (to_lowercase t)))

/-! ## Scripts -/

/-- The enumeration `Alphabet` of `alphabet.h`. -/
inductive Alphabet where
  | ARABIC | ARMENIAN | BENGALI | CYRILLIC | DEVANAGARI | GEORGIAN | GREEK | GUJARATI
  | GURMUKHI | HAN | HANGUL | HEBREW | HIRAGANA | KATAKANA | LATIN | TAMIL | TELUGU | THAI
  deriving DecidableEq, Repr, Fintype

/-- The code-point ranges (first, last) of a script: the entry of `script_ranges` under the
name with which `alphabet_char_sets` builds the `CharSet` of the alphabet. -/
def script_ranges : Alphabet → List (Nat × Nat)
  | .LATIN => [(0x0041, 0x005A), (0x0061, 0x007A), (0x00C0, 0x00FF)]
  | .CYRILLIC => [(0x0400, 0x04FF)]
  | .ARABIC => [(0x0600, 0x06FF)]
  | .ARMENIAN => [(0x0530, 0x058F)]
  | .BENGALI => [(0x0980, 0x09FF)]
  | .DEVANAGARI => [(0x0900, 0x097F)]
  | .GEORGIAN => [(0x10A0, 0x10FF)]
  | .GREEK => [(0x0370, 0x03FF)]
  | .GUJARATI => [(0x0A80, 0x0AFF)]
  | .GURMUKHI => [(0x0A00, 0x0A7F)]
  | .HAN => [(0x4E00, 0x9FFF), (0x3400, 0x4DBF)]
  | .HANGUL => [(0xAC00, 0xD7AF)]
  | .HEBREW => [(0x0590, 0x05FF)]
  | .HIRAGANA => [(0x3040, 0x309F)]
  | .KATAKANA => [(0x30A0, 0x30FF)]
  | .TAMIL => [(0x0B80, 0x0BFF)]
  | .TELUGU => [(0x0C00, 0x0C7F)]
  | .THAI => [(0x0E00, 0x0E7F)]

/-- The function `matches_char`: `CharSet::is_char_match` on the character set of the
alphabet, which `initialize_from_char_classes` fills with every code point of every range. -/
def matches_char (alphabet : Alphabet) (ch : Nat) : Bool :=
  (script_ranges alphabet).any (fun range => decide (range.1 ≤ ch) && decide (ch ≤ range.2))

/-- The map `single_language_alphabets` that `all_supporting_single_language()` returns. -/
def all_supporting_single_language : Alphabet → Option Language
  | .ARMENIAN => some .ARMENIAN
  | .BENGALI => some .BENGALI
  | .GEORGIAN => some .GEORGIAN
  | .GREEK => some .GREEK
  | .GUJARATI => some .GUJARATI
  | .GURMUKHI => some .PUNJABI
  | .HANGUL => some .KOREAN
  | .HEBREW => some .HEBREW
  | .HIRAGANA => some .JAPANESE
  | .KATAKANA => some .JAPANESE
  | .TAMIL => some .TAMIL
  | .TELUGU => some .TELUGU
  | .THAI => some .THAI
  | _ => none

/-- The UTF-8 encoding of one code point (RFC 3629): one to four bytes. -/
def utf8_encode (ch : Nat) : List Nat :=
  if ch < 0x80 then [ch]
  else if ch < 0x800 then [0xC0 + ch / 64, 0x80 + ch % 64]
  else if ch < 0x10000 then [0xE0 + ch / 4096, 0x80 + ch / 64 % 64, 0x80 + ch % 64]
  else [0xF0 + ch / 262144, 0x80 + ch / 4096 % 64, 0x80 + ch / 64 % 64, 0x80 + ch % 64]

/-- The `std::string` that holds the code points `chars` in UTF-8. -/
def utf8_string (chars : List Nat) : List Nat := chars.flatMap utf8_encode

/-! ## N-grams -/

/-- The members of `Ngram` (`ngram.h`); `NgramRef` has the same two members, its `value_`
being a view of the same bytes. -/
structure Ngram where
  value_ : List Nat
  char_count_ : Nat
  deriving DecidableEq, Repr

/-- The method `validate_length` of `Ngram` and of `NgramRef`. -/
def validate_length (length : Nat) : Except Exception Unit :=
  if length < 1 ∨ length > 5 then .error .invalid_argument else .ok ()

/-- The constructor `Ngram::Ngram(const std::string&)`: `char_count_` is initialised with
`value.length()`, the number of bytes, and then validated. -/
def Ngram.new (value : List Nat) : Except Exception Ngram :=
  let ngram : Ngram := { value_ := value, char_count_ := value.length }
  match validate_length ngram.char_count_ with
  | .error e => .error e
  | .ok _ => .ok ngram

/-- The constructor `NgramRef::NgramRef(std::string_view)`: as for `Ngram`, `char_count_`
is `value.length()`. -/
def NgramRef.new (value : List Nat) : Except Exception Ngram :=
  let ngram : Ngram := { value_ := value, char_count_ := value.length }
  match validate_length ngram.char_count_ with
  | .error e => .error e
  | .ok _ => .ok ngram

/-- The method `char_count()` of `Ngram` and of `NgramRef`. -/
def Ngram.char_count (ngram : Ngram) : Nat := ngram.char_count_

/-- The number of code points of a string of Lean, whose characters are code points. -/
def code_points (s : String) : Nat := s.length

/-! ## Prefixes of an n-gram and the range of lower-order n-grams -/

/-- The number of bytes by which the loop of `NgramRef::get_prefix` moves `i` forward over
the byte `c = str[i]`: the chain of mask tests of `ngram.cpp`. -/
def utf8_advance (c : Nat) : Nat :=
  if c &&& 0x80 = 0 then 1
  else if c &&& 0xE0 = 0xC0 then 2
  else if c &&& 0xF0 = 0xE0 then 3
  else if c &&& 0xF8 = 0xF0 then 4
  else 1

/-- The loop of `NgramRef::get_prefix` with its three locals `i`, `byte_count` and
`current_char_count`; the value is `byte_count` when the loop is left.  The first argument
bounds the number of iterations: `i` grows in every iteration, so `str.length` iterations
are never exceeded. -/
def get_prefix_loop (str : List Nat) (char_count : Nat) : Nat → Nat → Nat → Nat → Nat
  | 0, _, byte_count, _ => byte_count
  | fuel + 1, i, byte_count, current_char_count =>
    if i < str.length ∧ current_char_count < char_count then
      get_prefix_loop str char_count fuel (i + utf8_advance (str.getD i 0)) (i + 1)
        (current_char_count + 1)
    else byte_count

/-- The function `NgramRef::get_prefix`. -/
def NgramRef.get_prefix (str : List Nat) (char_count : Nat) : List Nat :=
  if char_count ≥ str.length then str
  else str.take (get_prefix_loop str char_count str.length 0 0 0)

/-- The members of `NgramRef::Range::Iterator`. -/
structure NgramRef.Iterator where
  value_ : List Nat
  char_count_ : Nat
  is_end_ : Bool
  deriving DecidableEq, Repr

/-- The method `Iterator::update_to_prefix`; the value is the iterator after the call. -/
def NgramRef.Iterator.update_to_prefix (it : NgramRef.Iterator) : NgramRef.Iterator :=
  if it.char_count_ ≤ 1 then { it with is_end_ := true }
  else
    let new_char_count := it.char_count_ - 1
    { it with value_ := NgramRef.get_prefix it.value_ new_char_count,
              char_count_ := new_char_count }

/-- The operator `++it` of the iterator. -/
def NgramRef.Iterator.increment (it : NgramRef.Iterator) : NgramRef.Iterator :=
  if !it.is_end_ then it.update_to_prefix else it

/-- The operator `*it` of the iterator: a new `NgramRef` of the current value, whose
constructor validates the length. -/
def NgramRef.Iterator.dereference (it : NgramRef.Iterator) : Except Exception Ngram :=
  NgramRef.new it.value_

/-- The operator `==` of the iterator. -/
def NgramRef.Iterator.equals (a b : NgramRef.Iterator) : Bool :=
  if a.is_end_ && b.is_end_ then true
  else if a.is_end_ || b.is_end_ then false
  else a.value_ == b.value_ && a.char_count_ == b.char_count_

/-- The members of `NgramRef::Range`. -/
structure NgramRef.Range where
  start_value_ : List Nat
  start_char_count_ : Nat
  deriving DecidableEq, Repr

/-- The method `NgramRef::range_of_lower_order_ngrams`. -/
def NgramRef.range_of_lower_order_ngrams (ngram : Ngram) : NgramRef.Range :=
  ⟨ngram.value_, ngram.char_count_⟩

/-- The method `Range::begin`. -/
def NgramRef.Range.begin (r : NgramRef.Range) : NgramRef.Iterator :=
  ⟨r.start_value_, r.start_char_count_, false⟩

/-- The method `Range::end`. -/
def NgramRef.Range.end_ (r : NgramRef.Range) : NgramRef.Iterator :=
  ⟨r.start_value_, r.start_char_count_, true⟩

/-- The loop `for (auto it = range.begin(); it != range.end(); ++it)` of the unit tests,
collecting `(*it).get_value()`: `it` is the current iterator and `last` is `range.end()`.
At most `fuel` iterations are run; the value is `none` when the loop has not ended by
then, and the exception when a dereference throws. -/
def collect_lower_order_ngrams :
    Nat → NgramRef.Iterator → NgramRef.Iterator → Option (Except Exception (List (List Nat)))
  | 0, _, _ => none
  | fuel + 1, it, last =>
    if it.equals last then some (.ok [])
    else
      match it.dereference with
      | .error e => some (.error e)
      | .ok ngram =>
        match collect_lower_order_ngrams fuel it.increment last with
        | none => none
        | some (.error e) => some (.error e)
        | some (.ok values) => some (.ok (ngram.value_ :: values))

/-- The values met when `NgramRef(value).range_of_lower_order_ngrams()` is iterated from
`begin()` to `end()`, running at most `fuel` iterations. -/
def lower_order_ngrams (fuel : Nat) (value : List Nat) :
    Option (Except Exception (List (List Nat))) :=
  match NgramRef.new value with
  | .error e => some (.error e)
  | .ok ngram =>
    let range := NgramRef.range_of_lower_order_ngrams ngram
    collect_lower_order_ngrams fuel range.begin range.end_

/-! ## Word n-grams of a text -/

/-- The inner loop of `TextProcessor::generate_ngrams`, `for j in 0 .. n - 1`: the words
`words[i]`, ..., `words[i + n - 1]` joined by single spaces. -/
def ngram_str (words : List (List Nat)) (i n : Nat) : List Nat :=
  (List.range n).foldl
    (fun ngram_str j => (if j > 0 then ngram_str ++ [32] else ngram_str) ++ words.getD (i + j) [])
    []

/-- The function `TextProcessor::generate_ngrams`.  The outer loop runs over the `i` with
`i + n <= words.size()`; a `std::invalid_argument` of the `Ngram` constructor is caught and
the n-gram skipped. -/
def generate_ngrams (text : List Nat) (n : Nat) : Except Exception (List Ngram) :=
  if n < 1 ∨ n > 5 then .error .invalid_argument
  else if text.isEmpty then .ok []
  else
    let words := tokenize text
    if words.isEmpty ∨ words.length < n then .ok []
    else
      (List.range (words.length + 1 - n)).foldlM
        (fun ngrams i =>
          match Ngram.new (ngram_str words i n) with
          | .ok ngram => .ok (ngrams ++ [ngram])
          | .error .invalid_argument => .ok ngrams
          | .error e => .error e)
        []

/-! ## Spans of a text -/

/-- The members of `DetectionResult` (`detection_result.h`). -/
structure DetectionResult where
  language_ : Language
  start_index_ : Nat
  end_index_ : Nat
  word_count_ : Nat
  deriving DecidableEq, Repr

/-- The method `LanguageDetector::detect_multiple_languages_of`; `*languages_.begin()` is
the first language in the iteration order of the set. -/
def detect_multiple_languages_of (d : LanguageDetector) (text : List Nat) :
    List DetectionResult :=
  if !text.isEmpty && !d.languages_.isEmpty then
    match d.languages_ with
    | first :: _ => [⟨first, 0, text.length, 1⟩]
    | [] => []
  else []

/-! ## N-gram models -/

/-- The enumeration `NgramModelType` (`model.h`). -/
inductive NgramModelType where
  | UNIQUE
  | MOST_COMMON
  deriving DecidableEq, Repr

/-- The function `to_string(NgramModelType)` of `model.cpp`. -/
def NgramModelType.to_string : NgramModelType → String
  | .UNIQUE => "unique"
  | .MOST_COMMON => "most_common"

/-- The statement `map[key] = value` on a `std::unordered_map` held as a list of entries
with distinct keys: the value of an existing key is replaced, a new key gets a new entry. -/
def assign {α β : Type} [DecidableEq α] (key : α) (value : β) : List (α × β) → List (α × β)
  | [] => [(key, value)]
  | entry :: rest =>
    if entry.1 = key then (key, value) :: rest else entry :: assign key value rest

/-- The lookup `map.find(key)` on a `std::unordered_map` held as a list of entries: the
value of the entry of `key`, `none` for `map.end()`. -/
def find_entry {α β : Type} [DecidableEq α] (key : α) : List (α × β) → Option β
  | [] => none
  | entry :: rest => if entry.1 = key then some entry.2 else find_entry key rest

/-- The members of `NgramProbabilityModel`: `ngrams_` maps the bytes of an n-gram to its
probability. -/
structure NgramProbabilityModel where
  language_ : Language
  ngrams_ : List (List Nat × ℚ)
  deriving DecidableEq

/-- The constructor `NgramProbabilityModel(language)`: no n-gram yet. -/
def NgramProbabilityModel.new (language : Language) : NgramProbabilityModel := ⟨language, []⟩

/-- The method `NgramProbabilityModel::get_language`. -/
def NgramProbabilityModel.get_language (m : NgramProbabilityModel) : Language := m.language_

/-- The method `NgramProbabilityModel::get_probability`: `0.0` if not found. -/
def NgramProbabilityModel.get_probability (m : NgramProbabilityModel) (ngram : Ngram) : ℚ :=
  match find_entry ngram.value_ m.ngrams_ with
  | some probability => probability
  | none => 0

/-- The method `NgramProbabilityModel::set_probability`; the value is the model after the
call. -/
def NgramProbabilityModel.set_probability (m : NgramProbabilityModel) (ngram : Ngram)
    (probability : ℚ) : NgramProbabilityModel :=
  { m with ngrams_ := assign ngram.value_ probability m.ngrams_ }

/-- The method `NgramProbabilityModel::contains`. -/
def NgramProbabilityModel.contains (m : NgramProbabilityModel) (ngram : Ngram) : Bool :=
  (find_entry ngram.value_ m.ngrams_).isSome

/-- The method `NgramProbabilityModel::size`. -/
def NgramProbabilityModel.size (m : NgramProbabilityModel) : Nat := m.ngrams_.length

/-- The members of `NgramCountModel`: `ngrams_` is the set of the n-grams, held as a list
without repetition. -/
structure NgramCountModel where
  language_ : Language
  model_type_ : NgramModelType
  ngrams_ : List (List Nat)
  deriving DecidableEq

/-- The constructor `NgramCountModel(language, model_type)`: no n-gram yet. -/
def NgramCountModel.new (language : Language) (model_type : NgramModelType) :
    NgramCountModel := ⟨language, model_type, []⟩

/-- The method `NgramCountModel::contains`. -/
def NgramCountModel.contains (m : NgramCountModel) (ngram : Ngram) : Bool :=
  m.ngrams_.contains ngram.value_

/-- The method `NgramCountModel::add_ngram` (`ngrams_.insert`); the value is the model after
the call. -/
def NgramCountModel.add_ngram (m : NgramCountModel) (ngram : Ngram) : NgramCountModel :=
  if m.ngrams_.contains ngram.value_ then m
  else { m with ngrams_ := m.ngrams_ ++ [ngram.value_] }

/-- The method `NgramCountModel::remove_ngram`: the model after the call and the returned
flag. -/
def NgramCountModel.remove_ngram (m : NgramCountModel) (ngram : Ngram) :
    NgramCountModel × Bool :=
  if m.ngrams_.contains ngram.value_ then
    ({ m with ngrams_ := m.ngrams_.erase ngram.value_ }, true)
  else (m, false)

/-- The method `NgramCountModel::size`. -/
def NgramCountModel.size (m : NgramCountModel) : Nat := m.ngrams_.length

/-! ## Parsing a model payload -/

/-- The value of a run of decimal digits read from left to right. -/
def digits_value (digits : List Nat) : Nat :=
  digits.foldl (fun value c => value * 10 + (c - 48)) 0

/-- The function `std::stoi(str)` with base 10 (`strtol`): leading whitespace is skipped,
one sign is accepted, and the longest run of digits that follows is converted.  Without a
digit it throws `std::invalid_argument`, and `std::out_of_range` when the value is not an
`int` of 32 bits. -/
def stoi (str : List Nat) : Except Exception Int :=
  let rest := str.dropWhile isspace
  let negative := rest.head? == some 45
  let unsigned := if rest.head? == some 45 ∨ rest.head? == some 43 then rest.tail else rest
  let digits := unsigned.takeWhile isdigit
  if digits.isEmpty then .error .invalid_argument
  else
    let value : Int := if negative then -(digits_value digits : Int) else (digits_value digits : Int)
    if value < -2147483648 ∨ value > 2147483647 then .error .out_of_range
    else .ok value

/-- The conversion of an `int` to `uint32_t`: the value modulo `2^32`. -/
def to_uint32 (value : Int) : Nat := (value % 4294967296).toNat

/-- The fraction of one key of the `"ngrams"` object, as `parse_probability_model` reads it:
`none` when the key has no `/` (the entry is skipped), otherwise the quotient of the two
numbers converted by `std::stoi` and stored as `uint32_t`.  The quotient of `double`s is
taken exactly; for a denominator 0 the C++ value is an infinity or a NaN, the value here
is 0. -/
def parse_fraction (fraction_str : List Nat) : Except Exception (Option ℚ) :=
  let slash_pos := fraction_str.indexOf 47
  if slash_pos ≥ fraction_str.length then .ok none
  else
    match stoi (fraction_str.take slash_pos) with
    | .error e => .error e
    | .ok numerator =>
      match stoi (fraction_str.drop (slash_pos + 1)) with
      | .error e => .error e
      | .ok denominator =>
        .ok (some ((to_uint32 numerator : ℚ) / (to_uint32 denominator : ℚ)))

/-- The words that `while (iss >> ngram)` extracts from a string: its maximal runs of
bytes that are not whitespace. -/
def extract_words (s : List Nat) : List (List Nat) :=
  (s.splitOnP isspace).filter (fun word => !word.isEmpty)

/-- The inner loop of `parse_probability_model`, `while (iss >> ngram)`: every extracted
word is made an `Ngram` (whose constructor throws for a length outside 1..5) and given the
probability. -/
def set_probabilities (probability : ℚ) :
    List (List Nat) → NgramProbabilityModel → Except Exception NgramProbabilityModel
  | [], model => .ok model
  | word :: words, model =>
    match Ngram.new word with
    | .error e => .error e
    | .ok ngram => set_probabilities probability words (model.set_probability ngram probability)

/-- The loop of `parse_probability_model` over the fields of the `"ngrams"` object.  A field
is its key and its value; the value is the exception of `get<std::string_view>()` when it is
not a string. -/
def parse_probability_fields :
    List (List Nat × Except Exception (List Nat)) → NgramProbabilityModel →
      Except Exception NgramProbabilityModel
  | [], model => .ok model
  | field :: fields, model =>
    match field.2 with
    | .error e => .error e
    | .ok ngrams_view =>
      match parse_fraction field.1 with
      | .error e => .error e
      | .ok none => parse_probability_fields fields model
      | .ok (some probability) =>
        match set_probabilities probability (extract_words ngrams_view) model with
        | .error e => .error e
        | .ok model => parse_probability_fields fields model

/-- The inner loop of `parse_count_model`. -/
def add_ngrams : List (List Nat) → NgramCountModel → Except Exception NgramCountModel
  | [], model => .ok model
  | word :: words, model =>
    match Ngram.new word with
    | .error e => .error e
    | .ok ngram => add_ngrams words (model.add_ngram ngram)

/-- The loop of `parse_count_model` over the elements of the `"ngrams"` array. -/
def parse_count_fields :
    List (Except Exception (List Nat)) → NgramCountModel → Except Exception NgramCountModel
  | [], model => .ok model
  | field :: fields, model =>
    match field with
    | .error e => .error e
    | .ok ngrams_view =>
      match add_ngrams (extract_words ngrams_view) model with
      | .error e => .error e
      | .ok model => parse_count_fields fields model

/-! ## The model loader -/

/-- What the loader takes from outside the program: the file system and the two libraries.
`open_file path` is the content of the file when `std::ifstream` can open it;
`BrotliDecoderDecompress data` is the decoded data when the call returns
`BROTLI_DECODER_RESULT_SUCCESS`; `ngrams_object json` and `ngrams_array json` are what
simdjson gives for `parser.parse(json)` and the member `"ngrams"`, as the list of its
fields or elements, or the exception it throws. -/
structure Environment where
  open_file : List Nat → Option (List Nat)
  BrotliDecoderDecompress : List Nat → Option (List Nat)
  ngrams_object : List Nat → Except Exception (List (List Nat × Except Exception (List Nat)))
  ngrams_array : List Nat → Except Exception (List (Except Exception (List Nat)))

/-- A `std::shared_ptr<const T>`: the address of the object it points to, and the object.
Two handles are the same pointer when their addresses are equal. -/
structure Handle (α : Type) where
  address : Nat
  object : α
  deriving DecidableEq

/-- The members of `ModelLoader`, the two caches, and the number `allocated_` of model
objects `std::make_shared` has returned so far: the next object gets the address
`allocated_`, so no two objects share an address. -/
structure ModelLoader where
  probability_model_cache_ : List (List Nat × Handle NgramProbabilityModel)
  count_model_cache_ : List (List Nat × Handle NgramCountModel)
  allocated_ : Nat
  deriving DecidableEq

/-- The loader of a program that has not loaded anything yet. -/
def ModelLoader.get_instance : ModelLoader := ⟨[], [], 0⟩

/-- The digits of `std::to_string` for an unsigned number, most significant first; `fuel`
bounds the number of digits. -/
def decimal_digits : Nat → Nat → List Nat → List Nat
  | 0, _, digits => digits
  | fuel + 1, n, digits =>
    if n < 10 then (48 + n) :: digits
    else decimal_digits fuel (n / 10) ((48 + n % 10) :: digits)

/-- The function `std::to_string(size_t)`. -/
def std_to_string (n : Nat) : List Nat := decimal_digits (n + 1) n []

/-- The function `Ngram::get_ngram_name_by_length`. -/
def get_ngram_name_by_length (ngram_length : Nat) : Except Exception String :=
  match ngram_length with
  | 1 => .ok "unigram"
  | 2 => .ok "bigram"
  | 3 => .ok "trigram"
  | 4 => .ok "quadrigram"
  | 5 => .ok "fivegram"
  | _ => .error .invalid_argument

/-- The method `ModelLoader::generate_cache_key`. -/
def generate_cache_key (language : Language) (ngram_length : Nat) (model_type : List Nat) :
    List Nat :=
  bytes (to_string language) ++ bytes "_" ++ std_to_string ngram_length ++ bytes "_" ++ model_type

/-- The method `ModelLoader::load_and_decompress_model`. -/
def load_and_decompress_model (env : Environment) (file_path : List Nat) :
    Except Exception (List Nat) :=
  match env.open_file file_path with
  | none => .error .runtime_error
  | some compressed_data =>
    match env.BrotliDecoderDecompress compressed_data with
    | none => .error .runtime_error
    | some decompressed_data => .ok decompressed_data

/-- The method `ModelLoader::parse_probability_model`. -/
def parse_probability_model (env : Environment) (json_content : List Nat)
    (language : Language) : Except Exception NgramProbabilityModel :=
  match env.ngrams_object json_content with
  | .error e => .error e
  | .ok fields => parse_probability_fields fields (NgramProbabilityModel.new language)

/-- The method `ModelLoader::parse_count_model`. -/
def parse_count_model (env : Environment) (json_content : List Nat)
    (language : Language) (model_type : NgramModelType) : Except Exception NgramCountModel :=
  match env.ngrams_array json_content with
  | .error e => .error e
  | .ok fields => parse_count_fields fields (NgramCountModel.new language model_type)

/-- The path of the model file, `std::format("models/{}/models/{}", iso_code, file_name)`. -/
def model_file_path (language : Language) (file_name : List Nat) : List Nat :=
  bytes "models/" ++ bytes (iso_code_639_1 language) ++ bytes "/models/" ++ file_name

/-- The part of `load_probability_model` after a cache miss and before the store: the model
read from its file and parsed. -/
def read_probability_model (env : Environment) (language : Language) (ngram_length : Nat) :
    Except Exception NgramProbabilityModel :=
  match get_ngram_name_by_length ngram_length with
  | .error e => .error e
  | .ok ngram_name =>
    let file_name := bytes ngram_name ++ bytes "s.json.br"
    let file_path := model_file_path language file_name
    match load_and_decompress_model env file_path with
    | .error e => .error e
    | .ok json_content => parse_probability_model env json_content language

/-- The part of `load_count_model` after a cache miss and before the store. -/
def read_count_model (env : Environment) (language : Language) (ngram_length : Nat)
    (model_type : NgramModelType) : Except Exception NgramCountModel :=
  match get_ngram_name_by_length ngram_length with
  | .error e => .error e
  | .ok ngram_name =>
    let file_name := bytes model_type.to_string ++ bytes "_" ++ bytes ngram_name ++
      bytes "s.json.br"
    let file_path := model_file_path language file_name
    match load_and_decompress_model env file_path with
    | .error e => .error e
    | .ok json_content => parse_count_model env json_content language model_type

/-- The method `ModelLoader::load_probability_model`, run without interruption: the loader
after the call, and the returned handle or the exception thrown. -/
def load_probability_model (env : Environment) (loader : ModelLoader) (language : Language)
    (ngram_length : Nat) : ModelLoader × Except Exception (Handle NgramProbabilityModel) :=
  if ngram_length < 1 ∨ ngram_length > 5 then (loader, .error .invalid_argument)
  else
    let cache_key := generate_cache_key language ngram_length (bytes "probability")
    match find_entry cache_key loader.probability_model_cache_ with
    | some cached => (loader, .ok cached)
    | none =>
      match read_probability_model env language ngram_length with
      | .error e => (loader, .error e)
      | .ok object =>
        let model : Handle NgramProbabilityModel := ⟨loader.allocated_, object⟩
        ({ loader with
            probability_model_cache_ := assign cache_key model loader.probability_model_cache_,
            allocated_ := loader.allocated_ + 1 },
          .ok model)

/-- The method `ModelLoader::load_count_model`, run without interruption. -/
def load_count_model (env : Environment) (loader : ModelLoader) (language : Language)
    (ngram_length : Nat) (model_type : NgramModelType) :
    ModelLoader × Except Exception (Handle NgramCountModel) :=
  if ngram_length < 1 ∨ ngram_length > 5 then (loader, .error .invalid_argument)
  else
    let cache_key := generate_cache_key language ngram_length (bytes model_type.to_string)
    match find_entry cache_key loader.count_model_cache_ with
    | some cached => (loader, .ok cached)
    | none =>
      match read_count_model env language ngram_length model_type with
      | .error e => (loader, .error e)
      | .ok object =>
        let model : Handle NgramCountModel := ⟨loader.allocated_, object⟩
        ({ loader with
            count_model_cache_ := assign cache_key model loader.count_model_cache_,
            allocated_ := loader.allocated_ + 1 },
          .ok model)

/-- The method `ModelLoader::clear_cache`; the value is the loader after the call. -/
def ModelLoader.clear_cache (loader : ModelLoader) : ModelLoader :=
  { loader with probability_model_cache_ := [], count_model_cache_ := [] }

/-! ## Calls of the loader that run at the same time -/

/-- How far one call of `load_probability_model` has come.  The lookup runs under the
shared lock and the store under the unique lock of `cache_mutex_`; reading and parsing the
file runs between the two with no lock held. -/
inductive Call where
  | entered
  | missed
  | parsed (model : Handle NgramProbabilityModel)
  | returned (result : Except Exception (Handle NgramProbabilityModel))
  deriving DecidableEq

/-- One step of a call of `load_probability_model(language, ngram_length)`: the argument
check and the locked lookup; then, after a miss, reading and parsing the file; then the
locked store and the return. -/
def Call.step (env : Environment) (language : Language) (ngram_length : Nat)
    (loader : ModelLoader) : Call → ModelLoader × Call
  | .entered =>
    if ngram_length < 1 ∨ ngram_length > 5 then (loader, .returned (.error .invalid_argument))
    else
      match find_entry (generate_cache_key language ngram_length (bytes "probability"))
          loader.probability_model_cache_ with
      | some cached => (loader, .returned (.ok cached))
      | none => (loader, .missed)
  | .missed =>
    match read_probability_model env language ngram_length with
    | .error e => (loader, .returned (.error e))
    | .ok object =>
      ({ loader with allocated_ := loader.allocated_ + 1 }, .parsed ⟨loader.allocated_, object⟩)
  | .parsed model =>
    ({ loader with
        probability_model_cache_ :=
          assign (generate_cache_key language ngram_length (bytes "probability")) model
            loader.probability_model_cache_ },
      .returned (.ok model))
  | .returned result => (loader, .returned result)

/-- Two calls of `load_probability_model(language, ngram_length)` on two threads: the
schedule says which thread takes the next step (`false` the first, `true` the second). -/
def run_two_calls (env : Environment) (language : Language) (ngram_length : Nat) :
    List Bool → ModelLoader × Call × Call → ModelLoader × Call × Call
  | [], state => state
  | false :: schedule, (loader, first, second) =>
    let next := Call.step env language ngram_length loader first
    run_two_calls env language ngram_length schedule (next.1, next.2, second)
  | true :: schedule, (loader, first, second) =>
    let next := Call.step env language ngram_length loader second
    run_two_calls env language ngram_length schedule (next.1, first, next.2)

/-! ## Building a detector -/

/-- The constructor `LanguageDetector::LanguageDetector`: the parameter
`is_every_language_model_preloaded` is not kept, and `is_built_from_one_language_` is
`languages_.size() == 1`. -/
def LanguageDetector.new (languages : List Language) (minimum_relative_distance : ℚ)
    (is_every_language_model_preloaded : Bool) (is_low_accuracy_mode_enabled : Bool) :
    LanguageDetector :=
  let _unused := is_every_language_model_preloaded
  { languages_ := languages,
    minimum_relative_distance_ := minimum_relative_distance,
    is_low_accuracy_mode_enabled_ := is_low_accuracy_mode_enabled,
    is_built_from_one_language_ := decide (languages.length = 1) }

/-- The method `LanguageDetectorBuilder::with_preloaded_language_models`; the value is the
builder after the call. -/
def LanguageDetectorBuilder.with_preloaded_language_models (b : LanguageDetectorBuilder) :
    LanguageDetectorBuilder :=
  { b with is_every_language_model_preloaded_ := true }

/-- The method `LanguageDetectorBuilder::with_low_accuracy_mode`; the value is the builder
after the call. -/
def LanguageDetectorBuilder.with_low_accuracy_mode (b : LanguageDetectorBuilder) :
    LanguageDetectorBuilder :=
  { b with is_low_accuracy_mode_enabled_ := true }

/-- The method `CharSet::initialize_from_char_classes` for the ranges of one character
class: the member `characters_` after the two loops, which insert every code point `c`
with `range.start <= c <= range.end` of every range. -/
def CharSet.initialize_from_char_classes (ranges : List (Nat × Nat)) : List Nat :=
  ranges.flatMap (fun range => List.range' range.1 (range.2 + 1 - range.1))

/-- The function `get_char_set`: the `CharSet` that `alphabet_char_sets` holds for the
alphabet, as its member `characters_`. -/
def get_char_set (alphabet : Alphabet) : List Nat :=
  CharSet.initialize_from_char_classes (script_ranges alphabet)

/-- The method `CharSet::is_char_match`: `characters_.find(ch) != characters_.end()`. -/
def CharSet.is_char_match (characters_ : List Nat) (ch : Nat) : Bool :=
  characters_.contains ch

/-! ## The arithmetic of `double`, with rounding -/

/-- The scaling step of rounding: a positive rational `m` is doubled or halved until it lies
in the range `2^52 ≤ m < 2^53` of a 53-bit significand, or until the exponent `e` has
reached -1074, the exponent of the subnormal numbers.  The value is the scaled number and
the weight `2^e` of its last binary place.  The first argument bounds the number of steps. -/
def double_scale : Nat → ℚ → Int → ℚ → ℚ × ℚ
  | 0, m, _, ulp => (m, ulp)
  | fuel + 1, m, e, ulp =>
    if m < 4503599627370496 ∧ -1074 < e then double_scale fuel (m * 2) (e - 1) (ulp / 2)
    else if 9007199254740992 ≤ m then double_scale fuel (m / 2) (e + 1) (ulp * 2)
    else (m, ulp)

/-- The `double` nearest to the rational `q` (IEEE 754 binary64, round to nearest, ties to
even), for `q` below `2^1024` in magnitude: overflow to infinity is not part of the
embedding.  The scaled number has an integer part `f` of at most 53 bits; it is rounded to
`f` or to `f + 1`, and to the even one of the two when it lies half way.  Between `2^-1074`
and `2^1024` the scaling takes fewer than 1130 steps, so that the bound 2200 is never
reached. -/
def round_to_double (q : ℚ) : ℚ :=
  if q = 0 then 0
  else
    let scaled := double_scale 2200 (if q < 0 then -q else q) 0 1
    let m := scaled.1
    let ulp := scaled.2
    let f : Int := Rat.floor m
    let n : Int :=
      if m - f < 1 / 2 then f
      else if 1 / 2 < m - f then f + 1
      else if f % 2 = 0 then f else f + 1
    (if q < 0 then -1 else 1) * n * ulp

/-- The tokens that `tokenize_loop` still pushes, given the text left and the pending token. -/
def pending_tokens : List Nat → List Nat → List (List Nat)
  | [], current_token => if current_token.isEmpty then [] else [current_token]
  | c :: rest, current_token =>
    if isspace c then
      if current_token.isEmpty then pending_tokens rest []
      else current_token :: pending_tokens rest []
    else pending_tokens rest (current_token ++ [c])

/-- The bytes that `remove_extra_whitespace_loop` still appends to `result`. -/
def collapsed : List Nat → Bool → List Nat
  | [], _ => []
  | c :: rest, last_was_space =>
    if isspace c then
      if last_was_space then collapsed rest true else 32 :: collapsed rest true
    else c :: collapsed rest false

/-- The words joined by single spaces. -/
def join_words : List (List Nat) → List Nat
  | [] => []
  | w :: [] => w
  | w :: next :: rest => w ++ 32 :: join_words (next :: rest)

/-- The eleven keywords that `detect_language_of` and `compute_language_confidence_values`
search the lowercased text for. -/
def keywords : List (List Nat) :=
  [bytes "language", bytes "english", bytes "hello", bytes "world",
   bytes "sprache", bytes "deutsch", bytes "hallo", bytes "welt",
   bytes "langue", bytes "français", bytes "bonjour"]

/-- The relation that the cleaner keeps between neighbouring bytes: a byte 0xC3 is followed
by a byte from 0x80 on that is not 0x89. -/
def lead_then_other (a b : Nat) : Prop := a = 0xC3 → (0x80 ≤ b ∧ b ≠ 0x89)

/-- The bytes after the first loop of `to_lowercase`. -/
def e_acute_pass : List Nat → List Nat
  | [] => []
  | first :: rest => to_lowercase_e_acute first rest

/-- The only changes `to_lowercase` makes to a code point: `A`..`Z` go to `a`..`z`, and
U+00C9 (É) goes to U+00E9 (é). -/
def lowercase_code_point (ch : Nat) : Nat :=
  if 65 ≤ ch ∧ ch ≤ 90 then ch + 32 else if ch = 0xC9 then 0xE9 else ch

/-- A decimal numeral that `std::stoi` converts without overflow: at least one byte, all
of them digits, and a value below `2^31`. -/
def numeral (ns : List Nat) : Prop :=
  ns ≠ [] ∧ (∀ c ∈ ns, isdigit c = true) ∧ digits_value ns < 2147483648

/-- The addresses held in the caches are addresses of objects created so far; every loader
reached from `ModelLoader.get_instance` by calls of the loader has this property. -/
def ModelLoader.addresses_allocated (loader : ModelLoader) : Prop :=
  (∀ entry ∈ loader.probability_model_cache_, entry.2.address < loader.allocated_) ∧
  (∀ entry ∈ loader.count_model_cache_, entry.2.address < loader.allocated_)

/-- An environment with the model files present: every file opens and decompresses, and
the payload has the one entry "1/2" -> "a". -/
def Environment.with_models : Environment :=
  ⟨fun _ => some [], fun _ => some [], fun _ => .ok [(bytes "1/2", .ok (bytes "a"))],
    fun _ => .ok [.ok (bytes "a")]⟩

/-- An environment without any model file. -/
def Environment.without_models : Environment :=
  ⟨fun _ => none, fun _ => none, fun _ => .error .simdjson_error,
    fun _ => .error .simdjson_error⟩

/-- The maximal runs of bytes of a text that are not whitespace, in their order: the text
is split at every whitespace byte and the empty pieces are dropped. -/
def non_whitespace_runs (text : List Nat) : List (List Nat) :=
  (text.splitOnP isspace).filter (fun run => !run.isEmpty)

/-! ## The comparator and the sort -/

theorem Language.value_injective {a b : Language} (h : a.value = b.value) : a = b := by
  have h2 := congrArg Language.ofNat h
  simpa [Language.value, Language.ofNat_toCtorIdx] using h2

theorem confidence_order_iff (a b : Language × ℚ) :
    confidence_order a b = true ↔ (b.2 < a.2 ∨ (a.2 = b.2 ∧ a.1.value < b.1.value)) := by
  unfold confidence_order
  by_cases h : a.2 = b.2
  · simp [h]
  · simp [h]

theorem confidence_order_false_iff (a b : Language × ℚ) :
    confidence_order a b = false ↔ (a.2 < b.2 ∨ (a.2 = b.2 ∧ b.1.value ≤ a.1.value)) := by
  rw [← Bool.not_eq_true, confidence_order_iff]
  constructor
  · intro h
    push_neg at h
    rcases lt_trichotomy a.2 b.2 with hlt | heq | hgt
    · exact Or.inl hlt
    · exact Or.inr ⟨heq, h.2 heq⟩
    · exact absurd hgt (not_lt.mpr h.1)
  · rintro (hlt | ⟨heq, hle⟩)
    · rintro (h | ⟨h, _⟩)
      · exact lt_asymm hlt h
      · exact absurd h (ne_of_lt hlt)
    · rintro (h | ⟨_, h⟩)
      · exact absurd heq (ne_of_gt h)
      · exact absurd h (Nat.not_lt.mpr hle)

theorem sort_insert_perm {α : Type} (comp : α → α → Bool) (a : α) (l : List α) :
    (sort_insert comp a l).Perm (a :: l) := by
  induction l with
  | nil => exact List.Perm.refl _
  | cons b l ih =>
    unfold sort_insert
    by_cases h : comp a b = true
    · simp [h]
    · simp only [h]
      exact (List.Perm.cons b ih).trans (List.Perm.swap a b l)

theorem std_sort_perm {α : Type} (comp : α → α → Bool) (l : List α) :
    (std_sort comp l).Perm l := by
  induction l with
  | nil => exact List.Perm.refl _
  | cons a l ih =>
    unfold std_sort
    exact (sort_insert_perm comp a _).trans (List.Perm.cons a ih)

theorem not_after_trans {a b c : Language × ℚ} (h1 : not_after a b) (h2 : not_after b c) :
    not_after a c := by
  unfold not_after at *
  rw [confidence_order_false_iff] at *
  rcases h1 with h1 | ⟨e1, l1⟩ <;> rcases h2 with h2 | ⟨e2, l2⟩
  · exact Or.inl (lt_trans h2 h1)
  · exact Or.inl (e2 ▸ h1)
  · exact Or.inl (e1 ▸ h2)
  · exact Or.inr ⟨e2.trans e1, le_trans l1 l2⟩

theorem not_after_of_order {a b : Language × ℚ} (h : confidence_order a b = true) :
    not_after a b := by
  unfold not_after
  rw [confidence_order_iff] at h
  rw [confidence_order_false_iff]
  rcases h with h | ⟨e, l⟩
  · exact Or.inl h
  · exact Or.inr ⟨e.symm, Nat.le_of_lt l⟩

theorem not_after_of_not_order {a b : Language × ℚ} (h : confidence_order a b = false) :
    not_after b a := h

theorem not_after_antisymm {a b : Language × ℚ} (h1 : not_after a b) (h2 : not_after b a) :
    a = b := by
  unfold not_after at *
  rw [confidence_order_false_iff] at *
  rcases h1 with h1 | ⟨e1, l1⟩ <;> rcases h2 with h2 | ⟨e2, l2⟩
  · exact absurd h1 (lt_asymm h2)
  · exact absurd e2 (ne_of_gt h1)
  · exact absurd e1 (ne_of_gt h2)
  · exact Prod.ext (Language.value_injective (le_antisymm l1 l2)) e2

theorem sort_insert_sorted (a : Language × ℚ) (l : List (Language × ℚ))
    (hl : l.Pairwise not_after) : (sort_insert confidence_order a l).Pairwise not_after := by
  induction l with
  | nil => simp [sort_insert]
  | cons b l ih =>
    unfold sort_insert
    rw [List.pairwise_cons] at hl
    by_cases h : confidence_order a b = true
    · simp only [h, if_true]
      refine List.Pairwise.cons ?_ (List.Pairwise.cons hl.1 hl.2)
      intro x hx
      rcases List.mem_cons.mp hx with rfl | hx
      · exact not_after_of_order h
      · exact not_after_trans (not_after_of_order h) (hl.1 x hx)
    · simp only [h]
      refine List.Pairwise.cons ?_ (ih hl.2)
      intro x hx
      rcases List.mem_cons.mp ((sort_insert_perm confidence_order a l).subset hx) with rfl | hx
      · exact not_after_of_not_order (by simpa using h)
      · exact hl.1 x hx

theorem std_sort_sorted (l : List (Language × ℚ)) :
    (std_sort confidence_order l).Pairwise not_after := by
  induction l with
  | nil => simp [std_sort]
  | cons a l ih =>
    unfold std_sort
    exact sort_insert_sorted a _ ih

theorem std_sort_eq_of_perm {l1 l2 : List (Language × ℚ)} (h : l1.Perm l2) :
    std_sort confidence_order l1 = std_sort confidence_order l2 := by
  haveI : IsAntisymm (Language × ℚ) not_after := ⟨fun _ _ h1 h2 => not_after_antisymm h1 h2⟩
  exact List.eq_of_perm_of_sorted
    (((std_sort_perm _ l1).trans h).trans (std_sort_perm _ l2).symm)
    (std_sort_sorted l1) (std_sort_sorted l2)

/-! ## The confidence values as a sorted table -/

theorem foldl_confidence_sum (l : List (Language × ℚ)) (a : ℚ) :
    l.foldl (fun acc r => acc + r.2) a = a + (l.map Prod.snd).sum := by
  induction l generalizing a with
  | nil => simp
  | cons x l ih => simp [List.foldl_cons, ih, add_assoc]

theorem isEmpty_eq_false_of_ne {α : Type} {l : List α} (h : l ≠ []) : l.isEmpty = false := by
  cases l with
  | nil => exact absurd rfl h
  | cons a l => rfl

/-- On a text with a word, the confidence values are the sorted table of the normalised
capped keyword scores of the configured languages. -/
theorem confidence_values_eq (d : LanguageDetector) (text : List Nat) (ht : text ≠ [])
    (hl : d.languages_ ≠ []) (hw : tokenize text ≠ []) :
    compute_language_confidence_values d text =
      std_sort confidence_order (d.languages_.map fun l =>
        (l, if 0 < (d.languages_.map fun l => min (keyword_score l (text.map tolower)) 1).sum
            then min (keyword_score l (text.map tolower)) 1 /
              (d.languages_.map fun l => min (keyword_score l (text.map tolower)) 1).sum
            else 1 / (d.languages_.length : ℚ))) := by
  unfold compute_language_confidence_values
  simp only [isEmpty_eq_false_of_ne ht, isEmpty_eq_false_of_ne hl, isEmpty_eq_false_of_ne hw,
    Bool.or_self, Bool.false_eq_true, if_false, foldl_confidence_sum, List.map_map, zero_add,
    List.length_map, gt_iff_lt]
  have hs : (Prod.snd ∘ (fun r : Language × ℚ => (r.1, min (keyword_score r.1
      (List.map tolower text)) 1)) ∘ fun language : Language => (language, (0 : ℚ))) =
      fun l => min (keyword_score l (text.map tolower)) 1 := rfl
  rw [hs]
  split_ifs <;> rfl

/-- On a non-empty text without a word, every configured language gets confidence 0. -/
theorem confidence_values_eq_of_no_word (d : LanguageDetector) (text : List Nat)
    (ht : text ≠ []) (hl : d.languages_ ≠ []) (hw : tokenize text = []) :
    compute_language_confidence_values d text =
      std_sort confidence_order (d.languages_.map fun l => (l, 0)) := by
  unfold compute_language_confidence_values
  simp [isEmpty_eq_false_of_ne ht, isEmpty_eq_false_of_ne hl, hw]

/-- For a non-empty text the confidence values are a sorted table over the configured
languages, whatever the confidences are. -/
theorem confidence_values_shape (d : LanguageDetector) (text : List Nat) (ht : text ≠ []) :
    ∃ f : Language → ℚ, compute_language_confidence_values d text =
      std_sort confidence_order (d.languages_.map fun l => (l, f l)) := by
  by_cases hl : d.languages_ = []
  · refine ⟨fun _ => 0, ?_⟩
    unfold compute_language_confidence_values
    simp [hl, std_sort]
  · by_cases hw : tokenize text = []
    · exact ⟨_, confidence_values_eq_of_no_word d text ht hl hw⟩
    · exact ⟨_, confidence_values_eq d text ht hl hw⟩

theorem confidence_values_nil (d : LanguageDetector) :
    compute_language_confidence_values d [] = [] := by
  unfold compute_language_confidence_values
  simp

theorem confidence_values_languages (d : LanguageDetector) (text : List Nat) (ht : text ≠ []) :
    ((compute_language_confidence_values d text).map Prod.fst).Perm d.languages_ := by
  obtain ⟨f, hf⟩ := confidence_values_shape d text ht
  rw [hf]
  have h := (std_sort_perm confidence_order (d.languages_.map fun l => (l, f l))).map Prod.fst
  simpa [List.map_map, Function.comp_def] using h

theorem confidence_values_sorted (d : LanguageDetector) (text : List Nat) :
    (compute_language_confidence_values d text).Pairwise not_after := by
  by_cases ht : text = []
  · subst ht
    rw [confidence_values_nil]
    exact List.Pairwise.nil
  · obtain ⟨f, hf⟩ := confidence_values_shape d text ht
    rw [hf]
    exact std_sort_sorted _

/-! ## Words and whitespace -/

theorem tokenize_loop_eq_nil (rest : List Nat) (tokens : List (List Nat))
    (current_token : List Nat) :
    tokenize_loop rest tokens current_token = [] ↔
      tokens = [] ∧ current_token = [] ∧ ∀ c ∈ rest, isspace c = true := by
  induction rest generalizing tokens current_token with
  | nil =>
    cases current_token <;> simp [tokenize_loop]
  | cons c rest ih =>
    unfold tokenize_loop
    by_cases hc : isspace c = true
    · cases current_token with
      | nil => simp [hc, ih]
      | cons x xs => simp [hc, ih]
    · simp [hc, ih]

/-- The tokenizer finds no word exactly in the texts that hold only whitespace bytes. -/
theorem tokenize_eq_nil (text : List Nat) :
    tokenize text = [] ↔ ∀ c ∈ text, isspace c = true := by
  unfold tokenize
  cases text with
  | nil => simp
  | cons c rest => simp [tokenize_loop_eq_nil]

theorem tokenize_ne_nil_of_byte {text : List Nat} (h : ∃ c ∈ text, isspace c = false) :
    tokenize text ≠ [] := by
  obtain ⟨c, hc, hs⟩ := h
  intro h0
  have := (tokenize_eq_nil text).mp h0 c hc
  simp [hs] at this

theorem ne_nil_of_byte {text : List Nat} (h : ∃ c ∈ text, isspace c = false) : text ≠ [] := by
  obtain ⟨c, hc, _⟩ := h
  exact List.ne_nil_of_mem hc

/-! ## Scores and their normalisation -/

theorem keyword_score_nonneg (language : Language) (lower_text : List Nat) :
    0 ≤ keyword_score language lower_text := by
  unfold keyword_score
  split
  · dsimp only
    split_ifs <;> norm_num
  · dsimp only
    split_ifs <;> norm_num
  · dsimp only
    split_ifs <;> norm_num
  · norm_num

theorem capped_score_nonneg (language : Language) (lower_text : List Nat) :
    0 ≤ min (keyword_score language lower_text) 1 :=
  le_min (keyword_score_nonneg language lower_text) zero_le_one

theorem sum_map_div {α : Type} (l : List α) (f : α → ℚ) (t : ℚ) :
    (l.map fun x => f x / t).sum = (l.map f).sum / t := by
  induction l with
  | nil => simp
  | cons a l ih => simp [ih, add_div]

theorem sum_map_const {α : Type} (l : List α) (c : ℚ) :
    (l.map fun _ => c).sum = (l.length : ℚ) * c := by
  induction l with
  | nil => simp
  | cons a l ih =>
    simp only [List.map_cons, List.sum_cons, ih, List.length_cons, Nat.cast_add, Nat.cast_one]
    ring

theorem confidence_values_sum (d : LanguageDetector) (text : List Nat) (ht : text ≠ [])
    (hl : d.languages_ ≠ []) (hw : tokenize text ≠ []) :
    ((compute_language_confidence_values d text).map Prod.snd).sum = 1 := by
  rw [confidence_values_eq d text ht hl hw]
  rw [((std_sort_perm confidence_order _).map Prod.snd).sum_eq]
  simp only [List.map_map, Function.comp_def]
  by_cases hpos : 0 < (d.languages_.map fun l => min (keyword_score l (text.map tolower)) 1).sum
  · simp only [hpos, if_true]
    rw [sum_map_div]
    exact div_self (ne_of_gt hpos)
  · simp only [hpos, if_false]
    rw [sum_map_const]
    have hlen : (d.languages_.length : ℚ) ≠ 0 := by
      have : d.languages_.length ≠ 0 := fun h => hl (List.length_eq_zero.mp h)
      exact_mod_cast this
    field_simp

theorem confidence_values_nonneg (d : LanguageDetector) (text : List Nat) :
    ∀ e ∈ compute_language_confidence_values d text, 0 ≤ e.2 := by
  intro e he
  by_cases ht : text = []
  · subst ht
    rw [confidence_values_nil] at he
    exact absurd he (List.not_mem_nil e)
  by_cases hl : d.languages_ = []
  · unfold compute_language_confidence_values at he
    simp [hl] at he
  by_cases hw : tokenize text = []
  · rw [confidence_values_eq_of_no_word d text ht hl hw] at he
    have he2 := (std_sort_perm confidence_order _).subset he
    obtain ⟨l, _, rfl⟩ := List.mem_map.mp he2
    exact le_refl _
  · rw [confidence_values_eq d text ht hl hw] at he
    have he2 := (std_sort_perm confidence_order _).subset he
    obtain ⟨l, _, rfl⟩ := List.mem_map.mp he2
    dsimp only
    split_ifs with hpos
    · exact div_nonneg (capped_score_nonneg _ _) (le_of_lt hpos)
    · positivity

/-! ## Independence of the iteration order of `languages_` -/

theorem confidence_values_perm (d1 d2 : LanguageDetector) (text : List Nat)
    (h : d1.languages_.Perm d2.languages_) :
    compute_language_confidence_values d1 text = compute_language_confidence_values d2 text := by
  by_cases ht : text = []
  · subst ht
    rw [confidence_values_nil, confidence_values_nil]
  by_cases hl : d1.languages_ = []
  · have hl2 : d2.languages_ = [] := by
      rw [hl] at h
      exact List.nil_perm.mp h
    unfold compute_language_confidence_values
    simp [hl, hl2]
  have hl2 : d2.languages_ ≠ [] := fun h0 => hl (by rw [h0] at h; exact List.perm_nil.mp h)
  by_cases hw : tokenize text = []
  · rw [confidence_values_eq_of_no_word d1 text ht hl hw,
      confidence_values_eq_of_no_word d2 text ht hl2 hw]
    exact std_sort_eq_of_perm (h.map _)
  · rw [confidence_values_eq d1 text ht hl hw, confidence_values_eq d2 text ht hl2 hw]
    have hs : (d1.languages_.map fun l => min (keyword_score l (text.map tolower)) 1).sum =
        (d2.languages_.map fun l => min (keyword_score l (text.map tolower)) 1).sum :=
      (h.map _).sum_eq
    rw [hs, h.length_eq]
    exact std_sort_eq_of_perm (h.map _)

theorem contains_perm {l1 l2 : List Language} (h : l1.Perm l2) (a : Language) :
    l1.contains a = l2.contains a := by
  rw [Bool.eq_iff_iff]
  simp [h.mem_iff]

theorem isEmpty_perm {l1 l2 : List Language} (h : l1.Perm l2) : l1.isEmpty = l2.isEmpty := by
  rw [Bool.eq_iff_iff]
  simp only [List.isEmpty_iff]
  constructor
  · intro h0
    rw [h0] at h
    exact List.nil_perm.mp h
  · intro h0
    rw [h0] at h
    exact List.perm_nil.mp h

theorem detect_language_of_perm (d1 d2 : LanguageDetector) (text : List Nat)
    (h : d1.languages_.Perm d2.languages_)
    (hm : d1.minimum_relative_distance_ = d2.minimum_relative_distance_) :
    detect_language_of d1 text = detect_language_of d2 text := by
  unfold detect_language_of
  rw [isEmpty_perm h, contains_perm h, contains_perm h, contains_perm h,
    confidence_values_perm d1 d2 text h, hm]

theorem compute_language_confidence_perm (d1 d2 : LanguageDetector) (text : List Nat)
    (language : Language) (h : d1.languages_.Perm d2.languages_) :
    compute_language_confidence d1 text language =
      compute_language_confidence d2 text language := by
  unfold compute_language_confidence
  rw [contains_perm h, confidence_values_perm d1 d2 text h]

/-! ## Properties of the detector -/

theorem detect_language_of_nil (d : LanguageDetector) : detect_language_of d [] = none := by
  unfold detect_language_of
  simp

/-- If `detect_language_of` reaches its fall-back, its result is decided by the first two
confidence values alone. -/
theorem detect_language_of_fallback (d : LanguageDetector) (text : List Nat) (ht : text ≠ [])
    (hl : d.languages_ ≠ []) (hk : no_keyword_shortcut d text) :
    detect_language_of d text =
      match compute_language_confidence_values d text with
      | [] => none
      | most_likely :: rest =>
        if most_likely.2 = second_confidence rest then none
        else if most_likely.2 - second_confidence rest < d.minimum_relative_distance_ then none
        else some most_likely.1 := by
  obtain ⟨h1, h2, h3⟩ := hk
  unfold detect_language_of
  simp only [isEmpty_eq_false_of_ne ht, isEmpty_eq_false_of_ne hl, Bool.or_self,
    Bool.false_eq_true, if_false, h1, h2, h3]

/-- The order of the tag names: the enumerators are declared in the alphabetical order of
the names that `to_string` returns. -/
theorem to_string_lt_iff :
    ∀ a b : Language, a.value < b.value ↔ bytes (to_string a) < bytes (to_string b) := by
  decide!

theorem mem_of_shortcut {l : List Language} {k : Bool} {a : Language}
    (h : (k && l.contains a) = true) : a ∈ l := by
  cases k <;> simp at h
  exact h

/-- C2: `detect_language_of` returns either nothing or one of the configured languages. -/
theorem detect_language_of_mem (d : LanguageDetector) (text : List Nat) :
    detect_language_of d text = none ∨
      ∃ l, l ∈ d.languages_ ∧ detect_language_of d text = some l := by
  by_cases ht : text = []
  · subst ht
    exact Or.inl (detect_language_of_nil d)
  unfold detect_language_of
  dsimp only
  split_ifs with h0 h1 h2 h3
  · exact Or.inl rfl
  · exact Or.inr ⟨_, mem_of_shortcut h1, rfl⟩
  · exact Or.inr ⟨_, mem_of_shortcut h2, rfl⟩
  · exact Or.inr ⟨_, mem_of_shortcut h3, rfl⟩
  · have hperm := confidence_values_languages d text ht
    rcases hcv : compute_language_confidence_values d text with _ | ⟨m, rest⟩
    · exact Or.inl rfl
    · rw [hcv] at hperm
      dsimp only
      split_ifs
      · exact Or.inl rfl
      · exact Or.inl rfl
      · exact Or.inr ⟨m.1, hperm.subset (by simp), rfl⟩

/-- C3 as stated fails: on the text " " the detector over English and German returns a
non-empty vector, both entries with confidence 0, whose sum is 0 and not 1. -/
theorem whitespace_text_sum_not_one :
    compute_language_confidence_values ⟨[.ENGLISH, .GERMAN], 0, false, false⟩ (bytes " ") ≠ [] ∧
    ((compute_language_confidence_values ⟨[.ENGLISH, .GERMAN], 0, false, false⟩
      (bytes " ")).map Prod.snd).sum ≠ 1 := by
  decide!

/-- C3, amended: for every text that holds at least one non-whitespace byte, when the
confidence values are non-empty their confidences sum to 1 (exact arithmetic). -/
theorem confidence_values_sum_eq_one (d : LanguageDetector) (text : List Nat)
    (hne : compute_language_confidence_values d text ≠ [])
    (hb : ∃ c ∈ text, isspace c = false) :
    ((compute_language_confidence_values d text).map Prod.snd).sum = 1 := by
  have hl : d.languages_ ≠ [] := by
    intro h0
    apply hne
    unfold compute_language_confidence_values
    simp [h0]
  exact confidence_values_sum d text (ne_nil_of_byte hb) hl (tokenize_ne_nil_of_byte hb)

/-- The sum theorem applied: English and German configured, text "Hello world". -/
theorem confidence_values_sum_eq_one_witness :
    ((compute_language_confidence_values ⟨[.ENGLISH, .GERMAN], 0, false, false⟩
      (bytes "Hello world")).map Prod.snd).sum = 1 :=
  confidence_values_sum_eq_one ⟨[.ENGLISH, .GERMAN], 0, false, false⟩ (bytes "Hello world")
    (by decide!) ⟨72, by decide, by decide⟩

/-- C4: for a non-empty text the languages of the confidence values are the configured
languages, each once: the entries' languages are a rearrangement of the configured set, so
a configured language has exactly one entry and any other language has none. -/
theorem confidence_values_one_entry_per_language (d : LanguageDetector) (text : List Nat)
    (hn : d.languages_.Nodup) (ht : text ≠ []) :
    ((compute_language_confidence_values d text).map Prod.fst).Perm d.languages_ ∧
    ∀ l, ((compute_language_confidence_values d text).map Prod.fst).count l =
      if l ∈ d.languages_ then 1 else 0 := by
  have hperm := confidence_values_languages d text ht
  refine ⟨hperm, fun l => ?_⟩
  rw [hperm.count_eq]
  exact List.count_eq_of_nodup hn

/-- The entry theorem applied: English and German configured, text "Hello world". -/
theorem confidence_values_one_entry_per_language_witness :
    ((compute_language_confidence_values ⟨[.ENGLISH, .GERMAN], 0, false, false⟩
      (bytes "Hello world")).map Prod.fst).Perm [.ENGLISH, .GERMAN] ∧
    ∀ l, ((compute_language_confidence_values ⟨[.ENGLISH, .GERMAN], 0, false, false⟩
      (bytes "Hello world")).map Prod.fst).count l =
      if l ∈ [Language.ENGLISH, Language.GERMAN] then 1 else 0 :=
  confidence_values_one_entry_per_language ⟨[.ENGLISH, .GERMAN], 0, false, false⟩
    (bytes "Hello world") (by decide) (by decide)

/-- C5: the confidence values are sorted: of two entries the earlier one has the higher
confidence or, for equal confidences, the language that is not later in the enumeration;
and the enumeration order is the alphabetical (bytewise lexicographic) order of the tag
names that `to_string` returns. -/
theorem confidence_values_sorted_by_confidence_then_tag (d : LanguageDetector)
    (text : List Nat) :
    (compute_language_confidence_values d text).Pairwise
      (fun a b => b.2 < a.2 ∨ (a.2 = b.2 ∧ a.1.value ≤ b.1.value)) ∧
    ∀ a b : Language, a.value < b.value ↔ bytes (to_string a) < bytes (to_string b) := by
  refine ⟨?_, to_string_lt_iff⟩
  refine (confidence_values_sorted d text).imp ?_
  intro a b hab
  unfold not_after at hab
  rw [confidence_order_false_iff] at hab
  rcases hab with h | ⟨h, hle⟩
  · exact Or.inl h
  · exact Or.inr ⟨h.symm, hle⟩

theorem confidence_lookup_of_mem (language : Language) (p : ℚ) :
    ∀ cv : List (Language × ℚ), (cv.map Prod.fst).Nodup → (language, p) ∈ cv →
      confidence_lookup language cv = p := by
  intro cv
  induction cv with
  | nil => intro _ h; exact absurd h (List.not_mem_nil _)
  | cons e cv ih =>
    intro hn hm
    obtain ⟨lang, confidence⟩ := e
    rw [List.map_cons, List.nodup_cons] at hn
    unfold confidence_lookup
    rcases List.mem_cons.mp hm with heq | hm
    · have h1 : lang = language := (congrArg Prod.fst heq).symm
      have h2 : confidence = p := (congrArg Prod.snd heq).symm
      simp [h1, h2]
    · have hne : lang ≠ language := by
        rintro rfl
        exact hn.1 (List.mem_map.mpr ⟨(lang, p), hm, rfl⟩)
      simp only [hne, if_false]
      exact ih hn.2 hm

theorem confidence_lookup_mem (language : Language) :
    ∀ cv : List (Language × ℚ), language ∈ cv.map Prod.fst →
      (language, confidence_lookup language cv) ∈ cv := by
  intro cv
  induction cv with
  | nil => intro h; exact absurd h (List.not_mem_nil _)
  | cons e cv ih =>
    intro hm
    obtain ⟨lang, confidence⟩ := e
    unfold confidence_lookup
    by_cases hl : lang = language
    · simp [hl]
    · simp only [hl, if_false]
      rw [List.map_cons, List.mem_cons] at hm
      rcases hm with h | h
      · exact absurd h.symm hl
      · exact List.mem_cons_of_mem _ (ih h)

/-- C6: for a configured language and a non-empty text, `compute_language_confidence` is
the confidence paired with that language in the confidence values (the one entry for it);
for a language that is not configured, and for the empty text, it is 0. -/
theorem compute_language_confidence_spec (d : LanguageDetector) (text : List Nat)
    (language : Language) (hn : d.languages_.Nodup) :
    (language ∈ d.languages_ → text ≠ [] →
      ∀ p, (language, p) ∈ compute_language_confidence_values d text ↔
        p = compute_language_confidence d text language) ∧
    (language ∉ d.languages_ ∨ text = [] →
      compute_language_confidence d text language = 0) := by
  constructor
  · intro hm ht p
    have hperm := confidence_values_languages d text ht
    have hc : compute_language_confidence d text language =
        confidence_lookup language (compute_language_confidence_values d text) := by
      unfold compute_language_confidence
      simp [isEmpty_eq_false_of_ne ht, hm]
    rw [hc]
    constructor
    · intro hp
      exact (confidence_lookup_of_mem language p _ (hperm.nodup_iff.mpr hn) hp).symm
    · rintro rfl
      exact confidence_lookup_mem language _ (hperm.symm.subset hm)
  · intro h
    unfold compute_language_confidence
    rcases h with h | h
    · simp [h]
    · simp [h]

/-- The confidence theorem applied: English and German configured, text "Hello world";
English is configured, French is not. -/
theorem compute_language_confidence_spec_witness :
    [Language.ENGLISH, Language.GERMAN].Nodup ∧
    (∀ p, (Language.ENGLISH, p) ∈ compute_language_confidence_values
          ⟨[.ENGLISH, .GERMAN], 0, false, false⟩ (bytes "Hello world") ↔
        p = compute_language_confidence ⟨[.ENGLISH, .GERMAN], 0, false, false⟩
          (bytes "Hello world") .ENGLISH) ∧
    compute_language_confidence ⟨[.ENGLISH, .GERMAN], 0, false, false⟩
        (bytes "Hello world") .FRENCH = 0 :=
  ⟨by decide,
    (compute_language_confidence_spec ⟨[.ENGLISH, .GERMAN], 0, false, false⟩
      (bytes "Hello world") .ENGLISH (by decide)).1 (by decide) (by decide),
    (compute_language_confidence_spec ⟨[.ENGLISH, .GERMAN], 0, false, false⟩
      (bytes "Hello world") .FRENCH (by decide)).2 (Or.inl (by decide))⟩

/-- C7: the empty text is an ordinary input: `detect_language_of` gives no language and
`compute_language_confidence_values` gives the empty vector, for every detector. -/
theorem empty_text_results (d : LanguageDetector) :
    detect_language_of d [] = none ∧ compute_language_confidence_values d [] = [] :=
  ⟨detect_language_of_nil d, confidence_values_nil d⟩

/-- C8 as stated fails: the detector over English alone, on the non-empty text " ", gives
no language, and the confidence of English is 0. -/
theorem english_only_whitespace_text :
    detect_language_of ⟨[.ENGLISH], 0, false, true⟩ (bytes " ") = none ∧
    compute_language_confidence ⟨[.ENGLISH], 0, false, true⟩ (bytes " ") .ENGLISH = 0 := by
  decide!

/-- C8, amended: for a detector with English as its only language and a minimum relative
distance of at most 0.99 (the builder accepts no other), every text that holds at least one
non-whitespace byte is detected as English, and the confidence of English is 1. -/
theorem english_only_detects_english (d : LanguageDetector) (text : List Nat)
    (hl : d.languages_ = [Language.ENGLISH])
    (hm : d.minimum_relative_distance_ ≤ 99 / 100)
    (hb : ∃ c ∈ text, isspace c = false) :
    detect_language_of d text = some Language.ENGLISH ∧
    compute_language_confidence d text Language.ENGLISH = 1 := by
  have ht : text ≠ [] := ne_nil_of_byte hb
  have hw : tokenize text ≠ [] := tokenize_ne_nil_of_byte hb
  have hl0 : d.languages_ ≠ [] := by rw [hl]; exact List.cons_ne_nil _ _
  have hcv : compute_language_confidence_values d text = [(Language.ENGLISH, 1)] := by
    rw [confidence_values_eq d text ht hl0 hw, hl]
    simp only [List.map_cons, List.map_nil, List.sum_cons, List.sum_nil, add_zero,
      List.length_singleton, std_sort, sort_insert]
    split_ifs with hpos
    · rw [div_self (ne_of_gt hpos)]
    · norm_num
  constructor
  · by_cases hk : english_keyword (text.map tolower) = true
    · unfold detect_language_of
      simp [isEmpty_eq_false_of_ne ht, hl, hk]
    · have hns : no_keyword_shortcut d text := by
        unfold no_keyword_shortcut
        rw [hl]
        refine ⟨by simp [hk], ?_, ?_⟩
        · rw [show [Language.ENGLISH].contains Language.GERMAN = false from by decide]
          exact Bool.and_false _
        · rw [show [Language.ENGLISH].contains Language.FRENCH = false from by decide]
          exact Bool.and_false _
      rw [detect_language_of_fallback d text ht hl0 hns, hcv]
      have h1 : ¬ ((1 : ℚ) = 0) := one_ne_zero
      have h2 : ¬ ((1 : ℚ) - 0 < d.minimum_relative_distance_) := by
        intro h
        linarith
      simp only [second_confidence, h1, h2, if_false]
  · unfold compute_language_confidence
    simp [isEmpty_eq_false_of_ne ht, hl, hcv, confidence_lookup]

/-- The English-only theorem applied: default distance 0, text "anything". -/
theorem english_only_detects_english_witness :
    detect_language_of ⟨[.ENGLISH], 0, false, true⟩ (bytes "anything") = some .ENGLISH ∧
    compute_language_confidence ⟨[.ENGLISH], 0, false, true⟩ (bytes "anything") .ENGLISH = 1 :=
  english_only_detects_english ⟨[.ENGLISH], 0, false, true⟩ (bytes "anything") rfl
    (by norm_num) ⟨97, by decide, by decide⟩

/-- C9: every detector whose configured set is English, French and German (in any
iteration order, with any options) detects "languages are awesome" as English,
"Sprachen sind toll" as German and "les langues sont géniales" as French. -/
theorem detects_english_german_french (d : LanguageDetector)
    (hl : d.languages_.Perm [.ENGLISH, .FRENCH, .GERMAN]) :
    detect_language_of d (bytes "languages are awesome") = some .ENGLISH ∧
    detect_language_of d (bytes "Sprachen sind toll") = some .GERMAN ∧
    detect_language_of d (bytes "les langues sont géniales") = some .FRENCH := by
  have e : ∀ text, detect_language_of d text = detect_language_of
      ⟨[.ENGLISH, .FRENCH, .GERMAN], d.minimum_relative_distance_, false, false⟩ text :=
    fun text => detect_language_of_perm _ _ text hl rfl
  rw [e, e, e]
  refine ⟨?_, ?_, ?_⟩
  · unfold detect_language_of
    dsimp only
    rw [show english_keyword ((bytes "languages are awesome").map tolower) = true from
      by decide]
    rfl
  · unfold detect_language_of
    dsimp only
    rw [show english_keyword ((bytes "Sprachen sind toll").map tolower) = false from by decide,
      show german_keyword ((bytes "Sprachen sind toll").map tolower) = true from by decide]
    rfl
  · unfold detect_language_of
    dsimp only
    rw [show english_keyword ((bytes "les langues sont géniales").map tolower) = false from
        by decide,
      show german_keyword ((bytes "les langues sont géniales").map tolower) = false from
        by decide,
      show french_keyword ((bytes "les langues sont géniales").map tolower) = true from
        by decide]
    rfl

/-- The three-language theorem applied to the set in the order German, English, French. -/
theorem detects_english_german_french_witness :
    detect_language_of ⟨[.GERMAN, .ENGLISH, .FRENCH], 0, false, false⟩
      (bytes "languages are awesome") = some .ENGLISH ∧
    detect_language_of ⟨[.GERMAN, .ENGLISH, .FRENCH], 0, false, false⟩
      (bytes "Sprachen sind toll") = some .GERMAN ∧
    detect_language_of ⟨[.GERMAN, .ENGLISH, .FRENCH], 0, false, false⟩
      (bytes "les langues sont géniales") = some .FRENCH :=
  detects_english_german_french ⟨[.GERMAN, .ENGLISH, .FRENCH], 0, false, false⟩ (by decide)

/-- C10: every detector whose configured set is Chinese, English, French and German (in any
iteration order) with the default minimum relative distance 0 detects "互联网逆天新人设" as
Chinese, and the confidence of Chinese for that text is at least 0.95 (it is 1). -/
theorem detects_chinese (d : LanguageDetector)
    (hl : d.languages_.Perm [.CHINESE, .ENGLISH, .FRENCH, .GERMAN])
    (hm : d.minimum_relative_distance_ = 0) :
    detect_language_of d (bytes "互联网逆天新人设") = some .CHINESE ∧
    95 / 100 ≤ compute_language_confidence d (bytes "互联网逆天新人设") .CHINESE := by
  rw [detect_language_of_perm d ⟨[.CHINESE, .ENGLISH, .FRENCH, .GERMAN], 0, false, false⟩ _ hl hm,
    compute_language_confidence_perm d
      ⟨[.CHINESE, .ENGLISH, .FRENCH, .GERMAN], 0, false, false⟩ _ _ hl]
  decide!

/-- The Chinese theorem applied to the set in the order German, French, English, Chinese. -/
theorem detects_chinese_witness :
    detect_language_of ⟨[.GERMAN, .FRENCH, .ENGLISH, .CHINESE], 0, false, false⟩
      (bytes "互联网逆天新人设") = some .CHINESE ∧
    95 / 100 ≤ compute_language_confidence
      ⟨[.GERMAN, .FRENCH, .ENGLISH, .CHINESE], 0, false, false⟩
      (bytes "互联网逆天新人设") .CHINESE :=
  detects_chinese ⟨[.GERMAN, .FRENCH, .ENGLISH, .CHINESE], 0, false, false⟩ (by decide) rfl

/-! ## The batch operations are maps -/

theorem foldl_push_eq_map {α β : Type} (f : α → β) (xs : List α) (acc : List β) :
    xs.foldl (fun results x => results ++ [f x]) acc = acc ++ xs.map f := by
  induction xs generalizing acc with
  | nil => simp
  | cons x xs ih => simp [List.foldl_cons, ih]

/-- C14: each batch operation returns the list of the single-text results, in the order of
the texts: it has the length of the input and its i-th element is the single-text result
for the i-th text. -/
theorem batch_operations_pointwise (d : LanguageDetector) (texts : List (List Nat))
    (language : Language) :
    detect_languages_of d texts = texts.map (detect_language_of d) ∧
    compute_language_confidence_values_of d texts =
      texts.map (compute_language_confidence_values d) ∧
    compute_language_confidence_of d texts language =
      texts.map (fun text => compute_language_confidence d text language) ∧
    (detect_languages_of d texts).length = texts.length ∧
    (compute_language_confidence_values_of d texts).length = texts.length ∧
    (compute_language_confidence_of d texts language).length = texts.length ∧
    ∀ i : Fin texts.length,
      (detect_languages_of d texts)[i.1]? = some (detect_language_of d texts[i.1]) ∧
      (compute_language_confidence_values_of d texts)[i.1]? =
        some (compute_language_confidence_values d texts[i.1]) ∧
      (compute_language_confidence_of d texts language)[i.1]? =
        some (compute_language_confidence d texts[i.1] language) := by
  have h1 : detect_languages_of d texts = texts.map (detect_language_of d) := by
    unfold detect_languages_of
    rw [foldl_push_eq_map]; rfl
  have h2 : compute_language_confidence_values_of d texts =
      texts.map (compute_language_confidence_values d) := by
    unfold compute_language_confidence_values_of
    rw [foldl_push_eq_map]; rfl
  have h3 : compute_language_confidence_of d texts language =
      texts.map (fun text => compute_language_confidence d text language) := by
    unfold compute_language_confidence_of
    rw [foldl_push_eq_map]; rfl
  refine ⟨h1, h2, h3, ?_, ?_, ?_, ?_⟩
  · rw [h1, List.length_map]
  · rw [h2, List.length_map]
  · rw [h3, List.length_map]
  · intro i
    rw [h1, h2, h3]
    simp

/-! ## The builder -/

/-- C16: `with_minimum_relative_distance(d)` throws `InvalidConfigurationException` exactly
when `d < 0.0` or `d > 0.99`, and returns exactly when `0.0 <= d <= 0.99`; after a throw the
builder is what it was, after a return its stored distance is `d` and nothing else changed;
0.0 and 0.99 are accepted and 1.0 is rejected. -/
theorem with_minimum_relative_distance_spec (b : LanguageDetectorBuilder) (distance : ℚ) :
    ((b.with_minimum_relative_distance distance).2 = .error .InvalidConfigurationException ↔
      (distance < 0 ∨ distance > 99 / 100)) ∧
    ((b.with_minimum_relative_distance distance).2 = .ok () ↔
      (0 ≤ distance ∧ distance ≤ 99 / 100)) ∧
    ((b.with_minimum_relative_distance distance).2 = .error .InvalidConfigurationException →
      (b.with_minimum_relative_distance distance).1 = b) ∧
    ((b.with_minimum_relative_distance distance).2 = .ok () →
      (b.with_minimum_relative_distance distance).1 =
        { b with minimum_relative_distance_ := distance }) ∧
    (b.with_minimum_relative_distance 0).2 = .ok () ∧
    (b.with_minimum_relative_distance (99 / 100)).2 = .ok () ∧
    (b.with_minimum_relative_distance 1).2 = .error .InvalidConfigurationException := by
  unfold LanguageDetectorBuilder.with_minimum_relative_distance
  refine ⟨?_, ?_, ?_, ?_, ?_, ?_, ?_⟩
  · by_cases h : distance < 0 ∨ distance > 99 / 100
    · simp [h]
    · simp [h]
  · by_cases h : distance < 0 ∨ distance > 99 / 100
    · simp only [h, if_true]
      constructor
      · intro h2; cases h2
      · rintro ⟨h1, h2⟩
        rcases h with h | h <;> linarith
    · simp only [h, if_false, true_iff]
      push_neg at h
      exact h
  · by_cases h : distance < 0 ∨ distance > 99 / 100
    · simp [h]
    · simp [h]
  · by_cases h : distance < 0 ∨ distance > 99 / 100
    · simp [h]
    · simp [h]
  · norm_num
  · norm_num
  · norm_num

theorem mem_all_languages : ∀ l : Language, l ∈ all_languages := by decide

theorem all_languages_nodup : all_languages.Nodup := by decide

theorem mem_foldl_erase (xs : List Language) :
    ∀ s : List Language, s.Nodup → ∀ l,
      (l ∈ xs.foldl (fun all_langs lang => all_langs.erase lang) s ↔ l ∈ s ∧ l ∉ xs) := by
  induction xs with
  | nil => intro s _ l; simp
  | cons x xs ih =>
    intro s hs l
    rw [List.foldl_cons, ih (s.erase x) (hs.erase x) l, hs.mem_erase_iff]
    simp only [List.mem_cons, not_or]
    tauto

theorem nodup_foldl_erase (xs : List Language) :
    ∀ s : List Language, s.Nodup →
      (xs.foldl (fun all_langs lang => all_langs.erase lang) s).Nodup := by
  induction xs with
  | nil => intro s hs; exact hs
  | cons x xs ih => intro s hs; exact ih _ (hs.erase x)

/-- C17: `from_languages(L)` throws `InvalidConfigurationException` exactly when `L` is
empty, and `from_all_languages_without(X)` exactly when `X` is empty or holds every one of
the 75 languages; otherwise the builder's language set holds exactly the elements of `L`,
respectively exactly the languages that are not in `X`, each once, and is not empty. -/
theorem builder_language_set_spec (languages : List Language) :
    (LanguageDetectorBuilder.from_languages languages = .error .InvalidConfigurationException ↔
      languages = []) ∧
    (LanguageDetectorBuilder.from_all_languages_without languages =
        .error .InvalidConfigurationException ↔
      (languages = [] ∨ ∀ l : Language, l ∈ languages)) ∧
    (languages = [] ∨ ∃ b, LanguageDetectorBuilder.from_languages languages = .ok b ∧
      (∀ l, l ∈ b.languages_ ↔ l ∈ languages) ∧ b.languages_.Nodup ∧ b.languages_ ≠ []) ∧
    ((languages = [] ∨ ∀ l : Language, l ∈ languages) ∨
      ∃ b, LanguageDetectorBuilder.from_all_languages_without languages = .ok b ∧
      (∀ l, l ∈ b.languages_ ↔ l ∉ languages) ∧ b.languages_.Nodup ∧ b.languages_ ≠ []) ∧
    all_languages.length = 75 := by
  have hmem : ∀ l, l ∈ languages.foldl (fun all_langs lang => all_langs.erase lang)
      all_languages ↔ l ∉ languages := by
    intro l
    rw [mem_foldl_erase languages all_languages all_languages_nodup l]
    simp [mem_all_languages]
  have hempty : languages.foldl (fun all_langs lang => all_langs.erase lang) all_languages = []
      ↔ ∀ l : Language, l ∈ languages := by
    rw [List.eq_nil_iff_forall_not_mem]
    constructor
    · intro h l
      by_contra hl
      exact h l ((hmem l).mpr hl)
    · intro h l hl
      exact (hmem l).mp hl (h l)
  refine ⟨?_, ?_, ?_, ?_, by decide⟩
  · unfold LanguageDetectorBuilder.from_languages
    cases languages with
    | nil => simp
    | cons a l => simp
  · unfold LanguageDetectorBuilder.from_all_languages_without
    cases languages with
    | nil => simp
    | cons a l =>
      simp only [List.isEmpty_cons, Bool.false_eq_true, if_false, List.isEmpty_iff,
        false_or, reduceCtorEq]
      rw [← hempty]
      split_ifs with h
      · exact ⟨fun _ => h, fun _ => rfl⟩
      · exact ⟨fun h2 => (by cases h2), fun h2 => absurd h2 h⟩
  · cases languages with
    | nil => exact Or.inl rfl
    | cons a l =>
      refine Or.inr ⟨{ LanguageDetectorBuilder.default with languages_ := (a :: l).dedup },
        ?_, ?_, ?_, ?_⟩
      · unfold LanguageDetectorBuilder.from_languages
        simp only [List.isEmpty_cons, Bool.false_eq_true, if_false]
      · intro x
        exact List.mem_dedup
      · exact List.nodup_dedup _
      · intro h
        have : a ∈ (a :: l).dedup := List.mem_dedup.mpr (List.mem_cons_self a l)
        dsimp only at h
        rw [h] at this
        exact List.not_mem_nil _ this
  · by_cases h : languages = [] ∨ ∀ l : Language, l ∈ languages
    · exact Or.inl h
    · refine Or.inr ⟨⟨languages.foldl (fun all_langs lang => all_langs.erase lang)
        all_languages, 0, false, false⟩, ?_, ?_, ?_, ?_⟩
      · push_neg at h
        unfold LanguageDetectorBuilder.from_all_languages_without
        have h1 : languages.isEmpty = false := by
          cases languages with
          | nil => exact absurd rfl h.1
          | cons a l => rfl
        have h2 : (languages.foldl (fun all_langs lang => all_langs.erase lang)
            all_languages).isEmpty = false := by
          rw [Bool.eq_false_iff]
          intro h3
          rw [List.isEmpty_iff, hempty] at h3
          obtain ⟨l, hl⟩ := h.2
          exact hl (h3 l)
        simp only [h1, h2, Bool.false_eq_true, if_false]
        rfl
      · exact hmem
      · exact nodup_foldl_erase languages all_languages all_languages_nodup
      · push_neg at h
        dsimp only
        intro h3
        rw [hempty] at h3
        obtain ⟨l, hl⟩ := h.2
        exact hl (h3 l)


/-! ## ISO codes -/

theorem find_language_eq_some (code_of : Language → String) (l : Language)
    (hinj : ∀ x, bytes (code_of x) = bytes (code_of l) → x = l) :
    ∀ order : List Language, l ∈ order →
      find_language code_of (bytes (code_of l)) order = some l := by
  intro order
  induction order with
  | nil => intro h; exact absurd h (List.not_mem_nil _)
  | cons x xs ih =>
    intro h
    unfold find_language
    by_cases hx : bytes (code_of x) = bytes (code_of l)
    · rw [if_pos hx, hinj x hx]
    · rw [if_neg hx]
      rcases List.mem_cons.mp h with rfl | h
      · exact absurd rfl hx
      · exact ih h

theorem iso_code_639_1_injective :
    ∀ a b : Language, bytes (iso_code_639_1 a) = bytes (iso_code_639_1 b) → a = b := by
  decide!

theorem iso_code_639_3_injective :
    ∀ a b : Language, bytes (iso_code_639_3 a) = bytes (iso_code_639_3 b) → a = b := by
  decide!

theorem iso_code_lengths :
    ∀ l : Language, (bytes (iso_code_639_1 l)).length = 2 ∧
      (bytes (iso_code_639_3 l)).length = 3 := by
  decide!

/-- C19: for every language `l` and every string `c` whose ASCII-lowercased form is
`iso_code_639_1(l)` (every upper/lower-case variant of the code), `from_iso_code_639_1(c)`
returns `l`, whatever the iteration order of `all_languages()`; likewise for the 639-3
functions; both code functions are injective, and the codes have 2 and 3 bytes. -/
theorem iso_reverse_lookup_inverts :
    (∀ (l : Language) (c : List Nat), c.map tolower = bytes (iso_code_639_1 l) →
      from_iso_code_639_1 c = .ok l) ∧
    (∀ (l : Language) (c : List Nat), c.map tolower = bytes (iso_code_639_3 l) →
      from_iso_code_639_3 c = .ok l) ∧
    (∀ (l : Language) (c : List Nat) (order : List Language), order.Perm all_languages →
      c.map tolower = bytes (iso_code_639_1 l) →
      find_language iso_code_639_1 (c.map tolower) order = some l) ∧
    (∀ (l : Language) (c : List Nat) (order : List Language), order.Perm all_languages →
      c.map tolower = bytes (iso_code_639_3 l) →
      find_language iso_code_639_3 (c.map tolower) order = some l) ∧
    (∀ a b : Language, iso_code_639_1 a = iso_code_639_1 b → a = b) ∧
    (∀ a b : Language, iso_code_639_3 a = iso_code_639_3 b → a = b) ∧
    (∀ l : Language, (bytes (iso_code_639_1 l)).length = 2 ∧
      (bytes (iso_code_639_3 l)).length = 3) := by
  refine ⟨?_, ?_, ?_, ?_, ?_, ?_, iso_code_lengths⟩
  · intro l c hc
    unfold from_iso_code_639_1
    dsimp only
    rw [hc, find_language_eq_some iso_code_639_1 l
      (fun x hx => iso_code_639_1_injective x l hx) all_languages (mem_all_languages l)]
  · intro l c hc
    unfold from_iso_code_639_3
    dsimp only
    rw [hc, find_language_eq_some iso_code_639_3 l
      (fun x hx => iso_code_639_3_injective x l hx) all_languages (mem_all_languages l)]
  · intro l c order ho hc
    rw [hc]
    exact find_language_eq_some iso_code_639_1 l
      (fun x hx => iso_code_639_1_injective x l hx) order (ho.symm.subset (mem_all_languages l))
  · intro l c order ho hc
    rw [hc]
    exact find_language_eq_some iso_code_639_3 l
      (fun x hx => iso_code_639_3_injective x l hx) order (ho.symm.subset (mem_all_languages l))
  · intro a b h
    exact iso_code_639_1_injective a b (congrArg bytes h)
  · intro a b h
    exact iso_code_639_3_injective a b (congrArg bytes h)

/-- The lookup theorem applied to "EN" and "eNg". -/
theorem iso_reverse_lookup_inverts_witness :
    from_iso_code_639_1 (bytes "EN") = .ok .ENGLISH ∧
    from_iso_code_639_3 (bytes "eNg") = .ok .ENGLISH :=
  ⟨iso_reverse_lookup_inverts.1 .ENGLISH (bytes "EN") (by decide),
    iso_reverse_lookup_inverts.2.1 .ENGLISH (bytes "eNg") (by decide)⟩

/-- C20, the code at the failing inputs: "日本語" has 3 code points and 9 bytes, and both
constructors throw `std::invalid_argument` on it; "é" has 1 code point and 2 bytes, and
`char_count()` of the n-gram built from it is 2. -/
theorem ngram_length_counts_bytes :
    code_points "日本語" = 3 ∧ Ngram.new (bytes "日本語") = .error .invalid_argument ∧
    NgramRef.new (bytes "日本語") = .error .invalid_argument ∧
    code_points "é" = 1 ∧ (Ngram.new (bytes "é")).map Ngram.char_count = .ok 2 ∧
    (NgramRef.new (bytes "é")).map Ngram.char_count = .ok 2 := by
  decide!

/-! ## Searching a keyword -/

theorem found_iff_occurs (text pat : List Nat) : found text pat = true ↔ pat <:+: text := by
  induction text with
  | nil =>
    unfold found
    rw [List.isPrefixOf_iff_prefix, List.prefix_nil, List.infix_nil]
  | cons c cs ih =>
    unfold found
    rw [Bool.or_eq_true, List.isPrefixOf_iff_prefix, ih, List.infix_cons_iff]

theorem found_nil_text {pat : List Nat} (hp : pat ≠ []) : found [] pat = false := by
  cases pat with
  | nil => exact absurd rfl hp
  | cons k ks => rfl

theorem isPrefixOf_append_sep (c : Nat) (tail : List Nat) :
    ∀ (pat front : List Nat), c ∉ pat →
      pat.isPrefixOf (front ++ c :: tail) = pat.isPrefixOf front := by
  intro pat
  induction pat with
  | nil => intro front _; simp
  | cons k ks ih =>
    intro front hc
    have hk : k ≠ c := fun h => hc (h ▸ List.mem_cons_self k ks)
    have hks : c ∉ ks := fun h => hc (List.mem_cons_of_mem k h)
    cases front with
    | nil => simp [List.isPrefixOf, hk]
    | cons a front => simp [List.isPrefixOf, ih front hks]

/-- A keyword that does not hold the byte `c` is found in `front ++ c :: tail` exactly when
it is found in one of the two parts. -/
theorem found_append_sep (c : Nat) (pat : List Nat) (hp : pat ≠ []) (hc : c ∉ pat)
    (front tail : List Nat) :
    found (front ++ c :: tail) pat = (found front pat || found tail pat) := by
  induction front with
  | nil =>
    rw [found_nil_text hp, List.nil_append, Bool.false_or]
    show (pat.isPrefixOf (c :: tail) || found tail pat) = found tail pat
    have h := isPrefixOf_append_sep c tail pat [] hc
    rw [List.nil_append] at h
    rw [h]
    cases pat with
    | nil => exact absurd rfl hp
    | cons k ks => simp [List.isPrefixOf]
  | cons a front ih =>
    have h := isPrefixOf_append_sep c tail pat (a :: front) hc
    rw [List.cons_append] at h ⊢
    rw [found, h, ih, found, Bool.or_assoc]

/-! ## The tokenizer and the whitespace collapse, without accumulators -/

theorem tokenize_loop_eq (rest : List Nat) :
    ∀ (tokens : List (List Nat)) (current_token : List Nat),
      tokenize_loop rest tokens current_token = tokens ++ pending_tokens rest current_token := by
  induction rest with
  | nil =>
    intro tokens cur
    cases cur <;> simp [tokenize_loop, pending_tokens]
  | cons c rest ih =>
    intro tokens cur
    unfold tokenize_loop pending_tokens
    by_cases hc : isspace c = true
    · cases cur with
      | nil => simp [hc, ih]
      | cons x xs => simp [hc, ih]
    · simp [hc, ih]

theorem tokenize_eq_pending (text : List Nat) : tokenize text = pending_tokens text [] := by
  unfold tokenize
  cases text with
  | nil => rfl
  | cons c rest => simp [tokenize_loop_eq]

theorem remove_extra_whitespace_loop_eq (rest : List Nat) :
    ∀ (result : List Nat) (last_was_space : Bool),
      remove_extra_whitespace_loop rest result last_was_space =
        result ++ collapsed rest last_was_space := by
  induction rest with
  | nil => intro result lws; simp [remove_extra_whitespace_loop, collapsed]
  | cons c rest ih =>
    intro result lws
    unfold remove_extra_whitespace_loop collapsed
    by_cases hc : isspace c = true
    · cases lws <;> simp [hc, ih]
    · simp [hc, ih]

theorem trim_char_eq_isspace (c : Nat) : trim_char c = isspace c := by
  rw [Bool.eq_iff_iff]
  unfold trim_char isspace
  simp only [List.contains, List.elem_iff, List.mem_cons, List.mem_singleton, List.not_mem_nil,
    or_false, Bool.or_eq_true, beq_iff_eq, Bool.and_eq_true, decide_eq_true_eq]
  omega

theorem remove_extra_whitespace_eq (text : List Nat) :
    remove_extra_whitespace text =
      ((collapsed text false).dropWhile isspace).rdropWhile isspace := by
  have hf : trim_char = isspace := funext trim_char_eq_isspace
  unfold remove_extra_whitespace trim
  rw [hf]
  cases text with
  | nil => simp [collapsed]
  | cons c rest =>
    simp only [List.isEmpty_cons, Bool.false_eq_true, if_false, remove_extra_whitespace_loop_eq,
      List.nil_append]
    split_ifs with h
    · rw [List.isEmpty_iff] at h
      rw [h]; rfl
    · rfl

theorem join_words_cons (w : List Nat) (rest : List (List Nat)) (h : rest ≠ []) :
    join_words (w :: rest) = w ++ 32 :: join_words rest := by
  cases rest with
  | nil => exact absurd rfl h
  | cons n r => rfl

theorem dropWhile_append_of_nil {α : Type} (p : α → Bool) (xs ys : List α)
    (h : xs.dropWhile p = []) : (xs ++ ys).dropWhile p = ys.dropWhile p := by
  induction xs with
  | nil => rfl
  | cons x xs ih =>
    by_cases hx : p x = true
    · rw [List.dropWhile_cons_of_pos hx] at h
      rw [List.cons_append, List.dropWhile_cons_of_pos hx]
      exact ih h
    · rw [List.dropWhile_cons_of_neg hx] at h
      exact absurd h (List.cons_ne_nil _ _)

theorem dropWhile_append_of_ne_nil {α : Type} (p : α → Bool) (xs ys : List α)
    (h : xs.dropWhile p ≠ []) : (xs ++ ys).dropWhile p = xs.dropWhile p ++ ys := by
  induction xs with
  | nil => exact absurd rfl h
  | cons x xs ih =>
    by_cases hx : p x = true
    · rw [List.dropWhile_cons_of_pos hx] at h
      rw [List.cons_append, List.dropWhile_cons_of_pos hx, List.dropWhile_cons_of_pos hx]
      exact ih h
    · rw [List.cons_append, List.dropWhile_cons_of_neg hx, List.dropWhile_cons_of_neg hx]
      rfl

theorem rdropWhile_append_of_nil {α : Type} (p : α → Bool) (xs ys : List α)
    (h : ys.rdropWhile p = []) : (xs ++ ys).rdropWhile p = xs.rdropWhile p := by
  unfold List.rdropWhile at *
  rw [List.reverse_eq_nil_iff] at h
  rw [List.reverse_append, dropWhile_append_of_nil p _ _ h]

theorem rdropWhile_append_of_ne_nil {α : Type} (p : α → Bool) (xs ys : List α)
    (h : ys.rdropWhile p ≠ []) : (xs ++ ys).rdropWhile p = xs ++ ys.rdropWhile p := by
  unfold List.rdropWhile at *
  have h2 : ys.reverse.dropWhile p ≠ [] := fun h0 => h (by rw [h0]; rfl)
  rw [List.reverse_append, dropWhile_append_of_ne_nil p _ _ h2, List.reverse_append,
    List.reverse_reverse]

theorem rdropWhile_eq_self_of_all {α : Type} (p : α → Bool) (xs : List α)
    (h : ∀ x ∈ xs, p x = false) : xs.rdropWhile p = xs := by
  rw [List.rdropWhile_eq_self_iff]
  intro hl
  rw [h _ (List.getLast_mem hl)]
  exact Bool.false_ne_true

theorem pending_tokens_ne_nil (text : List Nat) :
    ∀ current_token : List Nat, ∀ w ∈ pending_tokens text current_token, w ≠ [] := by
  induction text with
  | nil =>
    intro cur w hw
    unfold pending_tokens at hw
    cases cur with
    | nil => simp at hw
    | cons x xs =>
      simp at hw
      rw [hw]
      exact List.cons_ne_nil _ _
  | cons c rest ih =>
    intro cur w hw
    unfold pending_tokens at hw
    by_cases hc : isspace c = true
    · cases cur with
      | nil =>
        simp [hc] at hw
        exact ih [] w hw
      | cons x xs =>
        simp [hc] at hw
        rcases hw with rfl | hw
        · exact List.cons_ne_nil _ _
        · exact ih [] w hw
    · simp [hc] at hw
      exact ih _ w hw

theorem join_words_ne_nil (words : List (List Nat)) (h : words ≠ [])
    (hw : ∀ w ∈ words, w ≠ []) : join_words words ≠ [] := by
  cases words with
  | nil => exact absurd rfl h
  | cons w rest =>
    have hw0 : w ≠ [] := hw w (List.mem_cons_self w rest)
    cases rest with
    | nil => exact hw0
    | cons n r =>
      rw [join_words_cons w (n :: r) (List.cons_ne_nil _ _)]
      intro h0
      exact hw0 (List.append_eq_nil.mp h0).1

/-- The collapsed text without its trailing whitespace is the pending tokens joined by single
spaces: with a pending token in front, and right after a whitespace byte. -/
theorem rdropWhile_collapsed (text : List Nat) :
    (∀ current_token : List Nat, current_token ≠ [] →
      (∀ b ∈ current_token, isspace b = false) →
      (current_token ++ collapsed text false).rdropWhile isspace =
        join_words (pending_tokens text current_token)) ∧
    (collapsed text true).rdropWhile isspace = join_words (pending_tokens text []) := by
  induction text with
  | nil =>
    constructor
    · intro cur hne hcur
      cases cur with
      | nil => exact absurd rfl hne
      | cons x xs =>
        simp only [collapsed, List.append_nil, pending_tokens, List.isEmpty_cons,
          Bool.false_eq_true, if_false, join_words]
        exact rdropWhile_eq_self_of_all _ _ hcur
    · rfl
  | cons c rest ih =>
    obtain ⟨ihA, ihB⟩ := ih
    by_cases hc : isspace c = true
    · constructor
      · intro cur hne hcur
        have hcur2 : cur.isEmpty = false := by
          cases cur with
          | nil => exact absurd rfl hne
          | cons x xs => rfl
        simp only [collapsed, pending_tokens, hc, if_true, Bool.false_eq_true, if_false, hcur2]
        by_cases hp : pending_tokens rest [] = []
        · rw [hp] at ihB ⊢
          have h1 : (32 :: collapsed rest true).rdropWhile isspace = [] := by
            have := rdropWhile_append_of_nil isspace [32] _ ihB
            rw [List.singleton_append] at this
            rw [this]
            rfl
          rw [rdropWhile_append_of_nil isspace cur _ h1]
          exact rdropWhile_eq_self_of_all _ _ hcur
        · have h2 : (collapsed rest true).rdropWhile isspace ≠ [] := by
            rw [ihB]
            exact join_words_ne_nil _ hp (pending_tokens_ne_nil rest [])
          rw [join_words_cons cur _ hp, ← ihB]
          have h3 := rdropWhile_append_of_ne_nil isspace (cur ++ [32]) _ h2
          simpa using h3
      · simp only [collapsed, pending_tokens, hc, if_true, List.isEmpty_nil]
        exact ihB
    · constructor
      · intro cur hne hcur
        simp only [collapsed, pending_tokens, hc, Bool.false_eq_true, if_false]
        have := ihA (cur ++ [c]) (by simp) (by
          intro b hb
          rcases List.mem_append.mp hb with hb | hb
          · exact hcur b hb
          · rw [List.mem_singleton.mp hb]; simpa using hc)
        simpa using this
      · simp only [collapsed, pending_tokens, hc, Bool.false_eq_true, if_false]
        have := ihA [c] (by simp) (by
          intro b hb
          rw [List.mem_singleton.mp hb]; simpa using hc)
        simpa using this

theorem collapsed_true_dropWhile (text : List Nat) :
    (collapsed text true).dropWhile isspace = collapsed text true := by
  induction text with
  | nil => rfl
  | cons c rest ih =>
    by_cases hc : isspace c = true
    · simp only [collapsed, hc, if_true]
      exact ih
    · simp only [collapsed, hc, Bool.false_eq_true, if_false]
      exact List.dropWhile_cons_of_neg hc

/-- The result of `remove_extra_whitespace` is the tokens of the text joined by single
spaces. -/
theorem remove_extra_whitespace_eq_join (text : List Nat) :
    remove_extra_whitespace text = join_words (tokenize text) := by
  rw [remove_extra_whitespace_eq, tokenize_eq_pending]
  cases text with
  | nil => rfl
  | cons c rest =>
    by_cases hc : isspace c = true
    · simp only [collapsed, hc, if_true, Bool.false_eq_true, if_false, pending_tokens,
        List.isEmpty_nil]
      have h32 : isspace 32 = true := by decide
      rw [List.dropWhile_cons_of_pos h32, collapsed_true_dropWhile]
      exact (rdropWhile_collapsed rest).2
    · simp only [collapsed, hc, Bool.false_eq_true, if_false, pending_tokens]
      rw [List.dropWhile_cons_of_neg hc]
      have := (rdropWhile_collapsed rest).1 [c] (by simp) (by
        intro b hb
        rw [List.mem_singleton.mp hb]; simpa using hc)
      simpa using this

theorem pending_tokens_no_space (text : List Nat) :
    ∀ current_token : List Nat, (∀ b ∈ current_token, isspace b = false) →
      ∀ w ∈ pending_tokens text current_token, ∀ b ∈ w, isspace b = false := by
  induction text with
  | nil =>
    intro cur hcur w hw
    unfold pending_tokens at hw
    cases cur with
    | nil => simp at hw
    | cons x xs =>
      simp at hw
      rw [hw]
      exact hcur
  | cons c rest ih =>
    intro cur hcur w hw
    unfold pending_tokens at hw
    by_cases hc : isspace c = true
    · cases cur with
      | nil =>
        simp [hc] at hw
        exact ih [] (by simp) w hw
      | cons x xs =>
        simp [hc] at hw
        rcases hw with rfl | hw
        · exact hcur
        · exact ih [] (by simp) w hw
    · simp [hc] at hw
      refine ih _ ?_ w hw
      intro b hb
      rcases List.mem_append.mp hb with hb | hb
      · exact hcur b hb
      · rw [List.mem_singleton.mp hb]; simpa using hc

theorem pending_tokens_occur (text : List Nat) :
    ∀ current_token : List Nat, ∀ w ∈ pending_tokens text current_token,
      w <:+: current_token ++ text := by
  induction text with
  | nil =>
    intro cur w hw
    unfold pending_tokens at hw
    cases cur with
    | nil => simp at hw
    | cons x xs =>
      simp at hw
      rw [hw, List.append_nil]
  | cons c rest ih =>
    intro cur w hw
    unfold pending_tokens at hw
    by_cases hc : isspace c = true
    · have hrest : ∀ w ∈ pending_tokens rest [], w <:+: cur ++ c :: rest := by
        intro w hw
        have h1 : w <:+: rest := by simpa using ih [] w hw
        exact h1.trans ((List.suffix_cons c rest).isInfix.trans
          (List.suffix_append cur (c :: rest)).isInfix)
      cases cur with
      | nil =>
        simp [hc] at hw
        exact hrest w hw
      | cons x xs =>
        simp [hc] at hw
        rcases hw with rfl | hw
        · exact (List.prefix_append _ _).isInfix
        · exact hrest w hw
    · simp [hc] at hw
      have := ih _ w hw
      simpa using this

theorem tokenize_occurs {text w : List Nat} (h : w ∈ tokenize text) : w <:+: text := by
  rw [tokenize_eq_pending] at h
  simpa using pending_tokens_occur text [] w h

theorem pending_tokens_append_word (word : List Nat) (hword : ∀ b ∈ word, isspace b = false) :
    ∀ (text current_token : List Nat),
      pending_tokens (word ++ text) current_token = pending_tokens text (current_token ++ word) := by
  induction word with
  | nil => intro text cur; simp
  | cons x xs ih =>
    intro text cur
    have hx : ¬ isspace x = true := by
      rw [hword x (List.mem_cons_self x xs)]; exact Bool.false_ne_true
    have e : pending_tokens (x :: (xs ++ text)) cur =
        pending_tokens (xs ++ text) (cur ++ [x]) := by
      simp only [pending_tokens, hx, Bool.false_eq_true, if_false]
    rw [List.cons_append, e, ih (fun b hb => hword b (List.mem_cons_of_mem x hb)),
      List.append_assoc, List.singleton_append]

/-- Tokenizing words that were joined by single spaces gives the words back. -/
theorem pending_tokens_join_words (words : List (List Nat))
    (hne : ∀ w ∈ words, w ≠ []) (hns : ∀ w ∈ words, ∀ b ∈ w, isspace b = false) :
    pending_tokens (join_words words) [] = words := by
  induction words with
  | nil => rfl
  | cons w rest ih =>
    have hw : w ≠ [] := hne w (List.mem_cons_self w rest)
    have hwe : w.isEmpty = false := by
      cases w with
      | nil => exact absurd rfl hw
      | cons x xs => rfl
    have hws := hns w (List.mem_cons_self w rest)
    cases rest with
    | nil =>
      have := pending_tokens_append_word w hws [] []
      simp only [List.append_nil, List.nil_append] at this
      simp only [join_words, this, pending_tokens, hwe, Bool.false_eq_true, if_false]
    | cons n r =>
      rw [join_words_cons w (n :: r) (List.cons_ne_nil _ _),
        pending_tokens_append_word w hws, List.nil_append, pending_tokens]
      have h32 : isspace 32 = true := by decide
      simp only [h32, if_true, hwe, Bool.false_eq_true, if_false]
      rw [ih (fun x hx => hne x (List.mem_cons_of_mem w hx))
        (fun x hx => hns x (List.mem_cons_of_mem w hx))]

theorem remove_extra_whitespace_idempotent (text : List Nat) :
    remove_extra_whitespace (remove_extra_whitespace text) = remove_extra_whitespace text := by
  rw [remove_extra_whitespace_eq_join (remove_extra_whitespace text),
    remove_extra_whitespace_eq_join text, tokenize_eq_pending (join_words _),
    tokenize_eq_pending text,
    pending_tokens_join_words _ (pending_tokens_ne_nil text [])
      (pending_tokens_no_space text [] (by simp))]

theorem tokenize_remove_extra_whitespace (text : List Nat) :
    tokenize (remove_extra_whitespace text) = tokenize text := by
  rw [remove_extra_whitespace_eq_join text, tokenize_eq_pending (join_words _),
    tokenize_eq_pending text,
    pending_tokens_join_words _ (pending_tokens_ne_nil text [])
      (pending_tokens_no_space text [] (by simp))]

theorem found_join_words (pat : List Nat) (hp : pat ≠ []) (h32 : 32 ∉ pat)
    (words : List (List Nat)) :
    found (join_words words) pat = words.any (fun w => found w pat) := by
  induction words with
  | nil => simp [join_words, found_nil_text hp]
  | cons w rest ih =>
    cases rest with
    | nil => simp [join_words]
    | cons n r =>
      rw [join_words_cons w (n :: r) (List.cons_ne_nil _ _), found_append_sep 32 pat hp h32, ih]
      simp only [List.any_cons]

theorem found_pending_tokens (pat : List Nat) (hp : pat ≠ [])
    (hns : ∀ b ∈ pat, isspace b = false) (text : List Nat) :
    ∀ current_token : List Nat,
      found (current_token ++ text) pat =
        (pending_tokens text current_token).any (fun w => found w pat) := by
  induction text with
  | nil =>
    intro cur
    cases cur with
    | nil => simp [pending_tokens, found_nil_text hp]
    | cons x xs => simp [pending_tokens]
  | cons c rest ih =>
    intro cur
    by_cases hc : isspace c = true
    · have hcp : c ∉ pat := by
        intro hmem
        rw [hns c hmem] at hc
        exact Bool.false_ne_true hc
      rw [found_append_sep c pat hp hcp]
      have ih0 := ih []
      rw [List.nil_append] at ih0
      cases cur with
      | nil => simp [pending_tokens, hc, found_nil_text hp, ih0]
      | cons x xs => simp [pending_tokens, hc, ih0]
    · have := ih (cur ++ [c])
      simp only [List.append_assoc, List.singleton_append] at this
      simp only [pending_tokens, hc, Bool.false_eq_true, if_false]
      exact this

/-- Collapsing the whitespace neither hides nor creates an occurrence of a keyword without
whitespace. -/
theorem found_remove_extra_whitespace (pat : List Nat) (hp : pat ≠ [])
    (hns : ∀ b ∈ pat, isspace b = false) (text : List Nat) :
    found (remove_extra_whitespace text) pat = found text pat := by
  have h32 : 32 ∉ pat := by
    intro h
    have := hns 32 h
    simp [isspace] at this
  rw [remove_extra_whitespace_eq_join, found_join_words pat hp h32, tokenize_eq_pending,
    ← found_pending_tokens pat hp hns text [], List.nil_append]

theorem keywords_ne_nil : ∀ kw ∈ keywords, kw ≠ [] := by decide

theorem keywords_no_space : ∀ kw ∈ keywords, ∀ b ∈ kw, isspace b = false := by decide

theorem keywords_no_e_acute : ∀ kw ∈ keywords, ∀ b ∈ kw, b ≠ 0x89 ∧ b ≠ 0xA9 := by decide

theorem keywords_head_ascii : ∀ kw ∈ keywords, ∃ b ∈ kw, b < 128 := by decide

theorem keyword_score_congr (x y : List Nat)
    (h : ∀ kw ∈ keywords, found x kw = found y kw) (language : Language) :
    keyword_score language x = keyword_score language y := by
  have h1 := h (bytes "language") (by decide)
  have h2 := h (bytes "english") (by decide)
  have h3 := h (bytes "hello") (by decide)
  have h4 := h (bytes "world") (by decide)
  have h5 := h (bytes "sprache") (by decide)
  have h6 := h (bytes "deutsch") (by decide)
  have h7 := h (bytes "hallo") (by decide)
  have h8 := h (bytes "welt") (by decide)
  have h9 := h (bytes "langue") (by decide)
  have h10 := h (bytes "français") (by decide)
  have h11 := h (bytes "bonjour") (by decide)
  unfold keyword_score
  simp only [h1, h2, h3, h4, h5, h6, h7, h8, h9, h10, h11]

/-- The detector reads a text only through three things: whether it is empty, whether it
has a word, and which keywords its lowercased form holds. -/
theorem detector_congr (d : LanguageDetector) (t1 t2 : List Nat)
    (he : t1.isEmpty = t2.isEmpty) (hw : (tokenize t1).isEmpty = (tokenize t2).isEmpty)
    (hk : ∀ kw ∈ keywords, found (t1.map tolower) kw = found (t2.map tolower) kw) :
    compute_language_confidence_values d t1 = compute_language_confidence_values d t2 ∧
    detect_language_of d t1 = detect_language_of d t2 ∧
    ∀ language, compute_language_confidence d t1 language =
      compute_language_confidence d t2 language := by
  have hs : ∀ l, keyword_score l (t1.map tolower) = keyword_score l (t2.map tolower) :=
    keyword_score_congr _ _ hk
  have hcv : compute_language_confidence_values d t1 =
      compute_language_confidence_values d t2 := by
    unfold compute_language_confidence_values
    simp only [he, hw, hs]
  have h1 := hk (bytes "language") (by decide)
  have h2 := hk (bytes "english") (by decide)
  have h3 := hk (bytes "hello") (by decide)
  have h4 := hk (bytes "world") (by decide)
  have h5 := hk (bytes "sprache") (by decide)
  have h6 := hk (bytes "deutsch") (by decide)
  have h7 := hk (bytes "hallo") (by decide)
  have h8 := hk (bytes "welt") (by decide)
  have h9 := hk (bytes "langue") (by decide)
  have h10 := hk (bytes "français") (by decide)
  have h11 := hk (bytes "bonjour") (by decide)
  refine ⟨hcv, ?_, ?_⟩
  · unfold detect_language_of english_keyword german_keyword french_keyword
    simp only [he, hcv, h1, h2, h3, h4, h5, h6, h7, h8, h9, h10, h11]
  · intro language
    unfold compute_language_confidence
    rw [he, hcv]

theorem tolower_idem (c : Nat) : tolower (tolower c) = tolower c := by
  unfold tolower
  split_ifs <;> omega

theorem isspace_tolower (c : Nat) : isspace (tolower c) = isspace c := by
  rw [Bool.eq_iff_iff]
  unfold tolower isspace
  split_ifs with h
  · simp only [Bool.or_eq_true, beq_iff_eq, Bool.and_eq_true, decide_eq_true_eq]
    omega
  · rfl

/-- C15: when `detect_language_of(T)` is `l` and `w` is a word of `T` (a token of
`tokenize`), the confidence of `l` for `T + " " + w` is not below its confidence for `T`. -/
theorem duplicate_word_keeps_confidence (d : LanguageDetector) (text w : List Nat)
    (l : Language) (hd : detect_language_of d text = some l) (hw : w ∈ tokenize text) :
    compute_language_confidence d text l ≤
      compute_language_confidence d (text ++ bytes " " ++ w) l := by
  have hne : text ≠ [] := by
    rintro rfl
    simp [tokenize] at hw
  have hsp : bytes " " = [32] := by decide
  have hcongr := detector_congr d (text ++ bytes " " ++ w) text ?_ ?_ ?_
  · exact le_of_eq (hcongr.2.2 l).symm
  · cases text with
    | nil => exact absurd rfl hne
    | cons c rest => rfl
  · have h1 : tokenize text ≠ [] := List.ne_nil_of_mem hw
    have h2 : tokenize (text ++ bytes " " ++ w) ≠ [] := by
      intro h0
      apply h1
      rw [tokenize_eq_nil] at h0 ⊢
      intro c hc
      exact h0 c (by simp [hc])
    rw [isEmpty_eq_false_of_ne h1, isEmpty_eq_false_of_ne h2]
  · intro kw hkw
    have hinf : w.map tolower <:+: text.map tolower := (tokenize_occurs hw).map tolower
    have h32 : 32 ∉ kw := by
      intro h
      have := keywords_no_space kw hkw 32 h
      simp [isspace] at this
    have hl : (text ++ bytes " " ++ w).map tolower =
        text.map tolower ++ 32 :: w.map tolower := by
      rw [hsp]
      simp [tolower]
    rw [hl, found_append_sep 32 kw (keywords_ne_nil kw hkw) h32]
    cases hf : found (w.map tolower) kw with
    | false => rw [Bool.or_false]
    | true =>
      rw [Bool.or_true]
      exact ((found_iff_occurs _ _).mpr (((found_iff_occurs _ _).mp hf).trans hinf)).symm

/-- The duplicate-word theorem applied: English and German configured, text "hello world",
word "world". -/
theorem duplicate_word_keeps_confidence_witness :
    detect_language_of ⟨[.ENGLISH, .GERMAN], 0, false, false⟩ (bytes "hello world") =
      some .ENGLISH ∧
    bytes "world" ∈ tokenize (bytes "hello world") ∧
    compute_language_confidence ⟨[.ENGLISH, .GERMAN], 0, false, false⟩
        (bytes "hello world") .ENGLISH ≤
      compute_language_confidence ⟨[.ENGLISH, .GERMAN], 0, false, false⟩
        (bytes "hello world" ++ bytes " " ++ bytes "world") .ENGLISH :=
  ⟨by decide, by decide,
    duplicate_word_keeps_confidence ⟨[.ENGLISH, .GERMAN], 0, false, false⟩
      (bytes "hello world") (bytes "world") .ENGLISH (by decide) (by decide)⟩

theorem utf8_encode_high (ch : Nat) (h : 128 ≤ ch) : ∀ b ∈ utf8_encode ch, 128 ≤ b := by
  intro b hb
  unfold utf8_encode at hb
  split_ifs at hb <;> simp at hb <;> omega

theorem utf8_string_high (chars : List Nat) (h : ∀ ch ∈ chars, 128 ≤ ch) :
    ∀ b ∈ utf8_string chars, 128 ≤ b := by
  intro b hb
  unfold utf8_string at hb
  obtain ⟨ch, hch, hb⟩ := List.mem_flatMap.mp hb
  exact utf8_encode_high ch (h ch hch) b hb

theorem utf8_encode_ne_nil (ch : Nat) : utf8_encode ch ≠ [] := by
  unfold utf8_encode
  split_ifs <;> simp

theorem utf8_string_ne_nil (chars : List Nat) (h : chars ≠ []) : utf8_string chars ≠ [] := by
  cases chars with
  | nil => exact absurd rfl h
  | cons c cs =>
    unfold utf8_string
    rw [List.flatMap_cons]
    intro h0
    exact utf8_encode_ne_nil c (List.append_eq_nil.mp h0).1

theorem single_language_script_high (a : Alphabet) (language : Language) (ch : Nat)
    (hs : all_supporting_single_language a = some language)
    (hc : matches_char a ch = true) :
    128 ≤ ch ∧ language ≠ .ENGLISH ∧ language ≠ .GERMAN ∧ language ≠ .FRENCH := by
  cases a <;> simp [all_supporting_single_language] at hs <;> subst hs <;>
    simp [matches_char, script_ranges] at hc <;>
    exact ⟨by omega, by decide, by decide, by decide⟩

theorem tolower_high {b : Nat} (h : 128 ≤ b) : tolower b = b := by
  unfold tolower
  split_ifs <;> omega

theorem not_found_of_high (text : List Nat) (h : ∀ b ∈ text, 128 ≤ b) :
    ∀ kw ∈ keywords, found (text.map tolower) kw = false := by
  intro kw hkw
  rw [Bool.eq_false_iff]
  intro hf
  obtain ⟨b, hb, hlt⟩ := keywords_head_ascii kw hkw
  have hmem := ((found_iff_occurs _ _).mp hf).subset hb
  obtain ⟨c, hc, rfl⟩ := List.mem_map.mp hmem
  rw [tolower_high (h c hc)] at hlt
  exact absurd (h c hc) (by omega)

theorem no_keyword_of_not_found (d : LanguageDetector) (text : List Nat)
    (h : ∀ kw ∈ keywords, found (text.map tolower) kw = false) :
    no_keyword_shortcut d text := by
  have h1 := h (bytes "language") (by decide)
  have h2 := h (bytes "english") (by decide)
  have h3 := h (bytes "hello") (by decide)
  have h4 := h (bytes "world") (by decide)
  have h5 := h (bytes "sprache") (by decide)
  have h6 := h (bytes "deutsch") (by decide)
  have h7 := h (bytes "hallo") (by decide)
  have h8 := h (bytes "welt") (by decide)
  have h9 := h (bytes "langue") (by decide)
  have h10 := h (bytes "français") (by decide)
  have h11 := h (bytes "bonjour") (by decide)
  unfold no_keyword_shortcut english_keyword german_keyword french_keyword
  simp [h1, h2, h3, h4, h5, h6, h7, h8, h9, h10, h11]

theorem keyword_score_of_not_found (language : Language) (lower_text : List Nat)
    (h : ∀ kw ∈ keywords, found lower_text kw = false) :
    keyword_score language lower_text =
      if language = .ENGLISH ∨ language = .GERMAN ∨ language = .FRENCH then 0 else 1 / 100 := by
  have h1 := h (bytes "language") (by decide)
  have h2 := h (bytes "english") (by decide)
  have h3 := h (bytes "hello") (by decide)
  have h4 := h (bytes "world") (by decide)
  have h5 := h (bytes "sprache") (by decide)
  have h6 := h (bytes "deutsch") (by decide)
  have h7 := h (bytes "hallo") (by decide)
  have h8 := h (bytes "welt") (by decide)
  have h9 := h (bytes "langue") (by decide)
  have h10 := h (bytes "français") (by decide)
  have h11 := h (bytes "bonjour") (by decide)
  unfold keyword_score
  split
  · simp [h1, h2, h3, h4]
  · simp [h5, h6, h7, h8]
  · simp [h9, h10, h11]
  · rename_i hE hG hF
    have : ¬(language = .ENGLISH ∨ language = .GERMAN ∨ language = .FRENCH) := by
      rintro (h | h | h)
      · exact hE h
      · exact hG h
      · exact hF h
    rw [if_neg this]

theorem sort_insert_top (language : Language) (sorted : List (Language × ℚ))
    (h : ∀ e ∈ sorted, e.2 = 0) :
    sort_insert confidence_order (language, 1) sorted = (language, 1) :: sorted := by
  cases sorted with
  | nil => rfl
  | cons b rest =>
    have hb : b.2 = 0 := h b (List.mem_cons_self b rest)
    have : confidence_order (language, 1) b = true := by
      rw [confidence_order_iff]
      left
      rw [hb]
      exact zero_lt_one
    unfold sort_insert
    rw [if_pos this]

/-- When one configured language has a positive capped score and every other one has score
0, the confidence values start with that language at confidence 1, and all other entries
have confidence 0. -/
theorem confidence_values_single_scorer (d : LanguageDetector) (text : List Nat)
    (language : Language) (hn : d.languages_.Nodup) (hl : language ∈ d.languages_)
    (ht : text ≠ []) (hw : tokenize text ≠ [])
    (hpos : 0 < min (keyword_score language (text.map tolower)) 1)
    (hzero : ∀ l ∈ d.languages_, l ≠ language →
      min (keyword_score l (text.map tolower)) 1 = 0) :
    ∃ rest, compute_language_confidence_values d text = (language, 1) :: rest ∧
      ∀ e ∈ rest, e.2 = 0 := by
  have hperm : d.languages_.Perm (language :: d.languages_.erase language) :=
    List.perm_cons_erase hl
  have hothers : ∀ l ∈ d.languages_.erase language,
      min (keyword_score l (text.map tolower)) 1 = 0 := by
    intro l hmem
    exact hzero l (List.mem_of_mem_erase hmem) ((hn.mem_erase_iff.mp hmem).1)
  have hsum0 : ((d.languages_.erase language).map
      fun l => min (keyword_score l (text.map tolower)) 1).sum = 0 := by
    apply List.sum_eq_zero
    intro x hx
    obtain ⟨l, hlm, rfl⟩ := List.mem_map.mp hx
    exact hothers l hlm
  rw [confidence_values_perm d
    ⟨language :: d.languages_.erase language, d.minimum_relative_distance_,
      d.is_low_accuracy_mode_enabled_, d.is_built_from_one_language_⟩ text hperm,
    confidence_values_eq _ text ht (List.cons_ne_nil _ _) hw]
  simp only [List.map_cons, List.sum_cons, hsum0, add_zero, hpos, if_true, std_sort]
  rw [div_self (ne_of_gt hpos)]
  refine ⟨_, sort_insert_top language _ ?_, ?_⟩
  · intro e he
    have he2 := (std_sort_perm confidence_order _).subset he
    obtain ⟨l, hlm, rfl⟩ := List.mem_map.mp he2
    simp [hothers l hlm]
  · intro e he
    have he2 := (std_sort_perm confidence_order _).subset he
    obtain ⟨l, hlm, rfl⟩ := List.mem_map.mp he2
    simp [hothers l hlm]

theorem detect_of_single_scorer (d : LanguageDetector) (text : List Nat)
    (language : Language) (ht : text ≠ []) (hl : d.languages_ ≠ [])
    (hk : no_keyword_shortcut d text) (hm : d.minimum_relative_distance_ ≤ 99 / 100)
    (h : ∃ rest, compute_language_confidence_values d text = (language, 1) :: rest ∧
      ∀ e ∈ rest, e.2 = 0) :
    detect_language_of d text = some language := by
  obtain ⟨rest, hcv, hrest⟩ := h
  rw [detect_language_of_fallback d text ht hl hk, hcv]
  have hsec : second_confidence rest = 0 := by
    cases rest with
    | nil => rfl
    | cons s tl => exact hrest s (List.mem_cons_self s tl)
  have h1 : ¬ ((1 : ℚ) = 0) := one_ne_zero
  have h2 : ¬ ((1 : ℚ) - 0 < d.minimum_relative_distance_) := by
    intro h
    linarith
  simp only [hsec, h1, h2, if_false]

/-- C11 as stated fails: "한" is one code point of Hangul, the script of Korean alone, and
the detector over Korean and Japanese gives it no language. -/
theorem hangul_text_with_japanese_configured :
    all_supporting_single_language .HANGUL = some .KOREAN ∧
    matches_char .HANGUL 0xD55C = true ∧
    utf8_string [0xD55C] = bytes "한" ∧
    detect_language_of ⟨[.KOREAN, .JAPANESE], 0, false, false⟩ (utf8_string [0xD55C]) = none := by
  decide!

/-- C11, amended: for a non-empty text made of code points of one single-language script,
a detector (minimum relative distance at most 0.99) whose configured set holds the language
of that script and, besides it, only English, German or French, detects that language. -/
theorem single_language_script_detected (d : LanguageDetector) (a : Alphabet)
    (language : Language) (chars : List Nat)
    (hs : all_supporting_single_language a = some language)
    (hne : chars ≠ []) (hc : ∀ ch ∈ chars, matches_char a ch = true)
    (hn : d.languages_.Nodup) (hl : language ∈ d.languages_)
    (hother : ∀ l ∈ d.languages_,
      l = language ∨ l = .ENGLISH ∨ l = .GERMAN ∨ l = .FRENCH)
    (hm : d.minimum_relative_distance_ ≤ 99 / 100) :
    detect_language_of d (utf8_string chars) = some language := by
  have hhigh : ∀ b ∈ utf8_string chars, 128 ≤ b :=
    utf8_string_high chars (fun ch hch => (single_language_script_high a language ch hs
      (hc ch hch)).1)
  have hlang : language ≠ .ENGLISH ∧ language ≠ .GERMAN ∧ language ≠ .FRENCH := by
    cases chars with
    | nil => exact absurd rfl hne
    | cons c cs => exact (single_language_script_high a language c hs
        (hc c (List.mem_cons_self c cs))).2
  have ht : utf8_string chars ≠ [] := utf8_string_ne_nil chars hne
  have hw : tokenize (utf8_string chars) ≠ [] := by
    obtain ⟨b, bs, hb⟩ := List.exists_cons_of_ne_nil ht
    apply tokenize_ne_nil_of_byte
    refine ⟨b, by rw [hb]; exact List.mem_cons_self b bs, ?_⟩
    have : 128 ≤ b := hhigh b (by rw [hb]; exact List.mem_cons_self b bs)
    unfold isspace
    simp
    omega
  have hnf := not_found_of_high (utf8_string chars) hhigh
  have hscore := fun l => keyword_score_of_not_found l _ hnf
  apply detect_of_single_scorer d _ language ht (List.ne_nil_of_mem hl)
    (no_keyword_of_not_found d _ hnf) hm
  apply confidence_values_single_scorer d _ language hn hl ht hw
  · rw [hscore language]
    have : ¬(language = .ENGLISH ∨ language = .GERMAN ∨ language = .FRENCH) := by
      rintro (h | h | h)
      · exact hlang.1 h
      · exact hlang.2.1 h
      · exact hlang.2.2 h
    rw [if_neg this]
    norm_num
  · intro l hmem hne2
    rw [hscore l]
    have : l = .ENGLISH ∨ l = .GERMAN ∨ l = .FRENCH := by
      rcases hother l hmem with h | h
      · exact absurd h hne2
      · exact h
    rw [if_pos this]
    norm_num

/-- The script theorem applied: English, Korean and French configured, text "한국어". -/
theorem single_language_script_detected_witness :
    utf8_string [0xD55C, 0xAD6D, 0xC5B4] = bytes "한국어" ∧
    detect_language_of ⟨[.ENGLISH, .KOREAN, .FRENCH], 0, false, false⟩
      (utf8_string [0xD55C, 0xAD6D, 0xC5B4]) = some .KOREAN :=
  ⟨by decide, single_language_script_detected ⟨[.ENGLISH, .KOREAN, .FRENCH], 0, false, false⟩
    .HANGUL .KOREAN [0xD55C, 0xAD6D, 0xC5B4] rfl (by decide) (by decide) (by decide)
    (by decide) (by decide) (by norm_num)⟩

/-! ## The cleaner -/

theorem to_lowercase_cons (first : Nat) (rest : List Nat) :
    to_lowercase (first :: rest) = (to_lowercase_e_acute first rest).map tolower := by
  unfold to_lowercase
  apply List.map_congr_left
  intro c _
  unfold tolower
  split_ifs <;> first | rfl | omega

theorem remove_numbers_eq (text : List Nat) :
    remove_numbers text = text.filter (fun c => !isdigit c) := by
  unfold remove_numbers
  cases text <;> simp

theorem remove_punctuation_eq (text : List Nat) :
    remove_punctuation text = text.filter (fun c => !ispunct c) := by
  unfold remove_punctuation
  cases text <;> simp

theorem to_lowercase_e_acute_head (current : Nat) (rest : List Nat) :
    ∃ tail, to_lowercase_e_acute current rest = current :: tail := by
  cases rest with
  | nil => exact ⟨[], rfl⟩
  | cons next rest =>
    unfold to_lowercase_e_acute
    split_ifs
    · exact ⟨_, rfl⟩
    · exact ⟨_, rfl⟩

/-- The first loop of `to_lowercase` changes no byte as far as a function can tell that
does not tell 0x89 from 0xA9. -/
theorem map_to_lowercase_e_acute {β : Type} (g : Nat → β) (hg : g 0x89 = g 0xA9)
    (rest : List Nat) : ∀ current : Nat,
      (to_lowercase_e_acute current rest).map g = (current :: rest).map g := by
  induction rest with
  | nil => intro c; rfl
  | cons next rest ih =>
    intro c
    unfold to_lowercase_e_acute
    split_ifs with h
    · rw [List.map_cons, ih, List.map_cons, List.map_cons, List.map_cons, h.2, hg]
    · rw [List.map_cons, ih, List.map_cons, List.map_cons, List.map_cons]

theorem forall_mem_of_map_eq {β : Type} (g : Nat → β) (v : β) {l1 l2 : List Nat}
    (h : l1.map g = l2.map g) : (∀ b ∈ l1, g b = v) ↔ (∀ b ∈ l2, g b = v) := by
  have key : ∀ l : List Nat, (∀ b ∈ l, g b = v) ↔ ∀ y ∈ l.map g, y = v := by
    intro l
    simp
  rw [key l1, key l2, h]

theorem forall_mem_to_lowercase (g : Nat → Bool) (v : Bool) (hg : g 0x89 = g 0xA9)
    (hl : ∀ c, g (tolower c) = g c) (text : List Nat) :
    (∀ b ∈ to_lowercase text, g b = v) ↔ (∀ b ∈ text, g b = v) := by
  cases text with
  | nil => simp [to_lowercase]
  | cons first rest =>
    rw [to_lowercase_cons, ← forall_mem_of_map_eq g v (map_to_lowercase_e_acute g hg rest first)]
    simp [hl]

theorem isdigit_tolower (c : Nat) : isdigit (tolower c) = isdigit c := by
  rw [Bool.eq_iff_iff]
  unfold tolower isdigit
  split_ifs with h
  · simp only [Bool.and_eq_true, decide_eq_true_eq]
    omega
  · rfl

theorem ispunct_tolower (c : Nat) : ispunct (tolower c) = ispunct c := by
  rw [Bool.eq_iff_iff]
  unfold tolower ispunct
  split_ifs with h
  · simp only [Bool.or_eq_true, Bool.and_eq_true, decide_eq_true_eq]
    omega
  · rfl

theorem tolower_mem_to_lowercase (text : List Nat) : ∀ b ∈ to_lowercase text, tolower b = b := by
  intro b hb
  cases text with
  | nil => simp [to_lowercase] at hb
  | cons first rest =>
    rw [to_lowercase_cons] at hb
    obtain ⟨c, _, rfl⟩ := List.mem_map.mp hb
    exact tolower_idem c

theorem mem_join_words (words : List (List Nat)) :
    ∀ b ∈ join_words words, b = 32 ∨ ∃ w ∈ words, b ∈ w := by
  induction words with
  | nil => intro b hb; simp [join_words] at hb
  | cons w rest ih =>
    intro b hb
    cases rest with
    | nil =>
      simp only [join_words] at hb
      exact Or.inr ⟨w, List.mem_cons_self _ _, hb⟩
    | cons n r =>
      rw [join_words_cons w (n :: r) (List.cons_ne_nil _ _)] at hb
      rcases List.mem_append.mp hb with hb | hb
      · exact Or.inr ⟨w, List.mem_cons_self _ _, hb⟩
      · rcases List.mem_cons.mp hb with hb | hb
        · exact Or.inl hb
        · rcases ih b hb with h | ⟨x, hx, hbx⟩
          · exact Or.inl h
          · exact Or.inr ⟨x, List.mem_cons_of_mem _ hx, hbx⟩

theorem mem_remove_extra_whitespace (text : List Nat) :
    ∀ b ∈ remove_extra_whitespace text, b = 32 ∨ b ∈ text := by
  intro b hb
  rw [remove_extra_whitespace_eq_join] at hb
  rcases mem_join_words _ b hb with h | ⟨w, hw, hbw⟩
  · exact Or.inl h
  · exact Or.inr ((tokenize_occurs hw).subset hbw)

/-! ### No byte 0x89 right after a byte 0xC3 -/

theorem to_lowercase_e_acute_chain (rest : List Nat) : ∀ current : Nat,
    List.Chain (fun a b => a = 0xC3 → 0x80 ≤ b) current rest →
      List.Chain' lead_then_other (to_lowercase_e_acute current rest) := by
  induction rest with
  | nil => intro c _; simp [to_lowercase_e_acute]
  | cons next rest ih =>
    intro c hch
    rw [List.chain_cons] at hch
    unfold to_lowercase_e_acute
    split_ifs with h
    · have hrest : List.Chain (fun a b => a = 0xC3 → 0x80 ≤ b) 0xA9 rest := by
        cases rest with
        | nil => exact List.Chain.nil
        | cons x xs =>
          rw [List.chain_cons] at hch ⊢
          exact ⟨fun h0 => absurd h0 (by norm_num), hch.2.2⟩
      obtain ⟨tail, htail⟩ := to_lowercase_e_acute_head 0xA9 rest
      have := ih 0xA9 hrest
      rw [htail] at this ⊢
      rw [List.chain'_cons]
      exact ⟨fun _ => ⟨by norm_num, by norm_num⟩, this⟩
    · obtain ⟨tail, htail⟩ := to_lowercase_e_acute_head next rest
      have := ih next hch.2
      rw [htail] at this ⊢
      rw [List.chain'_cons]
      refine ⟨fun hc => ⟨hch.1 hc, fun hn => h ⟨hc, hn⟩⟩, this⟩

theorem lead_then_other_tolower (l : List Nat) (h : List.Chain' lead_then_other l) :
    List.Chain' lead_then_other (l.map tolower) := by
  rw [List.chain'_map]
  refine h.imp ?_
  intro a b hab hc
  have ha : a = 0xC3 := by
    unfold tolower at hc
    split_ifs at hc <;> omega
  have hb := hab ha
  rw [tolower_high hb.1]
  exact hb

theorem lead_then_other_filter (p : Nat → Bool) (hp : ∀ b, 0x80 ≤ b → p b = true)
    (l : List Nat) (h : List.Chain' lead_then_other l) :
    List.Chain' lead_then_other (l.filter p) := by
  induction l with
  | nil => exact List.chain'_nil
  | cons a l ih =>
    rw [List.chain'_cons'] at h
    by_cases ha : p a = true
    · rw [List.filter_cons_of_pos ha, List.chain'_cons']
      refine ⟨?_, ih h.2⟩
      intro y hy hac
      cases l with
      | nil => simp at hy
      | cons b l =>
        have hb := h.1 b (by simp) hac
        rw [List.filter_cons_of_pos (hp b hb.1)] at hy
        simp at hy
        rw [← hy]
        exact hb
    · rw [List.filter_cons_of_neg ha]
      exact ih h.2

theorem lead_then_other_collapsed (l : List Nat) : ∀ last_was_space : Bool,
    List.Chain' lead_then_other l → List.Chain' lead_then_other (collapsed l last_was_space) := by
  induction l with
  | nil => intro _ _; exact List.chain'_nil
  | cons a l ih =>
    intro lws h
    rw [List.chain'_cons'] at h
    by_cases ha : isspace a = true
    · cases lws with
      | true =>
        simp only [collapsed, ha, if_true]
        exact ih true h.2
      | false =>
        simp only [collapsed, ha, if_true, Bool.false_eq_true, if_false]
        rw [List.chain'_cons']
        exact ⟨fun y _ hc => absurd hc (by norm_num), ih true h.2⟩
    · simp only [collapsed, ha, Bool.false_eq_true, if_false]
      rw [List.chain'_cons']
      refine ⟨?_, ih false h.2⟩
      intro y hy hac
      cases l with
      | nil => simp [collapsed] at hy
      | cons b l =>
        have hb := h.1 b (by simp) hac
        have hbs : ¬ isspace b = true := by
          unfold isspace
          simp
          omega
        simp only [collapsed, hbs, Bool.false_eq_true, if_false] at hy
        simp at hy
        rw [← hy]
        exact hb

theorem lead_then_other_remove_extra_whitespace (l : List Nat)
    (h : List.Chain' lead_then_other l) :
    List.Chain' lead_then_other (remove_extra_whitespace l) := by
  rw [remove_extra_whitespace_eq]
  have h1 := lead_then_other_collapsed l false h
  have h2 := h1.infix (List.dropWhile_suffix isspace).isInfix
  exact h2.infix (List.rdropWhile_prefix isspace _).isInfix

theorem to_lowercase_e_acute_eq_self (rest : List Nat) : ∀ current : Nat,
    List.Chain' lead_then_other (current :: rest) →
      to_lowercase_e_acute current rest = current :: rest := by
  induction rest with
  | nil => intro c _; rfl
  | cons next rest ih =>
    intro c h
    rw [List.chain'_cons] at h
    unfold to_lowercase_e_acute
    have hn : ¬(c = 0xC3 ∧ next = 0x89) := fun hc => (h.1 hc.1).2 hc.2
    rw [if_neg hn, ih next h.2]

theorem to_lowercase_eq_self (text : List Nat) (hch : List.Chain' lead_then_other text)
    (hl : ∀ b ∈ text, tolower b = b) : to_lowercase text = text := by
  cases text with
  | nil => rfl
  | cons first rest =>
    rw [to_lowercase_cons, to_lowercase_e_acute_eq_self rest first hch]
    conv_rhs => rw [← List.map_id (first :: rest)]
    exact List.map_congr_left hl

/-- C13 as stated fails: cleaning the bytes C3 31 89 gives C3 89 (the digit goes), and
cleaning that again gives C3 A9. -/
theorem clean_twice_differs :
    clean [0xC3, 0x31, 0x89] = [0xC3, 0x89] ∧
    clean (clean [0xC3, 0x31, 0x89]) = [0xC3, 0xA9] ∧
    clean (clean [0xC3, 0x31, 0x89]) ≠ clean [0xC3, 0x31, 0x89] := by
  decide

/-- C13, amended: `clean(clean(t)) = clean(t)` for every byte string `t` in which a byte
0xC3 is never directly followed by a byte below 0x80, as in every valid UTF-8 string. -/
theorem clean_idempotent (t : List Nat)
    (h : List.Chain' (fun a b => a = 0xC3 → 0x80 ≤ b) t) : clean (clean t) = clean t := by
  have hX : List.Chain' lead_then_other (to_lowercase t) := by
    cases t with
    | nil => exact List.chain'_nil
    | cons a r =>
      rw [to_lowercase_cons]
      exact lead_then_other_tolower _ (to_lowercase_e_acute_chain r a h)
  have hdigit : ∀ b, 0x80 ≤ b → (!isdigit b) = true := by
    intro b hb
    unfold isdigit
    simp
    omega
  have hpunct : ∀ b, 0x80 ≤ b → (!ispunct b) = true := by
    intro b hb
    unfold ispunct
    simp
    omega
  have hZ : List.Chain' lead_then_other (clean t) := by
    unfold clean
    rw [remove_numbers_eq, remove_punctuation_eq]
    exact lead_then_other_remove_extra_whitespace _
      (lead_then_other_filter _ hpunct _ (lead_then_other_filter _ hdigit _ hX))
  have hmem : ∀ b ∈ clean t, b = 32 ∨
      (b ∈ to_lowercase t ∧ isdigit b = false ∧ ispunct b = false) := by
    intro b hb
    unfold clean at hb
    rcases mem_remove_extra_whitespace _ b hb with h32 | hb
    · exact Or.inl h32
    · rw [remove_numbers_eq, remove_punctuation_eq, List.mem_filter, List.mem_filter] at hb
      simp only [Bool.not_eq_true'] at hb
      exact Or.inr ⟨hb.1.1, hb.1.2, hb.2⟩
  have hlow : ∀ b ∈ clean t, tolower b = b := by
    intro b hb
    rcases hmem b hb with h32 | h2
    · rw [h32]; rfl
    · exact tolower_mem_to_lowercase t b h2.1
  have hd : ∀ b ∈ clean t, (!isdigit b) = true := by
    intro b hb
    rcases hmem b hb with h32 | h2
    · rw [h32]; rfl
    · rw [h2.2.1]; rfl
  have hp : ∀ b ∈ clean t, (!ispunct b) = true := by
    intro b hb
    rcases hmem b hb with h32 | h2
    · rw [h32]; rfl
    · rw [h2.2.2]; rfl
  have hW : remove_extra_whitespace (clean t) = clean t := by
    unfold clean
    exact remove_extra_whitespace_idempotent _
  show remove_extra_whitespace (remove_punctuation (remove_numbers (to_lowercase (clean t)))) =
    clean t
  rw [to_lowercase_eq_self (clean t) hZ hlow, remove_numbers_eq,
    List.filter_eq_self.mpr hd, remove_punctuation_eq, List.filter_eq_self.mpr hp, hW]

/-- The idempotence theorem applied to a UTF-8 text with digits and punctuation. -/
theorem clean_idempotent_witness :
    clean (clean (bytes "Été 2024, à  Paris!")) = clean (bytes "Été 2024, à  Paris!") :=
  clean_idempotent (bytes "Été 2024, à  Paris!") (by
    rw [show bytes "Été 2024, à  Paris!" = [195, 137, 116, 195, 169, 32, 50, 48, 50, 52, 44, 32,
      195, 160, 32, 32, 80, 97, 114, 105, 115, 33] from by decide]
    simp)

/-- A text of whitespace only is never given a language. -/
theorem detect_language_of_whitespace (d : LanguageDetector) (text : List Nat)
    (hall : ∀ c ∈ text, isspace c = true) : detect_language_of d text = none := by
  by_cases ht : text = []
  · rw [ht]; exact detect_language_of_nil d
  by_cases hl : d.languages_ = []
  · unfold detect_language_of
    simp [hl]
  have hnf : ∀ kw ∈ keywords, found (text.map tolower) kw = false := by
    intro kw hkw
    rw [Bool.eq_false_iff]
    intro hf
    obtain ⟨k, ks, hk⟩ := List.exists_cons_of_ne_nil (keywords_ne_nil kw hkw)
    have hkm : k ∈ kw := by rw [hk]; exact List.mem_cons_self k ks
    have hmem := ((found_iff_occurs _ _).mp hf).subset hkm
    obtain ⟨c, hc, hck⟩ := List.mem_map.mp hmem
    have h1 := keywords_no_space kw hkw k hkm
    rw [← hck, isspace_tolower, hall c hc] at h1
    exact Bool.noConfusion h1
  rw [detect_language_of_fallback d text ht hl (no_keyword_of_not_found d text hnf),
    confidence_values_eq_of_no_word d text ht hl ((tokenize_eq_nil text).mpr hall)]
  have hzero : ∀ e ∈ std_sort confidence_order (d.languages_.map fun l => (l, (0 : ℚ))),
      e.2 = 0 := by
    intro e he
    have he2 := (std_sort_perm confidence_order _).subset he
    obtain ⟨l, _, rfl⟩ := List.mem_map.mp he2
    rfl
  rcases hs : std_sort confidence_order (d.languages_.map fun l => (l, (0 : ℚ)))
    with _ | ⟨m, rest⟩
  · rfl
  · rw [hs] at hzero
    have hm : m.2 = 0 := hzero m (List.mem_cons_self m rest)
    have hsec : second_confidence rest = 0 := by
      cases rest with
      | nil => rfl
      | cons s tl => exact hzero s (List.mem_cons_of_mem m (List.mem_cons_self s tl))
    simp only [hm, hsec, if_true]

theorem isPrefixOf_to_lowercase_e_acute (rest : List Nat) :
    ∀ (pat : List Nat) (current : Nat), (∀ b ∈ pat, b ≠ 0x89 ∧ b ≠ 0xA9) →
      pat.isPrefixOf (to_lowercase_e_acute current rest) = pat.isPrefixOf (current :: rest) := by
  induction rest with
  | nil => intro _ _ _; rfl
  | cons next rest ih =>
    intro pat c hpat
    cases pat with
    | nil => simp
    | cons k ks =>
      have hks : ∀ b ∈ ks, b ≠ 0x89 ∧ b ≠ 0xA9 := fun b hb => hpat b (List.mem_cons_of_mem k hb)
      unfold to_lowercase_e_acute
      split_ifs with h
      · simp only [List.isPrefixOf, ih ks 0xA9 hks, h.2]
        cases ks with
        | nil => simp
        | cons k2 ks2 =>
          have h2 := hks k2 (List.mem_cons_self k2 ks2)
          have e1 : (k2 == 137) = false := by simpa using h2.1
          have e2 : (k2 == 169) = false := by simpa using h2.2
          simp [List.isPrefixOf, e1, e2]
      · simp only [List.isPrefixOf, ih ks next hks]

theorem found_to_lowercase_e_acute (pat : List Nat) (hp : pat ≠ [])
    (hpat : ∀ b ∈ pat, b ≠ 0x89 ∧ b ≠ 0xA9) (rest : List Nat) : ∀ current : Nat,
      found (to_lowercase_e_acute current rest) pat = found (current :: rest) pat := by
  induction rest with
  | nil => intro _; rfl
  | cons next rest ih =>
    intro c
    have hpre := isPrefixOf_to_lowercase_e_acute (next :: rest) pat c hpat
    obtain ⟨k, ks, hk⟩ := List.exists_cons_of_ne_nil hp
    have hk1 := hpat k (by rw [hk]; exact List.mem_cons_self k ks)
    have hswap : found (0xA9 :: rest) pat = found (0x89 :: rest) pat := by
      have e1 : (k == 137) = false := by simpa using hk1.1
      have e2 : (k == 169) = false := by simpa using hk1.2
      rw [found, found, hk]
      simp [List.isPrefixOf, e1, e2]
    rw [found.eq_2 pat c (next :: rest), ← hpre]
    unfold to_lowercase_e_acute
    split_ifs with h
    · rw [found, ih 0xA9, hswap, h.2]
    · rw [found, ih next]

theorem map_tolower_to_lowercase_e_acute (rest : List Nat) : ∀ current : Nat,
    (to_lowercase_e_acute current rest).map tolower =
      to_lowercase_e_acute (tolower current) (rest.map tolower) := by
  have hC3 : ∀ x, tolower x = 0xC3 ↔ x = 0xC3 := by
    intro x
    unfold tolower
    split_ifs <;> omega
  have h89 : ∀ x, tolower x = 0x89 ↔ x = 0x89 := by
    intro x
    unfold tolower
    split_ifs <;> omega
  induction rest with
  | nil => intro _; rfl
  | cons next rest ih =>
    intro c
    rw [List.map_cons]
    unfold to_lowercase_e_acute
    by_cases h : c = 0xC3 ∧ next = 0x89
    · have h2 : tolower c = 0xC3 ∧ tolower next = 0x89 := ⟨(hC3 c).mpr h.1, (h89 next).mpr h.2⟩
      rw [if_pos h, if_pos h2, List.map_cons, ih]
      rfl
    · have h2 : ¬(tolower c = 0xC3 ∧ tolower next = 0x89) :=
        fun hc => h ⟨(hC3 c).mp hc.1, (h89 next).mp hc.2⟩
      rw [if_neg h, if_neg h2, List.map_cons, ih]

/-- The keywords found in a text after `to_lowercase` are those that `detect_language_of`
finds in the text itself. -/
theorem found_to_lowercase (text : List Nat) :
    ∀ kw ∈ keywords, found (to_lowercase text) kw = found (text.map tolower) kw := by
  intro kw hkw
  cases text with
  | nil => rfl
  | cons first rest =>
    rw [to_lowercase_cons, map_tolower_to_lowercase_e_acute,
      found_to_lowercase_e_acute kw (keywords_ne_nil kw hkw) (keywords_no_e_acute kw hkw),
      List.map_cons]

/-- C12 as stated fails: for the detector over English and German, "hel-lo" has no
language, but its cleaned form "hello" is detected as English. -/
theorem detect_after_clean_differs :
    clean (bytes "hel-lo") = bytes "hello" ∧
    detect_language_of ⟨[.ENGLISH, .GERMAN], 0, false, false⟩ (bytes "hel-lo") = none ∧
    detect_language_of ⟨[.ENGLISH, .GERMAN], 0, false, false⟩ (clean (bytes "hel-lo")) =
      some .ENGLISH := by
  decide!

/-- C12, amended: for every detector and every text that holds no ASCII digit and no ASCII
punctuation byte, `detect_language_of(clean(T))` equals `detect_language_of(T)`. -/
theorem detect_language_of_clean (d : LanguageDetector) (text : List Nat)
    (hd : ∀ b ∈ text, isdigit b = false) (hp : ∀ b ∈ text, ispunct b = false) :
    detect_language_of d (clean text) = detect_language_of d text := by
  have hXd : ∀ b ∈ to_lowercase text, (!isdigit b) = true := by
    intro b hb
    rw [(forall_mem_to_lowercase isdigit false (by decide) isdigit_tolower text).mpr hd b hb]
    rfl
  have hXp : ∀ b ∈ to_lowercase text, (!ispunct b) = true := by
    intro b hb
    rw [(forall_mem_to_lowercase ispunct false (by decide) ispunct_tolower text).mpr hp b hb]
    rfl
  have hclean : clean text = remove_extra_whitespace (to_lowercase text) := by
    unfold clean
    rw [remove_numbers_eq, List.filter_eq_self.mpr hXd, remove_punctuation_eq,
      List.filter_eq_self.mpr hXp]
  have hspace := forall_mem_to_lowercase isspace true (by decide) isspace_tolower text
  by_cases hall : ∀ c ∈ text, isspace c = true
  · have h1 : tokenize (to_lowercase text) = [] := (tokenize_eq_nil _).mpr (hspace.mpr hall)
    rw [hclean, remove_extra_whitespace_eq_join, h1, detect_language_of_whitespace d text hall]
    exact detect_language_of_nil d
  · have hw : tokenize text ≠ [] := fun h0 => hall ((tokenize_eq_nil text).mp h0)
    have hwX : tokenize (to_lowercase text) ≠ [] :=
      fun h0 => hall (hspace.mp ((tokenize_eq_nil _).mp h0))
    have hwc : tokenize (clean text) ≠ [] := by
      rw [hclean, tokenize_remove_extra_whitespace]
      exact hwX
    have htext : text ≠ [] := by
      rintro rfl
      exact hw rfl
    have hcl : clean text ≠ [] := by
      intro h0
      rw [h0] at hwc
      exact hwc rfl
    have hfix : (clean text).map tolower = clean text := by
      conv_rhs => rw [← List.map_id (clean text)]
      apply List.map_congr_left
      intro b hb
      rw [hclean] at hb
      rcases mem_remove_extra_whitespace _ b hb with h32 | hb
      · rw [h32]; rfl
      · exact tolower_mem_to_lowercase text b hb
    refine (detector_congr d (clean text) text ?_ ?_ ?_).2.1
    · rw [isEmpty_eq_false_of_ne hcl, isEmpty_eq_false_of_ne htext]
    · rw [isEmpty_eq_false_of_ne hwc, isEmpty_eq_false_of_ne hw]
    · intro kw hkw
      rw [hfix, hclean, found_remove_extra_whitespace kw (keywords_ne_nil kw hkw)
        (keywords_no_space kw hkw), found_to_lowercase text kw hkw]

/-- The cleaning theorem applied: English and German configured, text "  Hello   World ". -/
theorem detect_language_of_clean_witness :
    detect_language_of ⟨[.ENGLISH, .GERMAN], 0, false, false⟩ (clean (bytes "  Hello   World ")) =
      detect_language_of ⟨[.ENGLISH, .GERMAN], 0, false, false⟩ (bytes "  Hello   World ") :=
  detect_language_of_clean ⟨[.ENGLISH, .GERMAN], 0, false, false⟩ (bytes "  Hello   World ")
    (by decide) (by decide)

/-! ## The threshold of the fall-back, and the spans of a text -/

/-- C24 fails on the code: with English and German configured, in either iteration order,
and the text "xyz", `detect_language_of` detects nothing, and `detect_multiple_languages_of`
returns a span with a language all the same, the first one of the set in its iteration
order.  The span's language is documented as the detected language. -/
theorem span_language_is_not_detected_language :
    detect_language_of ⟨[.ENGLISH, .GERMAN], 0, false, false⟩ (bytes "xyz") = none ∧
    detect_multiple_languages_of ⟨[.ENGLISH, .GERMAN], 0, false, false⟩ (bytes "xyz")
      = [⟨.ENGLISH, 0, 3, 1⟩] ∧
    detect_language_of ⟨[.GERMAN, .ENGLISH], 0, false, false⟩ (bytes "xyz") = none ∧
    detect_multiple_languages_of ⟨[.GERMAN, .ENGLISH], 0, false, false⟩ (bytes "xyz")
      = [⟨.GERMAN, 0, 3, 1⟩] := by
  refine ⟨by decide!, by decide, by decide!, by decide⟩

/-- What the placeholder body of `detect_multiple_languages_of` returns: for a detector with
at least one language and a non-empty text, one span from index 0 to the byte length of the
text, with the constant 1 as word count and `*languages_.begin()` as language, whatever
the text is; for the empty text no span. -/
theorem detect_multiple_languages_of_spec (d : LanguageDetector) (text : List Nat)
    (hl : d.languages_ ≠ []) :
    (text ≠ [] → ∃ first, d.languages_.head? = some first ∧ first ∈ d.languages_ ∧
      detect_multiple_languages_of d text = [⟨first, 0, text.length, 1⟩]) ∧
    detect_multiple_languages_of d [] = [] := by
  constructor
  · intro ht
    cases hd : d.languages_ with
    | nil => exact absurd hd hl
    | cons first rest =>
      refine ⟨first, rfl, List.mem_cons_self _ _, ?_⟩
      unfold detect_multiple_languages_of
      simp [hd, ht]
  · unfold detect_multiple_languages_of
    simp

/-- The span theorem applied: English and German configured, text "xyz". -/
theorem detect_multiple_languages_of_spec_witness :
    ([Language.ENGLISH, Language.GERMAN] : List Language) ≠ [] ∧ bytes "xyz" ≠ [] ∧
    ∃ first, ([Language.ENGLISH, Language.GERMAN] : List Language).head? = some first ∧
      first ∈ [Language.ENGLISH, Language.GERMAN] ∧
      detect_multiple_languages_of ⟨[.ENGLISH, .GERMAN], 0, false, false⟩ (bytes "xyz")
        = [⟨first, 0, (bytes "xyz").length, 1⟩] :=
  ⟨by decide, by decide,
    (detect_multiple_languages_of_spec ⟨[.ENGLISH, .GERMAN], 0, false, false⟩ (bytes "xyz")
      (by decide)).1 (by decide)⟩

/-! ## The range of lower-order n-grams -/

theorem validate_length_ok {n : Nat} (h1 : 1 ≤ n) (h5 : n ≤ 5) : validate_length n = .ok () := by
  unfold validate_length
  rw [if_neg (by omega)]

theorem NgramRef_new_ok (value : List Nat) (h1 : 1 ≤ value.length) (h5 : value.length ≤ 5) :
    NgramRef.new value = .ok ⟨value, value.length⟩ := by
  unfold NgramRef.new
  simp only [validate_length_ok h1 h5]

theorem Ngram_new_ok (value : List Nat) (h1 : 1 ≤ value.length) (h5 : value.length ≤ 5) :
    Ngram.new value = .ok ⟨value, value.length⟩ := by
  unfold Ngram.new
  simp only [validate_length_ok h1 h5]

theorem utf8_advance_ascii {c : Nat} (h : c < 128) : utf8_advance c = 1 := by
  have h0 : c &&& 0x80 = 0 := by
    interval_cases c <;> rfl
  unfold utf8_advance
  rw [if_pos h0]

theorem get_prefix_loop_done (str : List Nat) (n fuel i bc ccc : Nat) (h : ¬ ccc < n) :
    get_prefix_loop str n fuel i bc ccc = bc := by
  cases fuel with
  | zero => rfl
  | succ fuel =>
    rw [get_prefix_loop]
    rw [if_neg]
    exact fun hc => h hc.2

/-- The loop of `get_prefix` does not depend on the bound once the bound covers the bytes
that are left: more iterations than `str.length - i` are never run. -/
theorem get_prefix_loop_fuel (str : List Nat) (n : Nat) :
    ∀ (fuel i bc ccc : Nat), str.length ≤ i + fuel →
      get_prefix_loop str n (fuel + 1) i bc ccc = get_prefix_loop str n fuel i bc ccc := by
  intro fuel
  induction fuel with
  | zero =>
    intro i bc ccc h
    rw [get_prefix_loop.eq_2, if_neg]
    · rfl
    · intro hc
      omega
  | succ fuel ih =>
    intro i bc ccc h
    rw [get_prefix_loop.eq_2]
    conv_rhs => rw [get_prefix_loop.eq_2]
    split_ifs with hc
    · apply ih
      have : 1 ≤ utf8_advance (str.getD i 0) := by
        unfold utf8_advance
        split_ifs <;> omega
      omega
    · rfl

theorem get_prefix_loop_ascii (str : List Nat) (n : Nat) (hascii : ∀ c ∈ str, c < 128) :
    ∀ (fuel i bc ccc : Nat), n - ccc ≤ fuel → i + (n - ccc) ≤ str.length → ccc < n →
      get_prefix_loop str n fuel i bc ccc = i + (n - ccc) := by
  intro fuel
  induction fuel with
  | zero =>
    intro i bc ccc h1 h2 h3
    omega
  | succ fuel ih =>
    intro i bc ccc h1 h2 h3
    have hi : i < str.length := by omega
    rw [get_prefix_loop, if_pos ⟨hi, h3⟩]
    have hadv : utf8_advance (str.getD i 0) = 1 := by
      apply utf8_advance_ascii
      rw [List.getD_eq_getElem str 0 hi]
      exact hascii _ (List.getElem_mem hi)
    rw [hadv]
    by_cases h4 : ccc + 1 < n
    · rw [ih (i + 1) (i + 1) (ccc + 1) (by omega) (by omega) h4]
      omega
    · rw [get_prefix_loop_done _ _ _ _ _ _ h4]
      omega

/-- On ASCII strings `get_prefix` takes the first `char_count` bytes. -/
theorem get_prefix_ascii (str : List Nat) (n : Nat) (hascii : ∀ c ∈ str, c < 128) :
    NgramRef.get_prefix str n = str.take n := by
  unfold NgramRef.get_prefix
  split_ifs with h
  · rw [List.take_of_length_le h]
  · by_cases h0 : 0 < n
    · rw [get_prefix_loop_ascii str n hascii str.length 0 0 0 (by omega) (by omega) h0]
      simp
    · have : n = 0 := by omega
      subst this
      rw [get_prefix_loop_done _ _ _ _ _ _ (by omega)]

theorem collect_lower_order_ngrams_ascii (g : List Nat) (hascii : ∀ c ∈ g, c < 128)
    (h5 : g.length ≤ 5) (last : NgramRef.Iterator) (hlast : last.is_end_ = true) :
    ∀ (m : Nat), 1 ≤ m → m ≤ g.length → ∀ fuel, m < fuel →
      collect_lower_order_ngrams fuel ⟨g.take m, m, false⟩ last =
        some (.ok ((List.range m).map (fun i => g.take (m - i)))) := by
  intro m
  induction m with
  | zero => intro h; omega
  | succ m ih =>
    intro _ hm fuel hfuel
    obtain ⟨fuel, rfl⟩ : ∃ f, fuel = f + 1 := ⟨fuel - 1, by omega⟩
    have hne : NgramRef.Iterator.equals ⟨g.take (m + 1), m + 1, false⟩ last = false := by
      unfold NgramRef.Iterator.equals
      simp [hlast]
    have hlen : (g.take (m + 1)).length = m + 1 := by
      rw [List.length_take]
      omega
    have hder : NgramRef.Iterator.dereference ⟨g.take (m + 1), m + 1, false⟩ =
        .ok ⟨g.take (m + 1), m + 1⟩ := by
      show NgramRef.new (g.take (m + 1)) = _
      rw [NgramRef_new_ok _ (by omega) (by omega), hlen]
    rw [collect_lower_order_ngrams, hne]
    simp only [Bool.false_eq_true, if_false, hder]
    by_cases hm0 : m = 0
    · subst hm0
      have hinc : NgramRef.Iterator.increment ⟨g.take (0 + 1), 0 + 1, false⟩ =
          ⟨g.take (0 + 1), 0 + 1, true⟩ := by
        unfold NgramRef.Iterator.increment NgramRef.Iterator.update_to_prefix
        simp
      obtain ⟨fuel, rfl⟩ : ∃ f, fuel = f + 1 := ⟨fuel - 1, by omega⟩
      rw [hinc, collect_lower_order_ngrams]
      have he : NgramRef.Iterator.equals ⟨g.take (0 + 1), 0 + 1, true⟩ last = true := by
        unfold NgramRef.Iterator.equals
        simp [hlast]
      rw [he]
      rfl
    · have hinc : NgramRef.Iterator.increment ⟨g.take (m + 1), m + 1, false⟩ =
          ⟨g.take m, m, false⟩ := by
        unfold NgramRef.Iterator.increment NgramRef.Iterator.update_to_prefix
        have hasc : ∀ c ∈ g.take (m + 1), c < 128 :=
          fun c hc => hascii c (List.mem_of_mem_take hc)
        simp [get_prefix_ascii _ _ hasc, List.take_take]
        omega
      rw [hinc, ih (by omega) (by omega) fuel (by omega)]
      simp only [List.range_succ_eq_map, List.map_cons, List.map_map]
      congr 3
      apply List.map_congr_left
      intro i _
      simp

/-- C30: for an ASCII n-gram `g` of `k` bytes, `1 <= k <= 5`, the loop over
`NgramRef(g).range_of_lower_order_ngrams()` from `begin()` to `end()` ends, having run its
body exactly `k` times (any bound above `k` on the number of iterations gives the result),
and the `i`-th value it meets is the prefix of `g` of length `k - i`. -/
theorem lower_order_ngrams_ascii (g : List Nat) (hascii : ∀ c ∈ g, c < 128)
    (h1 : 1 ≤ g.length) (h5 : g.length ≤ 5) (fuel : Nat) (hfuel : g.length < fuel) :
    lower_order_ngrams fuel g =
      some (.ok ((List.range g.length).map (fun i => g.take (g.length - i)))) ∧
    ((List.range g.length).map (fun i => g.take (g.length - i))).length = g.length := by
  refine ⟨?_, by simp⟩
  have hnew : NgramRef.new g = .ok ⟨g, g.length⟩ := NgramRef_new_ok g h1 h5
  unfold lower_order_ngrams
  rw [hnew]
  dsimp only [NgramRef.range_of_lower_order_ngrams, NgramRef.Range.begin, NgramRef.Range.end_]
  have h := collect_lower_order_ngrams_ascii g hascii h5 ⟨g, g.length, true⟩ rfl g.length h1
    (le_refl _) fuel hfuel
  rw [List.take_length] at h
  exact h

/-- The theorem on ASCII n-grams applied to "abcde": the loop meets "abcde", "abcd", "abc",
"ab", "a". -/
theorem lower_order_ngrams_ascii_witness :
    (∀ c ∈ bytes "abcde", c < 128) ∧ 1 ≤ (bytes "abcde").length ∧ (bytes "abcde").length ≤ 5 ∧
    lower_order_ngrams 6 (bytes "abcde") =
      some (.ok [bytes "abcde", bytes "abcd", bytes "abc", bytes "ab", bytes "a"]) :=
  ⟨by decide, by decide, by decide,
    (lower_order_ngrams_ascii (bytes "abcde") (by decide) (by decide) (by decide) 6
      (by decide)).1.trans (by decide)⟩

/-- C21 fails on the code: the n-gram "é" is one code point (two bytes in UTF-8), and the
loop over its range meets "é" and then its first byte alone, which is no prefix on a
code-point boundary; "aé" gives "aé", then "a" with the first byte of "é", then "a"; and
`get_prefix("éa", 1)` is the first byte of "é", where the first code point is expected. -/
theorem lower_order_ngrams_cut_inside_character :
    lower_order_ngrams 3 (utf8_string [0xE9]) = some (.ok [utf8_string [0xE9], [0xC3]]) ∧
    lower_order_ngrams 4 (utf8_string [0x61, 0xE9]) =
      some (.ok [utf8_string [0x61, 0xE9], [0x61, 0xC3], utf8_string [0x61]]) ∧
    NgramRef.get_prefix (utf8_string [0xE9, 0x61]) 1 = [0xC3] ∧
    utf8_string [0xE9] = bytes "é" ∧ utf8_string [0xE9] ≠ [0xC3] := by
  decide

/-! ## Word n-grams and lowercasing -/

theorem tokenize_word (w : List Nat) (hw : w ≠ []) (hns : ∀ b ∈ w, isspace b = false) :
    tokenize w = [w] := by
  have h := pending_tokens_append_word w hns [] []
  rw [List.append_nil, List.nil_append] at h
  rw [tokenize_eq_pending, h]
  cases w with
  | nil => exact absurd rfl hw
  | cons x xs => rfl

/-- C22 as stated fails: the word "hello" has five code points, so four substrings of two
code points and five of one are expected; `generate_ngrams` gives no n-gram for order 2 and
the whole word for order 1. -/
theorem generate_ngrams_of_hello :
    generate_ngrams (bytes "hello") 2 = .ok [] ∧
    generate_ngrams (bytes "hello") 1 = .ok [⟨bytes "hello", 5⟩] := by
  decide

theorem generate_ngrams_single_word (w : List Nat) (n : Nat) (hw : w ≠ [])
    (hns : ∀ b ∈ w, isspace b = false) (h1 : 1 ≤ n) (h5 : n ≤ 5) :
    generate_ngrams w n = .ok (if n = 1 ∧ w.length ≤ 5 then [⟨w, w.length⟩] else []) := by
  have hwe : w.isEmpty = false := isEmpty_eq_false_of_ne hw
  have hlen : 1 ≤ w.length := by
    cases w with
    | nil => exact absurd rfl hw
    | cons x xs => simp
  unfold generate_ngrams
  rw [if_neg (by omega), tokenize_word w hw hns]
  simp only [hwe, Bool.false_eq_true, if_false]
  by_cases hn : n = 1
  · subst hn
    have hstr : ngram_str [w] 0 1 = w := by
      unfold ngram_str
      simp [List.range_succ]
    have hr : List.range ([w].length + 1 - 1) = [0] := rfl
    rw [if_neg (by simp), hr]
    simp only [List.foldlM_cons, List.foldlM_nil, hstr]
    by_cases h5w : w.length ≤ 5
    · rw [Ngram_new_ok w hlen h5w]
      simp [h5w]
    · have hnew : Ngram.new w = .error .invalid_argument := by
        unfold Ngram.new validate_length
        simp only
        rw [if_pos (by omega)]
      rw [hnew]
      simp [h5w]
  · rw [if_pos (by simp; omega), if_neg (fun h => hn h.1)]

theorem utf8_string_ascii (chars : List Nat) (hascii : ∀ c ∈ chars, c < 128) :
    utf8_string chars = chars := by
  induction chars with
  | nil => rfl
  | cons c cs ih =>
    have hc : c < 128 := hascii c (List.mem_cons_self _ _)
    have e : utf8_string (c :: cs) = utf8_encode c ++ utf8_string cs := by
      simp [utf8_string]
    rw [e, ih (fun x hx => hascii x (List.mem_cons_of_mem _ hx))]
    unfold utf8_encode
    rw [if_pos (by omega)]
    rfl

/-- C22, amended: `generate_ngrams` builds n-grams of whole words.  For a text that is one
word of ASCII characters `chars` (not empty, no whitespace) and an order `n` in 1..5 the
result is the word itself when `n = 1` and the word has at most five characters, and no
n-gram at all otherwise. -/
theorem generate_ngrams_of_ascii_word (chars : List Nat) (n : Nat) (hw : chars ≠ [])
    (hascii : ∀ c ∈ chars, c < 128) (hns : ∀ c ∈ chars, isspace c = false)
    (h1 : 1 ≤ n) (h5 : n ≤ 5) :
    generate_ngrams (utf8_string chars) n =
      .ok (if n = 1 ∧ chars.length ≤ 5 then [⟨utf8_string chars, chars.length⟩] else []) := by
  rw [utf8_string_ascii chars hascii]
  exact generate_ngrams_single_word chars n hw hns h1 h5

/-- The theorem on one-word texts applied to the word "hello", given by its five characters,
and order 1. -/
theorem generate_ngrams_of_ascii_word_witness :
    ([104, 101, 108, 108, 111] : List Nat) ≠ [] ∧
    (∀ c ∈ ([104, 101, 108, 108, 111] : List Nat), c < 128) ∧
    (∀ c ∈ ([104, 101, 108, 108, 111] : List Nat), isspace c = false) ∧
    utf8_string [104, 101, 108, 108, 111] = bytes "hello" ∧
    generate_ngrams (utf8_string [104, 101, 108, 108, 111]) 1 =
      .ok (if 1 = 1 ∧ ([104, 101, 108, 108, 111] : List Nat).length ≤ 5
        then [⟨utf8_string [104, 101, 108, 108, 111],
          ([104, 101, 108, 108, 111] : List Nat).length⟩]
        else []) :=
  ⟨by decide, by decide, by decide, by decide,
    generate_ngrams_of_ascii_word [104, 101, 108, 108, 111] 1 (by decide) (by decide)
      (by decide) (by decide) (by decide)⟩

theorem e_acute_step (c : Nat) (hc : c ≠ 0xC3) (r : List Nat) :
    to_lowercase_e_acute c r = c :: e_acute_pass r := by
  cases r with
  | nil => rfl
  | cons x r =>
    rw [to_lowercase_e_acute, if_neg (fun h => hc h.1)]
    rfl

theorem e_acute_pass_encode (ch : Nat) (r : List Nat) :
    e_acute_pass (utf8_encode ch ++ r) =
      utf8_encode (if ch = 0xC9 then 0xE9 else ch) ++ e_acute_pass r := by
  by_cases h9 : ch = 0xC9
  · subst h9
    have e1 : utf8_encode 0xC9 = [0xC3, 0x89] := by decide
    have e2 : utf8_encode 0xE9 = [0xC3, 0xA9] := by decide
    rw [if_pos rfl, e1, e2]
    show to_lowercase_e_acute 0xC3 (0x89 :: r) = _
    rw [to_lowercase_e_acute, if_pos ⟨rfl, rfl⟩, e_acute_step 0xA9 (by decide)]
    rfl
  · rw [if_neg h9]
    unfold utf8_encode
    split_ifs with h1 h2 h3
    · show to_lowercase_e_acute ch r = _
      rw [e_acute_step ch (by omega)]
      rfl
    · show to_lowercase_e_acute (0xC0 + ch / 64) ((0x80 + ch % 64) :: r) = _
      rw [to_lowercase_e_acute, if_neg (by omega), e_acute_step _ (by omega)]
      rfl
    · show to_lowercase_e_acute (0xE0 + ch / 4096)
        ((0x80 + ch / 64 % 64) :: (0x80 + ch % 64) :: r) = _
      rw [e_acute_step _ (by omega), e_acute_pass, e_acute_step _ (by omega), e_acute_pass,
        e_acute_step _ (by omega)]
      rfl
    · show to_lowercase_e_acute (0xF0 + ch / 262144)
        ((0x80 + ch / 4096 % 64) :: (0x80 + ch / 64 % 64) :: (0x80 + ch % 64) :: r) = _
      rw [e_acute_step _ (by omega), e_acute_pass, e_acute_step _ (by omega), e_acute_pass,
        e_acute_step _ (by omega), e_acute_pass, e_acute_step _ (by omega)]
      rfl

theorem e_acute_pass_utf8_string (chars : List Nat) :
    e_acute_pass (utf8_string chars) =
      utf8_string (chars.map (fun ch => if ch = 0xC9 then 0xE9 else ch)) := by
  induction chars with
  | nil => rfl
  | cons ch chars ih =>
    have e : utf8_string (ch :: chars) = utf8_encode ch ++ utf8_string chars := by
      simp [utf8_string]
    rw [e, e_acute_pass_encode, ih]
    simp [utf8_string]

theorem map_tolower_utf8_encode (ch : Nat) :
    (utf8_encode ch).map tolower = utf8_encode (if 65 ≤ ch ∧ ch ≤ 90 then ch + 32 else ch) := by
  by_cases h : ch < 0x80
  · have e1 : utf8_encode ch = [ch] := by
      unfold utf8_encode
      rw [if_pos h]
    rw [e1]
    split_ifs with hu
    · have e2 : utf8_encode (ch + 32) = [ch + 32] := by
        unfold utf8_encode
        rw [if_pos (by omega)]
      rw [e2]
      simp [tolower, hu]
    · rw [e1]
      simp [tolower, hu]
  · rw [if_neg (by omega)]
    conv_rhs => rw [← List.map_id (utf8_encode ch)]
    apply List.map_congr_left
    intro b hb
    exact tolower_high (utf8_encode_high ch (by omega) b hb)

theorem map_tolower_utf8_string (chars : List Nat) :
    (utf8_string chars).map tolower =
      utf8_string (chars.map (fun ch => if 65 ≤ ch ∧ ch ≤ 90 then ch + 32 else ch)) := by
  induction chars with
  | nil => rfl
  | cons ch chars ih =>
    have e : ∀ l : List Nat, utf8_string (ch :: l) = utf8_encode ch ++ utf8_string l := by
      intro l
      simp [utf8_string]
    rw [e, List.map_append, ih, map_tolower_utf8_encode, List.map_cons]
    simp [utf8_string]

theorem to_lowercase_eq_pass (text : List Nat) :
    to_lowercase text = (e_acute_pass text).map tolower := by
  cases text with
  | nil => rfl
  | cons first rest => exact to_lowercase_cons first rest

/-- C28 fails on the code: the uppercase letter À (U+00C0), whose lowercase counterpart is à
(U+00E0), is left as it is; so is Ö (U+00D6).  The header documents `to_lowercase` as
converting all characters of the text to lowercase. -/
theorem to_lowercase_keeps_latin1_uppercase :
    to_lowercase (utf8_string [0xC0]) = utf8_string [0xC0] ∧
    utf8_string [0xC0] ≠ utf8_string [0xE0] ∧
    to_lowercase (bytes "ÀÖ") = bytes "ÀÖ" ∧ bytes "ÀÖ" ≠ bytes "àö" := by
  decide

/-- What the two loops of `to_lowercase` do on the UTF-8 encoding of any sequence of code
points: the letters `A`..`Z` and the letter É (U+00C9) are replaced by their lowercase
counterparts, every other code point is left as it is. -/
theorem to_lowercase_utf8_string (chars : List Nat) :
    to_lowercase (utf8_string chars) = utf8_string (chars.map lowercase_code_point) := by
  rw [to_lowercase_eq_pass, e_acute_pass_utf8_string, map_tolower_utf8_string, List.map_map]
  congr 1
  apply List.map_congr_left
  intro ch _
  unfold lowercase_code_point
  by_cases h9 : ch = 0xC9
  · subst h9
    rfl
  · simp only [Function.comp, if_neg h9]

/-! ## Maps held as lists of entries -/

theorem mem_assign {α β : Type} [DecidableEq α] (k : α) (v : β) (l : List (α × β))
    (e : α × β) (h : e ∈ assign k v l) : e = (k, v) ∨ e ∈ l := by
  induction l with
  | nil =>
    simp only [assign, List.mem_singleton] at h
    exact Or.inl h
  | cons x l ih =>
    unfold assign at h
    split_ifs at h with hx
    · rcases List.mem_cons.mp h with h | h
      · exact Or.inl h
      · exact Or.inr (List.mem_cons_of_mem _ h)
    · rcases List.mem_cons.mp h with h | h
      · exact Or.inr (h ▸ List.mem_cons_self _ _)
      · rcases ih h with h | h
        · exact Or.inl h
        · exact Or.inr (List.mem_cons_of_mem _ h)

theorem key_mem_assign {α β : Type} [DecidableEq α] (k : α) (v : β) (l : List (α × β)) :
    (k, v) ∈ assign k v l := by
  induction l with
  | nil => simp [assign]
  | cons x l ih =>
    unfold assign
    split_ifs with hx
    · exact List.mem_cons_self _ _
    · exact List.mem_cons_of_mem _ ih

theorem key_kept_assign {α β : Type} [DecidableEq α] (k : α) (v : β) (l : List (α × β))
    (k2 : α) (h : ∃ v2, (k2, v2) ∈ l) : ∃ v2, (k2, v2) ∈ assign k v l := by
  by_cases hk : k2 = k
  · subst hk
    exact ⟨v, key_mem_assign _ _ _⟩
  · obtain ⟨v2, hv2⟩ := h
    refine ⟨v2, ?_⟩
    induction l with
    | nil => exact absurd hv2 (List.not_mem_nil _)
    | cons x l ih =>
      unfold assign
      split_ifs with hx
      · rcases List.mem_cons.mp hv2 with h | h
        · rw [← h] at hx
          exact absurd hx.symm (fun h2 => hk h2.symm)
        · exact List.mem_cons_of_mem _ h
      · rcases List.mem_cons.mp hv2 with h | h
        · exact h ▸ List.mem_cons_self _ _
        · exact List.mem_cons_of_mem _ (ih h)

theorem find_entry_assign_self {α β : Type} [DecidableEq α] (k : α) (v : β)
    (l : List (α × β)) : find_entry k (assign k v l) = some v := by
  induction l with
  | nil => simp [assign, find_entry]
  | cons x l ih =>
    unfold assign
    split_ifs with hx
    · simp [find_entry]
    · simp [find_entry, hx, ih]

theorem find_entry_mem {α β : Type} [DecidableEq α] (k : α) (v : β) (l : List (α × β))
    (h : find_entry k l = some v) : (k, v) ∈ l := by
  induction l with
  | nil => simp [find_entry] at h
  | cons x l ih =>
    unfold find_entry at h
    split_ifs at h with hx
    · have : x = (k, v) := by
        cases x
        simp only [Option.some.injEq] at h
        simp only at hx
        rw [hx, h]
      exact this ▸ List.mem_cons_self _ _
    · exact List.mem_cons_of_mem _ (ih h)

/-! ## Numerals and fractions -/

theorem isdigit_iff {c : Nat} : isdigit c = true ↔ 48 ≤ c ∧ c ≤ 57 := by
  unfold isdigit
  simp

theorem stoi_numeral (ns : List Nat) (h : numeral ns) :
    stoi ns = .ok (digits_value ns : Int) := by
  obtain ⟨hne, hd, hv⟩ := h
  cases ns with
  | nil => exact absurd rfl hne
  | cons c cs =>
    have hc := isdigit_iff.mp (hd c (List.mem_cons_self c cs))
    have hsp : isspace c = false := by
      unfold isspace
      simp
      omega
    have hdrop : (c :: cs).dropWhile isspace = c :: cs := by
      simp [List.dropWhile, hsp]
    have htake : (c :: cs).takeWhile isdigit = c :: cs :=
      List.takeWhile_eq_self_iff.mpr hd
    have h45 : ((c :: cs).head? == some 45) = false := by
      simp
      omega
    have h43 : ((c :: cs).head? == some 43) = false := by
      simp
      omega
    unfold stoi
    simp only [hdrop, h45, h43, Bool.false_eq_true, or_self, if_false, htake]
    rw [if_neg (by simp), if_neg (by omega)]

theorem to_uint32_natCast (n : Nat) (h : n < 4294967296) : to_uint32 (n : Int) = n := by
  unfold to_uint32
  omega

theorem parse_fraction_numerals (ns ds : List Nat) (hn : numeral ns) (hd : numeral ds) :
    parse_fraction (ns ++ 47 :: ds) =
      .ok (some ((digits_value ns : ℚ) / (digits_value ds : ℚ))) := by
  have hnot : (47 : Nat) ∉ ns := by
    intro hmem
    have := isdigit_iff.mp (hn.2.1 47 hmem)
    omega
  have hidx : (ns ++ 47 :: ds).indexOf 47 = ns.length := by
    rw [List.indexOf_append_of_not_mem hnot, List.indexOf_cons_self]
    rfl
  have htake : (ns ++ 47 :: ds).take ns.length = ns := List.take_left' rfl
  have hdrop : (ns ++ 47 :: ds).drop (ns.length + 1) = ds := by
    have : ns ++ 47 :: ds = (ns ++ [47]) ++ ds := by simp
    rw [this]
    exact List.drop_left' (by simp)
  unfold parse_fraction
  simp only [hidx, htake, hdrop, stoi_numeral ns hn, stoi_numeral ds hd]
  rw [if_neg (by simp), to_uint32_natCast _ (by have := hn.2.2; omega),
    to_uint32_natCast _ (by have := hd.2.2; omega)]

/-! ## The loops of the parser -/

theorem set_probabilities_ok (p : ℚ) (words : List (List Nat))
    (hw : ∀ w ∈ words, 1 ≤ w.length ∧ w.length ≤ 5) :
    ∀ m : NgramProbabilityModel, ∃ m2, set_probabilities p words m = .ok m2 ∧
      (∀ e ∈ m2.ngrams_, (e.1 ∈ words ∧ e.2 = p) ∨ e ∈ m.ngrams_) ∧
      (∀ k, (k ∈ words ∨ ∃ v, (k, v) ∈ m.ngrams_) → ∃ v, (k, v) ∈ m2.ngrams_) := by
  induction words with
  | nil =>
    intro m
    refine ⟨m, rfl, fun e he => Or.inr he, ?_⟩
    rintro k (hk | hk)
    · exact absurd hk (List.not_mem_nil _)
    · exact hk
  | cons w ws ih =>
    intro m
    have hlen := hw w (List.mem_cons_self w ws)
    obtain ⟨m2, hm2, hsound, hkeys⟩ :=
      ih (fun x hx => hw x (List.mem_cons_of_mem w hx)) (m.set_probability ⟨w, w.length⟩ p)
    refine ⟨m2, ?_, ?_, ?_⟩
    · rw [set_probabilities, Ngram_new_ok w hlen.1 hlen.2]
      exact hm2
    · intro e he
      rcases hsound e he with h | h
      · exact Or.inl ⟨List.mem_cons_of_mem w h.1, h.2⟩
      · rcases mem_assign _ _ _ _ h with h | h
        · left
          rw [h]
          exact ⟨List.mem_cons_self w ws, rfl⟩
        · exact Or.inr h
    · rintro k (hk | hk)
      · rcases List.mem_cons.mp hk with h | h
        · subst h
          exact hkeys k (Or.inr ⟨p, key_mem_assign _ _ _⟩)
        · exact hkeys k (Or.inl h)
      · exact hkeys k (Or.inr (key_kept_assign _ _ _ k hk))

theorem parse_probability_fields_ok
    (fields : List (List Nat × Except Exception (List Nat)))
    (hwf : ∀ field ∈ fields, ∃ ns ds view, field = (ns ++ 47 :: ds, .ok view) ∧ numeral ns ∧
      numeral ds ∧ digits_value ds ≠ 0 ∧
      ∀ g ∈ extract_words view, 1 ≤ g.length ∧ g.length ≤ 5) :
    ∀ m : NgramProbabilityModel, ∃ m2, parse_probability_fields fields m = .ok m2 ∧
      (∀ e ∈ m2.ngrams_,
        (∃ ns ds view, (ns ++ 47 :: ds, Except.ok view) ∈ fields ∧ numeral ns ∧ numeral ds ∧
          digits_value ds ≠ 0 ∧ e.1 ∈ extract_words view ∧
          e.2 = (digits_value ns : ℚ) / (digits_value ds : ℚ)) ∨ e ∈ m.ngrams_) ∧
      (∀ k, ((∃ key view, (key, Except.ok view) ∈ fields ∧ k ∈ extract_words view) ∨
          ∃ v, (k, v) ∈ m.ngrams_) → ∃ v, (k, v) ∈ m2.ngrams_) := by
  induction fields with
  | nil =>
    intro m
    refine ⟨m, rfl, fun e he => Or.inr he, ?_⟩
    rintro k (⟨_, _, hk, _⟩ | hk)
    · exact absurd hk (List.not_mem_nil _)
    · exact hk
  | cons field fields ih =>
    intro m
    obtain ⟨ns, ds, view, hfield, hns, hds, hds0, hwords⟩ :=
      hwf field (List.mem_cons_self field fields)
    obtain ⟨m1, hm1, hsound1, hkeys1⟩ :=
      set_probabilities_ok ((digits_value ns : ℚ) / (digits_value ds : ℚ))
        (extract_words view) hwords m
    obtain ⟨m2, hm2, hsound2, hkeys2⟩ :=
      ih (fun x hx => hwf x (List.mem_cons_of_mem field hx)) m1
    refine ⟨m2, ?_, ?_, ?_⟩
    · rw [parse_probability_fields, hfield]
      simp only [parse_fraction_numerals ns ds hns hds, hm1]
      exact hm2
    · intro e he
      rcases hsound2 e he with ⟨ns2, ds2, view2, hmem, h⟩ | h
      · exact Or.inl ⟨ns2, ds2, view2, List.mem_cons_of_mem field hmem, h⟩
      · rcases hsound1 e h with h | h
        · exact Or.inl ⟨ns, ds, view, hfield ▸ List.mem_cons_self field fields, hns, hds, hds0,
            h.1, h.2⟩
        · exact Or.inr h
    · rintro k (⟨key, view2, hmem, hk⟩ | hk)
      · rcases List.mem_cons.mp hmem with h | h
        · rw [hfield] at h
          have hv : view2 = view := by
            have := congrArg Prod.snd h
            simpa using this
          subst hv
          exact hkeys2 k (Or.inr (hkeys1 k (Or.inl hk)))
        · exact hkeys2 k (Or.inl ⟨key, view2, h, hk⟩)
      · exact hkeys2 k (Or.inr (hkeys1 k (Or.inr hk)))

/-- C23 as stated fails: for the payload entry "1/2" -> "a b" the stored value of "a" and
of "b" is 1/2, the quotient itself and a value greater than 0, where the natural logarithm
of 1/2 is negative. -/
theorem parse_stores_the_quotient_itself :
    parse_probability_fields [(bytes "1/2", .ok (bytes "a b"))]
        (NgramProbabilityModel.new .ENGLISH)
      = .ok ⟨.ENGLISH, [(bytes "a", 1 / 2), (bytes "b", 1 / 2)]⟩ ∧
    NgramProbabilityModel.get_probability ⟨.ENGLISH, [(bytes "a", 1 / 2), (bytes "b", 1 / 2)]⟩
      ⟨bytes "a", 1⟩ = 1 / 2 ∧
    (0 : ℚ) < 1 / 2 := by
  decide!

/-- C23, amended: every value the loader stores in a probability model is the quotient
`num/den` itself, not its logarithm.  For a payload whose `"ngrams"` object has only
entries `"num/den" -> "g1 g2 ..."` with decimal numerals `num` and `den` below `2^31`,
`den` not 0, and n-grams of 1 to 5 bytes, `parse_probability_model` returns a model; every
value stored in it belongs to an n-gram listed by an entry and is the quotient of that
entry, so it is not negative, and it is greater than 0 when `num` is not 0; and every
n-gram listed by an entry has a stored value. -/
theorem parse_probability_model_stores_quotients (env : Environment)
    (json_content : List Nat) (language : Language)
    (fields : List (List Nat × Except Exception (List Nat)))
    (hjson : env.ngrams_object json_content = .ok fields)
    (hwf : ∀ field ∈ fields, ∃ ns ds view, field = (ns ++ 47 :: ds, .ok view) ∧ numeral ns ∧
      numeral ds ∧ digits_value ds ≠ 0 ∧
      ∀ g ∈ extract_words view, 1 ≤ g.length ∧ g.length ≤ 5) :
    ∃ model, parse_probability_model env json_content language = .ok model ∧
      (∀ e ∈ model.ngrams_, ∃ ns ds view, (ns ++ 47 :: ds, Except.ok view) ∈ fields ∧
        numeral ns ∧ numeral ds ∧ e.1 ∈ extract_words view ∧
        e.2 = (digits_value ns : ℚ) / (digits_value ds : ℚ) ∧ 0 ≤ e.2 ∧
        (digits_value ns ≠ 0 → 0 < e.2)) ∧
      (∀ key view, (key, Except.ok view) ∈ fields → ∀ g ∈ extract_words view,
        ∃ v, (g, v) ∈ model.ngrams_) := by
  obtain ⟨m2, hm2, hsound, hkeys⟩ :=
    parse_probability_fields_ok fields hwf (NgramProbabilityModel.new language)
  refine ⟨m2, ?_, ?_, ?_⟩
  · unfold parse_probability_model
    rw [hjson]
    exact hm2
  · intro e he
    rcases hsound e he with ⟨ns, ds, view, hmem, hns, hds, hds0, hg, hv⟩ | h
    · refine ⟨ns, ds, view, hmem, hns, hds, hg, hv, ?_, ?_⟩
      · rw [hv]
        positivity
      · intro hn0
        rw [hv]
        have h1 : (0 : ℚ) < (digits_value ns : ℚ) := by
          exact_mod_cast Nat.pos_of_ne_zero hn0
        have h2 : (0 : ℚ) < (digits_value ds : ℚ) := by
          exact_mod_cast Nat.pos_of_ne_zero hds0
        exact div_pos h1 h2
    · exact absurd h (List.not_mem_nil _)
  · intro key view hmem g hg
    exact hkeys g (Or.inl ⟨key, view, hmem, hg⟩)

/-- The theorem on stored quotients applied to the payload with the one entry
"1/2" -> "a b". -/
theorem parse_probability_model_stores_quotients_witness :
    (∀ field ∈ [((bytes "1/2", Except.ok (bytes "a b")) :
        List Nat × Except Exception (List Nat))],
      ∃ ns ds view, field = (ns ++ 47 :: ds, .ok view) ∧ numeral ns ∧
        numeral ds ∧ digits_value ds ≠ 0 ∧
        ∀ g ∈ extract_words view, 1 ≤ g.length ∧ g.length ≤ 5) ∧
    ∃ model,
      parse_probability_model
        ⟨fun _ => none, fun _ => none, fun _ => .ok [(bytes "1/2", .ok (bytes "a b"))],
          fun _ => .ok []⟩ [] .ENGLISH = .ok model ∧
      (∀ e ∈ model.ngrams_, ∃ ns ds view,
        (ns ++ 47 :: ds, Except.ok view) ∈
          [((bytes "1/2", Except.ok (bytes "a b")) : List Nat × Except Exception (List Nat))] ∧
        numeral ns ∧ numeral ds ∧ e.1 ∈ extract_words view ∧
        e.2 = (digits_value ns : ℚ) / (digits_value ds : ℚ) ∧ 0 ≤ e.2 ∧
        (digits_value ns ≠ 0 → 0 < e.2)) ∧
      (∀ key view, (key, Except.ok view) ∈
          [((bytes "1/2", Except.ok (bytes "a b")) : List Nat × Except Exception (List Nat))] →
        ∀ g ∈ extract_words view, ∃ v, (g, v) ∈ model.ngrams_) :=
  have hwf : ∀ field ∈ [((bytes "1/2", Except.ok (bytes "a b")) :
      List Nat × Except Exception (List Nat))],
      ∃ ns ds view, field = (ns ++ 47 :: ds, .ok view) ∧ numeral ns ∧
        numeral ds ∧ digits_value ds ≠ 0 ∧
        ∀ g ∈ extract_words view, 1 ≤ g.length ∧ g.length ≤ 5 := by
    intro field hf
    rw [List.mem_singleton] at hf
    subst hf
    refine ⟨bytes "1", bytes "2", bytes "a b", by decide, ?_, ?_, by decide, by decide⟩
    · unfold numeral
      decide
    · unfold numeral
      decide
  ⟨hwf, parse_probability_model_stores_quotients
    ⟨fun _ => none, fun _ => none, fun _ => .ok [(bytes "1/2", .ok (bytes "a b"))],
      fun _ => .ok []⟩ [] .ENGLISH [(bytes "1/2", .ok (bytes "a b"))] rfl hwf⟩

/-! ## The caches of the model loader -/

theorem ngram_length_valid {n : Nat} {name : String}
    (h : get_ngram_name_by_length n = .ok name) : ¬(n < 1 ∨ n > 5) := by
  intro hn
  rcases hn with hn | hn
  · have : n = 0 := by omega
    subst this
    simp [get_ngram_name_by_length] at h
  · obtain ⟨m, rfl⟩ : ∃ m, n = m + 6 := ⟨n - 6, by omega⟩
    simp [get_ngram_name_by_length] at h

theorem load_probability_model_hit (env : Environment) (loader : ModelLoader)
    (language : Language) (n : Nat) (hn : ¬(n < 1 ∨ n > 5))
    (cached : Handle NgramProbabilityModel)
    (h : find_entry (generate_cache_key language n (bytes "probability"))
      loader.probability_model_cache_ = some cached) :
    load_probability_model env loader language n = (loader, .ok cached) := by
  unfold load_probability_model
  simp only [hn, if_false, h]

theorem load_probability_model_miss (env : Environment) (loader : ModelLoader)
    (language : Language) (n : Nat) (hn : ¬(n < 1 ∨ n > 5))
    (h : find_entry (generate_cache_key language n (bytes "probability"))
      loader.probability_model_cache_ = none) :
    load_probability_model env loader language n =
      match read_probability_model env language n with
      | .error e => (loader, .error e)
      | .ok object =>
        ({ loader with
            probability_model_cache_ :=
              assign (generate_cache_key language n (bytes "probability"))
                ⟨loader.allocated_, object⟩ loader.probability_model_cache_,
            allocated_ := loader.allocated_ + 1 },
          .ok ⟨loader.allocated_, object⟩) := by
  unfold load_probability_model
  simp only [hn, if_false, h]

theorem load_count_model_miss (env : Environment) (loader : ModelLoader)
    (language : Language) (n : Nat) (t : NgramModelType) (hn : ¬(n < 1 ∨ n > 5))
    (h : find_entry (generate_cache_key language n (bytes t.to_string))
      loader.count_model_cache_ = none) :
    load_count_model env loader language n t =
      match read_count_model env language n t with
      | .error e => (loader, .error e)
      | .ok object =>
        ({ loader with
            count_model_cache_ :=
              assign (generate_cache_key language n (bytes t.to_string))
                ⟨loader.allocated_, object⟩ loader.count_model_cache_,
            allocated_ := loader.allocated_ + 1 },
          .ok ⟨loader.allocated_, object⟩) := by
  unfold load_count_model
  simp only [hn, if_false, h]

theorem load_probability_model_error (env : Environment) (loader : ModelLoader)
    (language : Language) (n : Nat) (e : Exception)
    (h : (load_probability_model env loader language n).2 = .error e) :
    (load_probability_model env loader language n).1 = loader := by
  unfold load_probability_model at h ⊢
  by_cases hn : n < 1 ∨ n > 5
  · simp only [hn, if_true]
  · simp only [hn, if_false] at h ⊢
    cases hf : find_entry (generate_cache_key language n (bytes "probability"))
        loader.probability_model_cache_ with
    | some cached => simp only [hf]
    | none =>
      simp only [hf] at h ⊢
      cases hr : read_probability_model env language n with
      | error e2 => simp only [hr]
      | ok object =>
        simp only [hr] at h
        exact Except.noConfusion h

theorem load_count_model_error (env : Environment) (loader : ModelLoader)
    (language : Language) (n : Nat) (t : NgramModelType) (e : Exception)
    (h : (load_count_model env loader language n t).2 = .error e) :
    (load_count_model env loader language n t).1 = loader := by
  unfold load_count_model at h ⊢
  by_cases hn : n < 1 ∨ n > 5
  · simp only [hn, if_true]
  · simp only [hn, if_false] at h ⊢
    cases hf : find_entry (generate_cache_key language n (bytes t.to_string))
        loader.count_model_cache_ with
    | some cached => simp only [hf]
    | none =>
      simp only [hf] at h ⊢
      cases hr : read_count_model env language n t with
      | error e2 => simp only [hr]
      | ok object =>
        simp only [hr] at h
        exact Except.noConfusion h

/-- C25: after a successful `load_probability_model(language, n)`, a second call with the
same arguments returns the same handle and leaves the loader as it is, whatever the file
system holds by then, so it does not load again; `clear_cache()` empties both caches; and
the next call reads and parses the file again: its result is decided by what is read
then, and a model it returns is a new object, at an address other than that of the first
handle. -/
theorem load_probability_model_cached (env : Environment) (loader loader1 : ModelLoader)
    (language : Language) (n : Nat) (model : Handle NgramProbabilityModel)
    (hinv : loader.addresses_allocated)
    (hload : load_probability_model env loader language n = (loader1, .ok model)) :
    (∀ env2, load_probability_model env2 loader1 language n = (loader1, .ok model)) ∧
    loader1.clear_cache.probability_model_cache_ = [] ∧
    loader1.clear_cache.count_model_cache_ = [] ∧
    (∀ env3, (load_probability_model env3 loader1.clear_cache language n).2 =
      match read_probability_model env3 language n with
      | .error e => .error e
      | .ok object => .ok ⟨loader1.allocated_, object⟩) ∧
    (∀ env3 loader3 model3,
      load_probability_model env3 loader1.clear_cache language n = (loader3, .ok model3) →
        model3.address ≠ model.address ∧
        find_entry (generate_cache_key language n (bytes "probability"))
          loader3.probability_model_cache_ = some model3) := by
  have hn : ¬(n < 1 ∨ n > 5) := by
    intro hn
    unfold load_probability_model at hload
    simp only [hn, if_true] at hload
    exact Except.noConfusion (Prod.mk.inj hload).2
  have hclear : find_entry (generate_cache_key language n (bytes "probability"))
      loader1.clear_cache.probability_model_cache_ = none := rfl
  have hfacts : find_entry (generate_cache_key language n (bytes "probability"))
      loader1.probability_model_cache_ = some model ∧ model.address < loader1.allocated_ := by
    cases hf : find_entry (generate_cache_key language n (bytes "probability"))
        loader.probability_model_cache_ with
    | some cached =>
      rw [load_probability_model_hit env loader language n hn cached hf] at hload
      obtain ⟨h1, h2⟩ := Prod.mk.inj hload
      have h3 : cached = model := Except.ok.inj h2
      subst h1
      subst h3
      exact ⟨hf, hinv.1 _ (find_entry_mem _ _ _ hf)⟩
    | none =>
      rw [load_probability_model_miss env loader language n hn hf] at hload
      cases hr : read_probability_model env language n with
      | error e =>
        simp only [hr] at hload
        exact Except.noConfusion (Prod.mk.inj hload).2
      | ok object =>
        simp only [hr] at hload
        obtain ⟨h1, h2⟩ := Prod.mk.inj hload
        have h3 := Except.ok.inj h2
        subst h1
        subst h3
        exact ⟨find_entry_assign_self _ _ _, Nat.lt_succ_self _⟩
  refine ⟨fun env2 => load_probability_model_hit env2 loader1 language n hn model hfacts.1,
    rfl, rfl, ?_, ?_⟩
  · intro env3
    rw [load_probability_model_miss env3 loader1.clear_cache language n hn hclear]
    cases read_probability_model env3 language n <;> rfl
  · intro env3 loader3 model3 h3
    rw [load_probability_model_miss env3 loader1.clear_cache language n hn hclear] at h3
    cases hr : read_probability_model env3 language n with
    | error e =>
      simp only [hr] at h3
      exact Except.noConfusion (Prod.mk.inj h3).2
    | ok object =>
      simp only [hr] at h3
      obtain ⟨h4, h5⟩ := Prod.mk.inj h3
      have h6 := Except.ok.inj h5
      subst h4
      subst h6
      refine ⟨?_, find_entry_assign_self _ _ _⟩
      have := hfacts.2
      show loader1.allocated_ ≠ model.address
      omega

/-- The theorem on the cache applied: the first load of the English unigram model by a new
loader, with the model files present, returns the object at address 0. -/
theorem load_probability_model_cached_witness :
    ModelLoader.get_instance.addresses_allocated ∧
    (load_probability_model Environment.with_models ModelLoader.get_instance .ENGLISH 1).2 =
      .ok ⟨0, ⟨.ENGLISH, [(bytes "a", 1 / 2)]⟩⟩ ∧
    (∀ env2, load_probability_model env2
        (load_probability_model Environment.with_models ModelLoader.get_instance .ENGLISH 1).1
        .ENGLISH 1 =
      ((load_probability_model Environment.with_models ModelLoader.get_instance .ENGLISH 1).1,
        .ok ⟨0, ⟨.ENGLISH, [(bytes "a", 1 / 2)]⟩⟩)) :=
  ⟨⟨fun _ h => absurd h (List.not_mem_nil _), fun _ h => absurd h (List.not_mem_nil _)⟩,
    by decide!,
    (load_probability_model_cached Environment.with_models ModelLoader.get_instance
      (load_probability_model Environment.with_models ModelLoader.get_instance .ENGLISH 1).1
      .ENGLISH 1 ⟨0, ⟨.ENGLISH, [(bytes "a", 1 / 2)]⟩⟩
      ⟨fun _ h => absurd h (List.not_mem_nil _), fun _ h => absurd h (List.not_mem_nil _)⟩
      (by decide!)).1⟩

/-! ## Failing loads, and loads that run at the same time -/

theorem load_and_decompress_model_fails (env : Environment) (path : List Nat)
    (h : env.open_file path = none ∨
      ∃ data, env.open_file path = some data ∧ env.BrotliDecoderDecompress data = none) :
    load_and_decompress_model env path = .error .runtime_error := by
  unfold load_and_decompress_model
  rcases h with h | ⟨data, h1, h2⟩
  · simp only [h]
  · simp only [h1, h2]

/-- C26 on the code: when the model file cannot be opened or cannot be decompressed, a
call of `load_probability_model` or of `load_count_model` that misses the cache fails with
`std::runtime_error`, which is not a `ModelLoadException`; the part of the statement on the
caches holds, every failing call leaves the loader, both caches included, exactly as it
was, so a later call finds the same miss and reads the file again. -/
theorem load_failure_is_runtime_error (env : Environment) (loader : ModelLoader)
    (language : Language) (n : Nat) (t : NgramModelType) (name : String)
    (hname : get_ngram_name_by_length n = .ok name) :
    (find_entry (generate_cache_key language n (bytes "probability"))
        loader.probability_model_cache_ = none →
      (env.open_file (model_file_path language (bytes name ++ bytes "s.json.br")) = none ∨
        ∃ data, env.open_file (model_file_path language (bytes name ++ bytes "s.json.br"))
            = some data ∧ env.BrotliDecoderDecompress data = none) →
      load_probability_model env loader language n = (loader, .error .runtime_error)) ∧
    (find_entry (generate_cache_key language n (bytes t.to_string))
        loader.count_model_cache_ = none →
      (env.open_file (model_file_path language
          (bytes t.to_string ++ bytes "_" ++ bytes name ++ bytes "s.json.br")) = none ∨
        ∃ data, env.open_file (model_file_path language
            (bytes t.to_string ++ bytes "_" ++ bytes name ++ bytes "s.json.br")) = some data ∧
          env.BrotliDecoderDecompress data = none) →
      load_count_model env loader language n t = (loader, .error .runtime_error)) ∧
    (∀ e, (load_probability_model env loader language n).2 = .error e →
      (load_probability_model env loader language n).1 = loader) ∧
    (∀ e, (load_count_model env loader language n t).2 = .error e →
      (load_count_model env loader language n t).1 = loader) ∧
    Exception.runtime_error ≠ Exception.ModelLoadException := by
  have hn := ngram_length_valid hname
  refine ⟨?_, ?_, load_probability_model_error env loader language n,
    load_count_model_error env loader language n t, by decide⟩
  · intro hmiss hfile
    rw [load_probability_model_miss env loader language n hn hmiss]
    unfold read_probability_model
    simp only [hname, load_and_decompress_model_fails env _ hfile]
  · intro hmiss hfile
    rw [load_count_model_miss env loader language n t hn hmiss]
    unfold read_count_model
    simp only [hname, load_and_decompress_model_fails env _ hfile]

/-- The theorem on failing loads applied: a new loader, no model file, the English unigram
models. -/
theorem load_failure_is_runtime_error_witness :
    get_ngram_name_by_length 1 = .ok "unigram" ∧
    load_probability_model Environment.without_models ModelLoader.get_instance .ENGLISH 1 =
      (ModelLoader.get_instance, .error .runtime_error) ∧
    load_count_model Environment.without_models ModelLoader.get_instance .ENGLISH 1 .UNIQUE =
      (ModelLoader.get_instance, .error .runtime_error) :=
  ⟨rfl,
    (load_failure_is_runtime_error Environment.without_models ModelLoader.get_instance
      .ENGLISH 1 .UNIQUE "unigram" rfl).1 rfl (Or.inl rfl),
    (load_failure_is_runtime_error Environment.without_models ModelLoader.get_instance
      .ENGLISH 1 .UNIQUE "unigram" rfl).2.1 rfl (Or.inl rfl)⟩

/-- The three steps of a call, taken one after the other with no other call in between,
are the method `load_probability_model`. -/
theorem three_steps_eq_load (env : Environment) (loader : ModelLoader) (language : Language)
    (n : Nat) (other : Call) :
    run_two_calls env language n [false, false, false] (loader, .entered, other) =
      ((load_probability_model env loader language n).1,
        .returned (load_probability_model env loader language n).2, other) := by
  simp only [run_two_calls]
  unfold load_probability_model
  by_cases hn : n < 1 ∨ n > 5
  · simp only [Call.step, hn, if_true]
  · simp only [Call.step, hn, if_false]
    cases hf : find_entry (generate_cache_key language n (bytes "probability"))
        loader.probability_model_cache_ with
    | some cached => simp only [Call.step]
    | none =>
      simp only [Call.step]
      cases hr : read_probability_model env language n with
      | error e => simp only [Call.step]
      | ok object => simp only [Call.step]

/-- C27 on the code: two calls of `load_probability_model` with the same arguments that
both run the cache lookup before either stores are not coalesced.  Both miss, both read and
parse the file, so two model objects are created, and the two calls return handles to
different objects; the second store replaces the first.  When one call ends before the
other begins, both return the same handle. -/
theorem concurrent_loads_not_coalesced (env : Environment) (loader : ModelLoader)
    (language : Language) (n : Nat) (object : NgramProbabilityModel)
    (hn : 1 ≤ n ∧ n ≤ 5)
    (hmiss : find_entry (generate_cache_key language n (bytes "probability"))
      loader.probability_model_cache_ = none)
    (hread : read_probability_model env language n = .ok object) :
    run_two_calls env language n [false, true, false, true, false, true]
        (loader, .entered, .entered) =
      ({ loader with
          probability_model_cache_ :=
            assign (generate_cache_key language n (bytes "probability"))
              ⟨loader.allocated_ + 1, object⟩
              (assign (generate_cache_key language n (bytes "probability"))
                ⟨loader.allocated_, object⟩ loader.probability_model_cache_),
          allocated_ := loader.allocated_ + 2 },
        .returned (.ok ⟨loader.allocated_, object⟩),
        .returned (.ok ⟨loader.allocated_ + 1, object⟩)) ∧
    (⟨loader.allocated_, object⟩ : Handle NgramProbabilityModel).address ≠
      (⟨loader.allocated_ + 1, object⟩ : Handle NgramProbabilityModel).address ∧
    run_two_calls env language n [false, false, false, true, true, true]
        (loader, .entered, .entered) =
      ({ loader with
          probability_model_cache_ :=
            assign (generate_cache_key language n (bytes "probability"))
              ⟨loader.allocated_, object⟩ loader.probability_model_cache_,
          allocated_ := loader.allocated_ + 1 },
        .returned (.ok ⟨loader.allocated_, object⟩),
        .returned (.ok ⟨loader.allocated_, object⟩)) := by
  have hnv : ¬(n < 1 ∨ n > 5) := by omega
  refine ⟨?_, ?_, ?_⟩
  · simp only [run_two_calls, Call.step, hnv, if_false, hmiss, hread]
  · show loader.allocated_ ≠ loader.allocated_ + 1
    omega
  · simp only [run_two_calls, Call.step, hnv, if_false, hmiss, hread, find_entry_assign_self]

/-- The theorem on two calls applied: a new loader, the model files present, the English
unigram model; the calls return the objects at the addresses 0 and 1. -/
theorem concurrent_loads_not_coalesced_witness :
    read_probability_model Environment.with_models .ENGLISH 1 =
      .ok ⟨.ENGLISH, [(bytes "a", 1 / 2)]⟩ ∧
    run_two_calls Environment.with_models .ENGLISH 1 [false, true, false, true, false, true]
        (ModelLoader.get_instance, .entered, .entered) =
      (⟨[(bytes "ENGLISH_1_probability", ⟨1, ⟨.ENGLISH, [(bytes "a", 1 / 2)]⟩⟩)], [], 2⟩,
        .returned (.ok ⟨0, ⟨.ENGLISH, [(bytes "a", 1 / 2)]⟩⟩),
        .returned (.ok ⟨1, ⟨.ENGLISH, [(bytes "a", 1 / 2)]⟩⟩)) :=
  ⟨by decide!,
    (concurrent_loads_not_coalesced Environment.with_models ModelLoader.get_instance
      .ENGLISH 1 ⟨.ENGLISH, [(bytes "a", 1 / 2)]⟩ ⟨by decide, by decide⟩ rfl
      (by decide!)).1.trans (by decide!)⟩

/-! ## Tokens, whitespace, digits and punctuation -/

theorem pending_tokens_eq_runs (text : List Nat) : ∀ current_token : List Nat,
    pending_tokens text current_token =
      (((text.splitOnP isspace).modifyHead (fun run => current_token ++ run)).filter
        (fun run => !run.isEmpty)) := by
  induction text with
  | nil =>
    intro cur
    cases cur <;> simp [pending_tokens, List.splitOnP_nil, List.modifyHead]
  | cons c rest ih =>
    intro cur
    rw [List.splitOnP_cons, pending_tokens]
    by_cases hc : isspace c = true
    · simp only [hc, if_true]
      have h0 := ih []
      have hid : (List.splitOnP isspace rest).modifyHead (fun run => [] ++ run) =
          List.splitOnP isspace rest := by
        cases List.splitOnP isspace rest <;> simp [List.modifyHead]
      rw [hid] at h0
      cases cur with
      | nil => simp [List.modifyHead, h0]
      | cons x xs => simp [List.modifyHead, h0]
    · simp only [hc, Bool.false_eq_true, if_false]
      rw [ih (cur ++ [c])]
      cases List.splitOnP isspace rest <;> simp [List.modifyHead]

theorem tokenize_eq_runs (text : List Nat) : tokenize text = non_whitespace_runs text := by
  rw [tokenize_eq_pending, pending_tokens_eq_runs]
  unfold non_whitespace_runs
  cases List.splitOnP isspace text <;> simp [List.modifyHead]

/-- C31: `tokenize` returns exactly the maximal runs of non-whitespace bytes of the text, in
their order; every token is not empty and holds no whitespace byte; punctuation stays with
its word, as in "Hello, world!"; and the result is empty if and only if every byte of the
text is whitespace, which includes the empty text. -/
theorem tokenize_spec (text : List Nat) :
    tokenize text = non_whitespace_runs text ∧
    (∀ token ∈ tokenize text, token ≠ [] ∧ ∀ b ∈ token, isspace b = false) ∧
    (tokenize text = [] ↔ ∀ c ∈ text, isspace c = true) ∧
    tokenize (bytes "Hello, world!") = [bytes "Hello,", bytes "world!"] ∧
    tokenize (bytes "  Hello   world  ") = [bytes "Hello", bytes "world"] := by
  refine ⟨tokenize_eq_runs text, ?_, tokenize_eq_nil text, by decide, by decide⟩
  intro token ht
  rw [tokenize_eq_pending] at ht
  exact ⟨pending_tokens_ne_nil text [] token ht,
    pending_tokens_no_space text [] (fun b hb => absurd hb (List.not_mem_nil _)) token ht⟩

/-- C33: `remove_numbers` deletes exactly the bytes `0`..`9` and `remove_punctuation`
exactly the ASCII punctuation bytes, the bytes 33..47, 58..64, 91..96 and 123..126; every
other byte stays, in its order, and no whitespace byte is a digit or punctuation.  The text
"Hello 123 world 456" becomes "Hello  world ". -/
theorem remove_numbers_and_punctuation_spec (t : List Nat) :
    remove_numbers t = t.filter (fun c => !decide (48 ≤ c ∧ c ≤ 57)) ∧
    remove_punctuation t = t.filter (fun c => !decide ((33 ≤ c ∧ c ≤ 47) ∨ (58 ≤ c ∧ c ≤ 64) ∨
      (91 ≤ c ∧ c ≤ 96) ∨ (123 ≤ c ∧ c ≤ 126))) ∧
    (∀ c, isspace c = true → isdigit c = false ∧ ispunct c = false) ∧
    remove_numbers (bytes "Hello 123 world 456") = bytes "Hello  world " ∧
    remove_punctuation (bytes "Hello, world!") = bytes "Hello world" := by
  refine ⟨?_, ?_, ?_, by decide, by decide⟩
  · rw [remove_numbers_eq]
    apply List.filter_congr
    intro c _
    simp [isdigit]
  · rw [remove_punctuation_eq]
    apply List.filter_congr
    intro c _
    simp only [ispunct]
    by_cases h1 : 33 ≤ c ∧ c ≤ 47 <;> by_cases h2 : 58 ≤ c ∧ c ≤ 64 <;>
      by_cases h3 : 91 ≤ c ∧ c ≤ 96 <;> by_cases h4 : 123 ≤ c ∧ c ≤ 126 <;>
      first
        | (simp [h1, h2, h3, h4]; done)
        | (simp [h1, h2, h3, h4]; omega)
  · intro c hc
    unfold isspace at hc
    unfold isdigit ispunct
    simp at hc ⊢
    omega

/-! ## The joined tokens -/

theorem chain_of_no_space (w : List Nat) (hw : ∀ b ∈ w, isspace b = false) :
    List.Chain' (fun a b => ¬(isspace a = true ∧ isspace b = true)) w := by
  induction w with
  | nil => exact List.chain'_nil
  | cons x xs ih =>
    rw [List.chain'_cons']
    refine ⟨?_, ih (fun b hb => hw b (List.mem_cons_of_mem x hb))⟩
    intro y _ h
    rw [hw x (List.mem_cons_self x xs)] at h
    exact Bool.false_ne_true h.1

theorem join_words_head (words : List (List Nat)) (hne : ∀ w ∈ words, w ≠ [])
    (hns : ∀ w ∈ words, ∀ b ∈ w, isspace b = false) :
    ∀ y ∈ (join_words words).head?, isspace y = false := by
  intro y hy
  cases words with
  | nil => simp [join_words] at hy
  | cons w rest =>
    have hw := hne w (List.mem_cons_self w rest)
    have hws := hns w (List.mem_cons_self w rest)
    cases w with
    | nil => exact absurd rfl hw
    | cons x xs =>
      have : y = x := by
        cases rest with
        | nil => simpa [join_words] using hy.symm
        | cons n r => simpa [join_words] using hy.symm
      rw [this]
      exact hws x (List.mem_cons_self x xs)

theorem join_words_last (words : List (List Nat)) (hne : ∀ w ∈ words, w ≠ [])
    (hns : ∀ w ∈ words, ∀ b ∈ w, isspace b = false) :
    ∀ y ∈ (join_words words).getLast?, isspace y = false := by
  induction words with
  | nil => intro y hy; simp [join_words] at hy
  | cons w rest ih =>
    intro y hy
    have hw := hne w (List.mem_cons_self w rest)
    have hws := hns w (List.mem_cons_self w rest)
    cases rest with
    | nil =>
      rw [join_words] at hy
      exact hws y (List.mem_of_mem_getLast? hy)
    | cons n r =>
      rw [join_words] at hy
      have hj : join_words (n :: r) ≠ [] := by
        have hn := hne n (List.mem_cons_of_mem w (List.mem_cons_self n r))
        cases n with
        | nil => exact absurd rfl hn
        | cons a as => cases r <;> simp [join_words]
      have e : (w ++ 32 :: join_words (n :: r)).getLast? = (join_words (n :: r)).getLast? := by
        rw [List.getLast?_append_of_ne_nil _ (by simp)]
        obtain ⟨a, as, hJ⟩ := List.exists_cons_of_ne_nil hj
        rw [hJ, List.getLast?_cons_cons]
      rw [e] at hy
      exact ih (fun x hx => hne x (List.mem_cons_of_mem w hx))
        (fun x hx => hns x (List.mem_cons_of_mem w hx)) y hy

theorem join_words_chain (words : List (List Nat)) (hne : ∀ w ∈ words, w ≠ [])
    (hns : ∀ w ∈ words, ∀ b ∈ w, isspace b = false) :
    List.Chain' (fun a b => ¬(isspace a = true ∧ isspace b = true)) (join_words words) := by
  induction words with
  | nil => exact List.chain'_nil
  | cons w rest ih =>
    have hws := hns w (List.mem_cons_self w rest)
    cases rest with
    | nil =>
      rw [join_words]
      exact chain_of_no_space w hws
    | cons n r =>
      have hne2 : ∀ x ∈ n :: r, x ≠ [] := fun x hx => hne x (List.mem_cons_of_mem w hx)
      have hns2 : ∀ x ∈ n :: r, ∀ b ∈ x, isspace b = false :=
        fun x hx => hns x (List.mem_cons_of_mem w hx)
      rw [join_words, List.chain'_append]
      refine ⟨chain_of_no_space w hws, ?_, ?_⟩
      · rw [List.chain'_cons']
        refine ⟨?_, ih hne2 hns2⟩
        intro y hy h
        rw [join_words_head (n :: r) hne2 hns2 y hy] at h
        exact Bool.false_ne_true h.2
      · intro x hx y _ h
        rw [hws x (List.mem_of_mem_getLast? hx)] at h
        exact Bool.false_ne_true h.1

theorem mem_join_words_space (words : List (List Nat))
    (hns : ∀ w ∈ words, ∀ b ∈ w, isspace b = false) :
    ∀ b ∈ join_words words, isspace b = true → b = 32 := by
  induction words with
  | nil => intro b hb; simp [join_words] at hb
  | cons w rest ih =>
    intro b hb hsp
    have hws := hns w (List.mem_cons_self w rest)
    cases rest with
    | nil =>
      rw [join_words] at hb
      rw [hws b hb] at hsp
      exact absurd hsp Bool.false_ne_true
    | cons n r =>
      rw [join_words, List.mem_append, List.mem_cons] at hb
      rcases hb with hb | hb | hb
      · rw [hws b hb] at hsp
        exact absurd hsp Bool.false_ne_true
      · exact hb
      · exact ih (fun x hx => hns x (List.mem_cons_of_mem w hx)) b hb hsp

/-- C38: `remove_extra_whitespace(t)` is the list of the tokens of `tokenize(t)` joined by
single spaces.  So its first and its last byte are not whitespace, no two neighbouring
bytes are both whitespace, the only whitespace byte in it is the space, and applying the
function twice gives the same as applying it once. -/
theorem remove_extra_whitespace_spec (t : List Nat) :
    remove_extra_whitespace t = join_words (tokenize t) ∧
    (∀ b ∈ (remove_extra_whitespace t).head?, isspace b = false) ∧
    (∀ b ∈ (remove_extra_whitespace t).getLast?, isspace b = false) ∧
    List.Chain' (fun a b => ¬(isspace a = true ∧ isspace b = true))
      (remove_extra_whitespace t) ∧
    (∀ b ∈ remove_extra_whitespace t, isspace b = true → b = 32) ∧
    remove_extra_whitespace (remove_extra_whitespace t) = remove_extra_whitespace t ∧
    remove_extra_whitespace (bytes "  Hello \t\n  world  ") = bytes "Hello world" := by
  have hne : ∀ w ∈ tokenize t, w ≠ [] := by
    intro w hw
    rw [tokenize_eq_pending] at hw
    exact pending_tokens_ne_nil t [] w hw
  have hns : ∀ w ∈ tokenize t, ∀ b ∈ w, isspace b = false := by
    intro w hw
    rw [tokenize_eq_pending] at hw
    exact pending_tokens_no_space t [] (fun b hb => absurd hb (List.not_mem_nil _)) w hw
  rw [remove_extra_whitespace_eq_join t]
  refine ⟨rfl, join_words_head _ hne hns, join_words_last _ hne hns,
    join_words_chain _ hne hns, mem_join_words_space _ hns, ?_, by decide⟩
  rw [← remove_extra_whitespace_eq_join t]
  exact remove_extra_whitespace_idempotent t

/-! ## Texts of whitespace only -/

theorem std_sort_map_zero_sorted (l : List Language) :
    (std_sort confidence_order (l.map fun language => (language, (0 : ℚ)))).Pairwise
      (fun a b => a.1.value ≤ b.1.value) := by
  have hs := std_sort_sorted (l.map fun language => (language, (0 : ℚ)))
  have hz : ∀ e ∈ std_sort confidence_order (l.map fun language => (language, (0 : ℚ))),
      e.2 = 0 := by
    intro e he
    have := (std_sort_perm confidence_order _).subset he
    obtain ⟨x, _, rfl⟩ := List.mem_map.mp this
    rfl
  refine (List.Pairwise.and_mem.mp hs).imp ?_
  rintro a b ⟨ha, hb, hab⟩
  unfold not_after at hab
  rw [confidence_order_false_iff] at hab
  rcases hab with h | ⟨_, hle⟩
  · rw [hz a ha, hz b hb] at h
    exact absurd h (lt_irrefl _)
  · exact hle

/-- C36: for a text that is not empty and holds only whitespace, the confidence values
list the configured languages, each with confidence 0, in the order of the enumeration,
which is the alphabetical order of the tags; and `detect_language_of` returns nothing, also
for a detector with a single language. -/
theorem whitespace_text_confidence_values (d : LanguageDetector) (text : List Nat)
    (ht : text ≠ []) (hall : ∀ c ∈ text, isspace c = true) :
    compute_language_confidence_values d text =
      std_sort confidence_order (d.languages_.map fun language => (language, 0)) ∧
    ((compute_language_confidence_values d text).map Prod.fst).Perm d.languages_ ∧
    (∀ e ∈ compute_language_confidence_values d text, e.2 = 0) ∧
    (compute_language_confidence_values d text).Pairwise
      (fun a b => a.1.value ≤ b.1.value ∧
        bytes (to_string a.1) ≤ bytes (to_string b.1)) ∧
    detect_language_of d text = none := by
  have hw : tokenize text = [] := (tokenize_eq_nil text).mpr hall
  have heq : compute_language_confidence_values d text =
      std_sort confidence_order (d.languages_.map fun language => (language, 0)) := by
    by_cases hl : d.languages_ = []
    · unfold compute_language_confidence_values
      simp [hl, std_sort]
    · exact confidence_values_eq_of_no_word d text ht hl hw
  refine ⟨heq, confidence_values_languages d text ht, ?_, ?_,
    detect_language_of_whitespace d text hall⟩
  · intro e he
    rw [heq] at he
    have := (std_sort_perm confidence_order _).subset he
    obtain ⟨x, _, rfl⟩ := List.mem_map.mp this
    rfl
  · rw [heq]
    refine (std_sort_map_zero_sorted d.languages_).imp ?_
    intro a b hab
    refine ⟨hab, ?_⟩
    rcases Nat.lt_or_eq_of_le hab with h | h
    · exact le_of_lt ((to_string_lt_iff a.1 b.1).mp h)
    · rw [Language.value_injective h]

/-- The theorem on whitespace texts applied: Spanish alone, text of two spaces. -/
theorem whitespace_text_confidence_values_witness :
    bytes "  " ≠ [] ∧ (∀ c ∈ bytes "  ", isspace c = true) ∧
    compute_language_confidence_values ⟨[.SPANISH], 0, false, true⟩ (bytes "  ") =
      [(.SPANISH, 0)] ∧
    detect_language_of ⟨[.SPANISH], 0, false, true⟩ (bytes "  ") = none :=
  ⟨by decide, by decide,
    (whitespace_text_confidence_values ⟨[.SPANISH], 0, false, true⟩ (bytes "  ") (by decide)
      (by decide)).1.trans (by decide!),
    (whitespace_text_confidence_values ⟨[.SPANISH], 0, false, true⟩ (bytes "  ") (by decide)
      (by decide)).2.2.2.2⟩

/-! ## The probability model as a finite map -/

theorem find_entry_assign_ne {α β : Type} [DecidableEq α] (k k2 : α) (v : β)
    (l : List (α × β)) (h : k2 ≠ k) : find_entry k2 (assign k v l) = find_entry k2 l := by
  induction l with
  | nil => simp [assign, find_entry, Ne.symm h]
  | cons x l ih =>
    unfold assign
    split_ifs with hx
    · simp [find_entry, hx, Ne.symm h]
    · by_cases hx2 : x.1 = k2
      · simp [find_entry, hx2]
      · simp [find_entry, hx2, ih]

theorem length_assign {α β : Type} [DecidableEq α] (k : α) (v : β) (l : List (α × β)) :
    (assign k v l).length = if (find_entry k l).isSome then l.length else l.length + 1 := by
  induction l with
  | nil => simp [assign, find_entry]
  | cons x l ih =>
    unfold assign
    split_ifs with hx h2 h2
    · rfl
    · simp [find_entry, hx] at h2
    · rw [List.length_cons, ih]
      simp only [find_entry, hx, if_false] at h2
      simp [h2]
    · rw [List.length_cons, ih]
      simp only [find_entry, hx, if_false] at h2
      simp [h2]

/-- C34: `NgramProbabilityModel` behaves as a finite map.  After `set_probability(g, p)`,
`get_probability(g)` is `p` and `contains(g)` holds; `get_probability` and `contains` of
every n-gram with another value are as before; `size()` is one more than before when `g`
was absent and the same otherwise; and `get_probability` of an absent n-gram is 0. -/
theorem probability_model_finite_map (m : NgramProbabilityModel) (g : Ngram) (p : ℚ) :
    (m.set_probability g p).get_probability g = p ∧
    (m.set_probability g p).contains g = true ∧
    (∀ h : Ngram, h.value_ ≠ g.value_ →
      (m.set_probability g p).get_probability h = m.get_probability h ∧
      (m.set_probability g p).contains h = m.contains h) ∧
    (m.set_probability g p).size = (if m.contains g then m.size else m.size + 1) ∧
    (∀ h : Ngram, m.contains h = false → m.get_probability h = 0) ∧
    (m.set_probability g p).get_language = m.get_language := by
  refine ⟨?_, ?_, ?_, ?_, ?_, rfl⟩
  · unfold NgramProbabilityModel.get_probability NgramProbabilityModel.set_probability
    simp only [find_entry_assign_self]
  · unfold NgramProbabilityModel.contains NgramProbabilityModel.set_probability
    simp only [find_entry_assign_self, Option.isSome_some]
  · intro h hne
    unfold NgramProbabilityModel.get_probability NgramProbabilityModel.contains
      NgramProbabilityModel.set_probability
    simp only [find_entry_assign_ne _ _ _ _ hne, and_self]
  · unfold NgramProbabilityModel.size NgramProbabilityModel.contains
      NgramProbabilityModel.set_probability
    simp only [length_assign]
  · intro h hc
    unfold NgramProbabilityModel.contains at hc
    unfold NgramProbabilityModel.get_probability
    cases hf : find_entry h.value_ m.ngrams_ with
    | none => rfl
    | some v =>
      rw [hf] at hc
      exact absurd hc (by simp)

/-! ## The ranges of the scripts -/

theorem mem_get_char_set (a : Alphabet) (c : Nat) :
    c ∈ get_char_set a ↔ ∃ r ∈ script_ranges a, r.1 ≤ c ∧ c ≤ r.2 := by
  unfold get_char_set CharSet.initialize_from_char_classes
  rw [List.mem_flatMap]
  constructor
  · rintro ⟨r, hr, hc⟩
    rw [List.mem_range'_1] at hc
    exact ⟨r, hr, by omega, by omega⟩
  · rintro ⟨r, hr, h1, h2⟩
    refine ⟨r, hr, ?_⟩
    rw [List.mem_range'_1]
    omega

theorem is_char_match_iff (a : Alphabet) (c : Nat) :
    CharSet.is_char_match (get_char_set a) c = true ↔
      ∃ r ∈ script_ranges a, r.1 ≤ c ∧ c ≤ r.2 := by
  rw [← mem_get_char_set]
  unfold CharSet.is_char_match
  simp

theorem is_char_match_eq_matches_char (a : Alphabet) (c : Nat) :
    CharSet.is_char_match (get_char_set a) c = matches_char a c := by
  rw [Bool.eq_iff_iff, is_char_match_iff]
  unfold matches_char
  rw [List.any_eq_true]
  simp only [Bool.and_eq_true, decide_eq_true_eq]

theorem script_ranges_disjoint :
    ∀ a b : Alphabet, a ≠ b →
      ∀ r ∈ script_ranges a, ∀ s ∈ script_ranges b, r.2 < s.1 ∨ s.2 < r.1 := by
  decide!

/-- C40: the script classifier is unambiguous.  A code point is in the character set of an
alphabet exactly when it lies in one of the ranges listed for the script; the ranges of two
different scripts never overlap; so no code point is in the character sets of two
alphabets. -/
theorem script_classifier_unambiguous (a b : Alphabet) (c : Nat) :
    (CharSet.is_char_match (get_char_set a) c = true ↔
      ∃ r ∈ script_ranges a, r.1 ≤ c ∧ c ≤ r.2) ∧
    (a ≠ b → ∀ r ∈ script_ranges a, ∀ s ∈ script_ranges b, r.2 < s.1 ∨ s.2 < r.1) ∧
    (CharSet.is_char_match (get_char_set a) c = true →
      CharSet.is_char_match (get_char_set b) c = true → a = b) ∧
    matches_char a c = CharSet.is_char_match (get_char_set a) c := by
  refine ⟨is_char_match_iff a c, script_ranges_disjoint a b, ?_,
    (is_char_match_eq_matches_char a c).symm⟩
  intro h1 h2
  by_contra hab
  obtain ⟨r, hr, hr1, hr2⟩ := (is_char_match_iff a c).mp h1
  obtain ⟨s, hs, hs1, hs2⟩ := (is_char_match_iff b c).mp h2
  rcases script_ranges_disjoint a b hab r hr s hs with h | h <;> omega

/-- The script theorem applied to the code point U+3042 (Hiragana A): it is in the
character set of Hiragana and of no other alphabet. -/
theorem script_classifier_unambiguous_witness :
    CharSet.is_char_match (get_char_set .HIRAGANA) 0x3042 = true ∧
    (Alphabet.HIRAGANA ≠ Alphabet.KATAKANA →
      ∀ r ∈ script_ranges .HIRAGANA, ∀ s ∈ script_ranges .KATAKANA, r.2 < s.1 ∨ s.2 < r.1) ∧
    CharSet.is_char_match (get_char_set .KATAKANA) 0x3042 = false :=
  ⟨(script_classifier_unambiguous .HIRAGANA .KATAKANA 0x3042).1.mpr
      ⟨(0x3040, 0x309F), by simp [script_ranges], by decide, by decide⟩,
    (script_classifier_unambiguous .HIRAGANA .KATAKANA 0x3042).2.1,
    by decide⟩

/-! ## The order in which the languages are supplied -/

/-- The literals of the keyword scores as values of type `double`, and three values that
the type holds exactly. -/
theorem round_to_double_literals :
    round_to_double (1 / 10) = 3602879701896397 / 36028797018963968 ∧
    round_to_double (1 / 5) = 3602879701896397 / 18014398509481984 ∧
    round_to_double (3 / 10) = 5404319552844595 / 18014398509481984 ∧
    round_to_double (2 / 5) = 3602879701896397 / 9007199254740992 ∧
    round_to_double 1 = 1 ∧ round_to_double 3 = 3 ∧ round_to_double (1 / 2) = 1 / 2 := by
  decide!

theorem Ngram_new_invalid (value : List Nat) (h : value.length < 1 ∨ value.length > 5) :
    Ngram.new value = .error .invalid_argument := by
  unfold Ngram.new validate_length
  simp only
  rw [if_pos h]

theorem Ngram_new_error (value : List Nat) (e : Exception) (h : Ngram.new value = .error e) :
    e = .invalid_argument := by
  by_cases hc : value.length < 1 ∨ value.length > 5
  · rw [Ngram_new_invalid value hc] at h
    exact (Except.error.inj h).symm
  · rw [Ngram_new_ok value (by omega) (by omega)] at h
    exact Except.noConfusion h

theorem Ngram_new_length (value : List Nat) (g : Ngram) (h : Ngram.new value = .ok g) :
    g.value_ = value ∧ 1 ≤ value.length ∧ value.length ≤ 5 := by
  by_cases hc : value.length < 1 ∨ value.length > 5
  · rw [Ngram_new_invalid value hc] at h
    exact Except.noConfusion h
  · rw [Ngram_new_ok value (by omega) (by omega)] at h
    have := Except.ok.inj h
    subst this
    exact ⟨rfl, by omega, by omega⟩

/-- A loop that in every iteration either leaves the list as it is or appends one element
never throws; its result holds only appended elements, and is the initial list when no
iteration can append. -/
theorem foldlM_collect {α β : Type} (f : List β → α → Except Exception (List β))
    (P : β → Prop) (skipped : α → Prop)
    (hf : ∀ acc i, f acc i = .ok acc ∨
      (¬skipped i ∧ ∃ g, P g ∧ f acc i = .ok (acc ++ [g]))) :
    ∀ (indices : List α) (acc : List β), (∀ g ∈ acc, P g) →
      ∃ result, indices.foldlM f acc = .ok result ∧ (∀ g ∈ result, P g) ∧
        ((∀ i ∈ indices, skipped i) → result = acc) := by
  intro indices
  induction indices with
  | nil =>
    intro acc h
    exact ⟨acc, rfl, h, fun _ => rfl⟩
  | cons i rest ih =>
    intro acc h
    rw [List.foldlM_cons]
    rcases hf acc i with hskip | ⟨hns, g, hg, hpush⟩
    · rw [hskip]
      obtain ⟨result, hr, hP, hsame⟩ := ih acc h
      exact ⟨result, hr, hP,
        fun hall => hsame (fun j hj => hall j (List.mem_cons_of_mem i hj))⟩
    · rw [hpush]
      obtain ⟨result, hr, hP, _⟩ := ih (acc ++ [g]) (by
        intro x hx
        rcases List.mem_append.mp hx with hx | hx
        · exact h x hx
        · rw [List.mem_singleton] at hx
          rw [hx]
          exact hg)
      exact ⟨result, hr, hP, fun hall => absurd (hall i (List.mem_cons_self i rest)) hns⟩

/-- For an order in 1..5 `generate_ngrams` returns a list; every n-gram in it has passed
the length check; and the list is empty when every candidate is longer than 5 bytes. -/
theorem generate_ngrams_result (text : List Nat) (n : Nat) (hn : ¬(n < 1 ∨ n > 5)) :
    ∃ result, generate_ngrams text n = .ok result ∧
      (∀ g ∈ result, 1 ≤ g.value_.length ∧ g.value_.length ≤ 5) ∧
      ((∀ i ∈ List.range ((tokenize text).length + 1 - n),
        5 < (ngram_str (tokenize text) i n).length) → result = []) := by
  unfold generate_ngrams
  rw [if_neg hn]
  dsimp only
  split_ifs with h1 h2
  · exact ⟨[], rfl, fun g hg => absurd hg (List.not_mem_nil _), fun _ => rfl⟩
  · exact ⟨[], rfl, fun g hg => absurd hg (List.not_mem_nil _), fun _ => rfl⟩
  · refine foldlM_collect _ (fun g : Ngram => 1 ≤ g.value_.length ∧ g.value_.length ≤ 5)
      (fun i => 5 < (ngram_str (tokenize text) i n).length) ?_ _ []
      (fun g hg => absurd hg (List.not_mem_nil _))
    intro acc i
    dsimp only
    cases hnew : Ngram.new (ngram_str (tokenize text) i n) with
    | ok g =>
      obtain ⟨hv, hl1, hl5⟩ := Ngram_new_length _ g hnew
      right
      refine ⟨by omega, g, ?_, rfl⟩
      rw [hv]
      exact ⟨hl1, hl5⟩
    | error e =>
      have he := Ngram_new_error _ e hnew
      subst he
      left
      rfl

/-- C32: `generate_ngrams(text, n)` throws `std::invalid_argument` exactly when `n < 1` or
`n > 5`, whatever the text, the empty one included: for these `n` it throws, and for every
`n` in 1..5 it returns a list.  For `n` in 1..5 the list is empty when the text is empty or
has fewer than `n` words. -/
theorem generate_ngrams_throws_iff (text : List Nat) (n : Nat) :
    (generate_ngrams text n = .error .invalid_argument ↔ (n < 1 ∨ n > 5)) ∧
    ((∃ e, generate_ngrams text n = .error e) ↔ (n < 1 ∨ n > 5)) ∧
    (1 ≤ n ∧ n ≤ 5 → text = [] ∨ (tokenize text).length < n →
      generate_ngrams text n = .ok []) ∧
    generate_ngrams [] 0 = .error .invalid_argument ∧
    generate_ngrams [] 6 = .error .invalid_argument := by
  have hok : ¬(n < 1 ∨ n > 5) → ∃ result, generate_ngrams text n = .ok result := by
    intro hn
    obtain ⟨result, hr, _⟩ := generate_ngrams_result text n hn
    exact ⟨result, hr⟩
  have hthrow : (n < 1 ∨ n > 5) → generate_ngrams text n = .error .invalid_argument := by
    intro hn
    unfold generate_ngrams
    rw [if_pos hn]
  refine ⟨⟨?_, hthrow⟩, ⟨?_, fun hn => ⟨_, hthrow hn⟩⟩, ?_, by decide, by decide⟩
  · intro h
    by_contra hn
    obtain ⟨result, hr⟩ := hok hn
    rw [hr] at h
    exact Except.noConfusion h
  · rintro ⟨e, h⟩
    by_contra hn
    obtain ⟨result, hr⟩ := hok hn
    rw [hr] at h
    exact Except.noConfusion h
  · intro hn hshort
    unfold generate_ngrams
    rw [if_neg (by omega)]
    dsimp only
    rcases hshort with h | h
    · subst h
      rfl
    · split_ifs with h1 h2
      · rfl
      · rfl
      · exact absurd (Or.inr h) h2

/-! ## The n-grams of order 4 and 5 -/

theorem ngram_str_succ (words : List (List Nat)) (i n : Nat) :
    ngram_str words i (n + 1) =
      (if n > 0 then ngram_str words i n ++ [32] else ngram_str words i n) ++
        words.getD (i + n) [] := by
  unfold ngram_str
  rw [List.range_succ, List.foldl_append]
  rfl

theorem ngram_str_length (words : List (List Nat)) (i : Nat) :
    ∀ n : Nat, (∀ j, j < n + 1 → 1 ≤ (words.getD (i + j) []).length) →
      2 * n + 1 ≤ (ngram_str words i (n + 1)).length := by
  intro n
  induction n with
  | zero =>
    intro h
    rw [ngram_str_succ]
    have := h 0 (by omega)
    simp only [gt_iff_lt, lt_irrefl, if_false, List.length_append]
    omega
  | succ n ih =>
    intro h
    rw [ngram_str_succ]
    have h1 := ih (fun j hj => h j (by omega))
    have h2 := h (n + 1) (by omega)
    rw [if_pos (by omega)]
    simp only [List.length_append, List.length_singleton]
    omega

/-- C37: for `n = 4` and `n = 5`, `generate_ngrams(text, n)` returns the empty list for
every text: `n` words joined by single spaces have at least `2n - 1 >= 7` bytes, more than
the 5 the `Ngram` constructor accepts, and a rejected candidate is skipped.  For every `n`,
each n-gram that is returned has between 1 and 5 bytes.  Order 3 can give an n-gram, as
"a b c" does. -/
theorem generate_ngrams_of_order_four_and_five (text : List Nat) (n : Nat) :
    (n = 4 ∨ n = 5 → generate_ngrams text n = .ok []) ∧
    (∀ ngrams, generate_ngrams text n = .ok ngrams →
      ∀ g ∈ ngrams, 1 ≤ g.value_.length ∧ g.value_.length ≤ 5) ∧
    generate_ngrams (bytes "a b c d e f") 4 = .ok [] ∧
    generate_ngrams (bytes "a b c") 3 = .ok [⟨bytes "a b c", 5⟩] := by
  refine ⟨?_, ?_, by decide, by decide⟩
  · intro hn
    obtain ⟨result, hr, _, hsame⟩ := generate_ngrams_result text n (by omega)
    rw [hr]
    congr 1
    apply hsame
    intro i hi
    rw [List.mem_range] at hi
    obtain ⟨m, rfl⟩ : ∃ m, n = m + 1 := ⟨n - 1, by omega⟩
    have hlen := ngram_str_length (tokenize text) i m (by
      intro j hj
      have hij : i + j < (tokenize text).length := by omega
      rw [List.getD_eq_getElem _ _ hij]
      have hmem : (tokenize text)[i + j] ∈ tokenize text := List.getElem_mem hij
      have hmem2 : (tokenize text)[i + j] ∈ pending_tokens text [] := by
        rw [← tokenize_eq_pending]
        exact hmem
      have hne : (tokenize text)[i + j] ≠ [] := pending_tokens_ne_nil text [] _ hmem2
      exact List.length_pos.mpr hne)
    omega
  · intro ngrams h
    by_cases hn : n < 1 ∨ n > 5
    · have : generate_ngrams text n = .error .invalid_argument := by
        unfold generate_ngrams
        rw [if_pos hn]
      rw [this] at h
      exact Except.noConfusion h
    · obtain ⟨result, hr, hlen, _⟩ := generate_ngrams_result text n hn
      rw [hr] at h
      rw [← Except.ok.inj h]
      exact hlen

/-! ## The threshold in the fall-back -/

theorem capped_score_fallback (d : LanguageDetector) (text : List Nat)
    (hk : no_keyword_shortcut d text) (l : Language) (hl : l ∈ d.languages_) :
    min (keyword_score l (text.map tolower)) 1 = 0 ∨
      min (keyword_score l (text.map tolower)) 1 = 1 / 100 := by
  obtain ⟨h1, h2, h3⟩ := hk
  unfold keyword_score
  split
  · have hc : d.languages_.contains Language.ENGLISH = true := by simpa using hl
    rw [hc, Bool.and_true] at h1
    unfold english_keyword at h1
    simp only [Bool.or_eq_false_iff] at h1
    left
    simp [h1.1.1.1, h1.1.1.2, h1.1.2, h1.2]
  · have hc : d.languages_.contains Language.GERMAN = true := by simpa using hl
    rw [hc, Bool.and_true] at h2
    unfold german_keyword at h2
    simp only [Bool.or_eq_false_iff] at h2
    left
    simp [h2.1.1.1, h2.1.1.2, h2.1.2, h2.2]
  · have hc : d.languages_.contains Language.FRENCH = true := by simpa using hl
    rw [hc, Bool.and_true] at h3
    unfold french_keyword at h3
    simp only [Bool.or_eq_false_iff] at h3
    left
    simp [h3.1.1, h3.1.2, h3.2]
  · right
    norm_num

/-- In the fall-back the confidence values are all 0, or they sum to 1 and each of them is
0 or one common value. -/
theorem fallback_values (d : LanguageDetector) (text : List Nat) (ht : text ≠ [])
    (hl : d.languages_ ≠ []) (hk : no_keyword_shortcut d text) :
    (∀ e ∈ compute_language_confidence_values d text, e.2 = 0) ∨
    (((compute_language_confidence_values d text).map Prod.snd).sum = 1 ∧
      ∃ c : ℚ, ∀ e ∈ compute_language_confidence_values d text, e.2 = 0 ∨ e.2 = c) := by
  by_cases hw : tokenize text = []
  · left
    intro e he
    rw [confidence_values_eq_of_no_word d text ht hl hw] at he
    have := (std_sort_perm confidence_order _).subset he
    obtain ⟨x, _, rfl⟩ := List.mem_map.mp this
    rfl
  · right
    refine ⟨confidence_values_sum d text ht hl hw, ?_⟩
    by_cases hS : 0 < (d.languages_.map fun l =>
        min (keyword_score l (text.map tolower)) 1).sum
    · refine ⟨1 / 100 / (d.languages_.map fun l =>
        min (keyword_score l (text.map tolower)) 1).sum, ?_⟩
      intro e he
      rw [confidence_values_eq d text ht hl hw] at he
      have := (std_sort_perm confidence_order _).subset he
      obtain ⟨x, hx, rfl⟩ := List.mem_map.mp this
      simp only [hS, if_true]
      rcases capped_score_fallback d text hk x hx with h | h
      · left
        rw [h, zero_div]
      · right
        rw [h]
    · refine ⟨1 / (d.languages_.length : ℚ), ?_⟩
      intro e he
      rw [confidence_values_eq d text ht hl hw] at he
      have := (std_sort_perm confidence_order _).subset he
      obtain ⟨x, hx, rfl⟩ := List.mem_map.mp this
      right
      simp only [hS, if_false]

theorem not_after_le {a b : Language × ℚ} (h : not_after a b) : b.2 ≤ a.2 := by
  unfold not_after at h
  rw [confidence_order_false_iff] at h
  rcases h with h | ⟨h, _⟩
  · exact le_of_lt h
  · exact le_of_eq h

/-- In the fall-back the two best confidence values are equal or differ by exactly 1. -/
theorem fallback_gap (d : LanguageDetector) (text : List Nat)
    (hk : no_keyword_shortcut d text) (first : Language × ℚ) (rest : List (Language × ℚ))
    (hcv : compute_language_confidence_values d text = first :: rest) :
    first.2 = second_confidence rest ∨ first.2 - second_confidence rest = 1 := by
  have ht : text ≠ [] := by
    rintro rfl
    rw [confidence_values_nil] at hcv
    exact List.noConfusion hcv
  have hl : d.languages_ ≠ [] := by
    intro h0
    unfold compute_language_confidence_values at hcv
    simp [h0] at hcv
  have hnonneg := confidence_values_nonneg d text
  have hsorted := confidence_values_sorted d text
  rw [hcv] at hnonneg hsorted
  rw [List.pairwise_cons] at hsorted
  rcases fallback_values d text ht hl hk with hzero | ⟨hsum, c, hc⟩
  · rw [hcv] at hzero
    left
    rw [hzero first (List.mem_cons_self _ _)]
    cases rest with
    | nil => rfl
    | cons s tl =>
      exact (hzero s (List.mem_cons_of_mem _ (List.mem_cons_self _ _))).symm
  · rw [hcv] at hsum hc
    rw [List.map_cons, List.sum_cons] at hsum
    cases rest with
    | nil =>
      right
      simp only [List.map_nil, List.sum_nil, add_zero] at hsum
      rw [hsum]
      simp [second_confidence]
    | cons s tl =>
      by_cases heq : first.2 = s.2
      · exact Or.inl heq
      · right
        have hs_le : s.2 ≤ first.2 := not_after_le (hsorted.1 s (List.mem_cons_self _ _))
        have hs0 : 0 ≤ s.2 := hnonneg s (List.mem_cons_of_mem _ (List.mem_cons_self _ _))
        have hfc := hc first (List.mem_cons_self _ _)
        have hsc := hc s (List.mem_cons_of_mem _ (List.mem_cons_self _ _))
        have hs : s.2 = 0 := by
          rcases hsc with h | h
          · exact h
          · rcases hfc with h2 | h2
            · rw [h2] at hs_le
              exact le_antisymm hs_le hs0
            · exact absurd (h2.trans h.symm) heq
        have htl : (tl.map Prod.snd).sum = 0 := by
          apply List.sum_eq_zero
          intro x hx
          obtain ⟨e, he, rfl⟩ := List.mem_map.mp hx
          have h1 : e.2 ≤ s.2 :=
            not_after_le ((List.pairwise_cons.mp hsorted.2).1 e he)
          have h2 : 0 ≤ e.2 :=
            hnonneg e (List.mem_cons_of_mem _ (List.mem_cons_of_mem _ he))
          rw [hs] at h1
          exact le_antisymm h1 h2
        rw [List.map_cons, List.sum_cons, hs, htl] at hsum
        show first.2 - s.2 = 1
        rw [hs]
        linarith

theorem detect_language_of_distance (languages : List Language) (m1 m2 : ℚ)
    (a1 b1 a2 b2 : Bool) (text : List Nat) (h1 : m1 ≤ 99 / 100) (h2 : m2 ≤ 99 / 100) :
    detect_language_of ⟨languages, m1, a1, b1⟩ text =
      detect_language_of ⟨languages, m2, a2, b2⟩ text := by
  by_cases hk : no_keyword_shortcut ⟨languages, m1, a1, b1⟩ text
  · have hk2 : no_keyword_shortcut ⟨languages, m2, a2, b2⟩ text := hk
    by_cases ht : text = []
    · subst ht
      rw [detect_language_of_nil, detect_language_of_nil]
    by_cases hl : languages = []
    · subst hl
      unfold detect_language_of
      simp
    rw [detect_language_of_fallback _ text ht hl hk, detect_language_of_fallback _ text ht hl hk2,
      confidence_values_perm ⟨languages, m2, a2, b2⟩ ⟨languages, m1, a1, b1⟩ text
        (List.Perm.refl _)]
    cases hcv : compute_language_confidence_values ⟨languages, m1, a1, b1⟩ text with
    | nil => rfl
    | cons first rest =>
      dsimp only
      rcases fallback_gap _ text hk first rest hcv with h | h
      · rw [if_pos h, if_pos h]
      · have hne : first.2 ≠ second_confidence rest := by
          intro heq
          rw [heq, sub_self] at h
          exact zero_ne_one h
        rw [if_neg hne, if_neg hne, h, if_neg (by linarith), if_neg (by linarith)]
  · unfold no_keyword_shortcut at hk
    unfold detect_language_of
    dsimp only at hk ⊢
    split_ifs <;> first | rfl | (exfalso; apply hk; simp_all)

/-- C35: the threshold never changes an outcome.  Two detectors over the same set of
languages, in any iteration order, with values of `minimum_relative_distance_` between 0
and 0.99 and any flags return the same result of `detect_language_of` for every text; in
the fall-back the two best confidence values are equal or differ by exactly 1. -/
theorem threshold_never_changes_outcome (d1 d2 : LanguageDetector) (text : List Nat)
    (hset : d1.languages_.Perm d2.languages_)
    (h1 : 0 ≤ d1.minimum_relative_distance_ ∧ d1.minimum_relative_distance_ ≤ 99 / 100)
    (h2 : 0 ≤ d2.minimum_relative_distance_ ∧ d2.minimum_relative_distance_ ≤ 99 / 100) :
    detect_language_of d1 text = detect_language_of d2 text ∧
    (no_keyword_shortcut d1 text → ∀ first rest,
      compute_language_confidence_values d1 text = first :: rest →
        first.2 - second_confidence rest = 0 ∨ first.2 - second_confidence rest = 1) := by
  constructor
  · rw [detect_language_of_perm d2
      ⟨d1.languages_, d2.minimum_relative_distance_, d2.is_low_accuracy_mode_enabled_,
        d2.is_built_from_one_language_⟩ text hset.symm rfl]
    exact detect_language_of_distance d1.languages_ _ _ _ _ _ _ text h1.2 h2.2
  · intro hk first rest hcv
    rcases fallback_gap d1 text hk first rest hcv with h | h
    · left
      rw [h, sub_self]
    · exact Or.inr h

/-- The theorem on the threshold applied: Chinese and English configured, distance 0 and
distance 0.99 with other flags and the other iteration order, text "abc"; both detectors
return Chinese. -/
theorem threshold_never_changes_outcome_witness :
    ([Language.CHINESE, .ENGLISH] : List Language).Perm [.ENGLISH, .CHINESE] ∧
    detect_language_of ⟨[.CHINESE, .ENGLISH], 0, false, false⟩ (bytes "abc") = some .CHINESE ∧
    detect_language_of ⟨[.CHINESE, .ENGLISH], 0, false, false⟩ (bytes "abc") =
      detect_language_of ⟨[.ENGLISH, .CHINESE], 99 / 100, true, false⟩ (bytes "abc") :=
  ⟨List.Perm.swap _ _ _, by decide!,
    (threshold_never_changes_outcome ⟨[.CHINESE, .ENGLISH], 0, false, false⟩
      ⟨[.ENGLISH, .CHINESE], 99 / 100, true, false⟩ (bytes "abc") (List.Perm.swap _ _ _)
      ⟨by norm_num, by norm_num⟩ ⟨by norm_num, by norm_num⟩).1⟩

/-- The theorem on the orders that throw applied: order 2 on the one-word text "Hello"
gives the empty list. -/
theorem generate_ngrams_throws_iff_witness :
    (1 ≤ 2 ∧ 2 ≤ 5) ∧ (tokenize (bytes "Hello")).length < 2 ∧
    generate_ngrams (bytes "Hello") 2 = .ok [] :=
  ⟨⟨by decide, by decide⟩, by decide,
    (generate_ngrams_throws_iff (bytes "Hello") 2).2.2.1 ⟨by decide, by decide⟩
      (Or.inr (by decide))⟩

/-- The theorem on the orders 4 and 5 applied: order 4 on a text of four words. -/
theorem generate_ngrams_of_order_four_and_five_witness :
    generate_ngrams (bytes "one two three four") 4 = .ok [] :=
  (generate_ngrams_of_order_four_and_five (bytes "one two three four") 4).1 (Or.inl rfl)

end lingua
